import Mathlib

/-
Verification development for the streaming JSON pull-parser, the tagged-segment
stream splitter and the synchronized reducer wrapper of this repository.

Characters are modelled as UTF-16 code units (natural numbers), matching the
JavaScript string model of the source: a string is a List Nat of code units, a
fragment stream is a List (List Nat).  The asynchronous machinery of the source
is sequential state passing here: every await point is ordinary sequencing, and
the single suspension primitive (pulling the next fragment) is the head
extraction from the stored fragment list.  Fallible operations return Except.
-/

set_option maxHeartbeats 1000000
set_option maxRecDepth 4000

/-- One code unit of a JavaScript string. -/
abbrev CU := Nat

/-- Conversion helper: a list of characters to the list of their code units. -/
def l2c (cs : List Char) : List CU := cs.map Char.toNat

/-- The JavaScript regular expression test for whitespace characters, as used by
the source in consumeWhitespace: the code-unit set matched by the \s class. -/
def isWsJS (c : CU) : Bool :=
  c = 9 || c = 10 || c = 11 || c = 12 || c = 13 || c = 32 || c = 160 || c = 0x1680 ||
  (0x2000 ≤ c && c ≤ 0x200A) || c = 0x2028 || c = 0x2029 || c = 0x202F ||
  c = 0x205F || c = 0x3000 || c = 0xFEFF

/-- The four JSON-standard whitespace code units (space, tab, CR, LF), used by
the reference parser. -/
def isWs4 (c : CU) : Bool := c = 9 || c = 10 || c = 13 || c = 32

/-- Decimal digit test, the \d class of the source. -/
def isDigit (c : CU) : Bool := 48 ≤ c && c ≤ 57

/-- Nonzero decimal digit, the [1-9] class of the source. -/
def isDigit19 (c : CU) : Bool := 49 ≤ c && c ≤ 57

/-- Hexadecimal digit test, the [0-9A-Fa-f] class of the source. -/
def isHexDigit (c : CU) : Bool :=
  (48 ≤ c && c ≤ 57) || (65 ≤ c && c ≤ 70) || (97 ≤ c && c ≤ 102)

/-- Numeric value of a hexadecimal digit code unit. -/
def hexVal (c : CU) : Nat :=
  if 48 ≤ c ∧ c ≤ 57 then c - 48
  else if 65 ≤ c ∧ c ≤ 70 then c - 55
  else c - 87

/-- NUMBER_START_CHARS of the source: minus sign or a decimal digit. -/
def isNumStart (c : CU) : Bool := c = 45 || isDigit c

/-- SPECIAL_ESCAPE_CHARS of the source: the eight single-character escapes. -/
def specialEscape (c : CU) : Option CU :=
  if c = 98 then some 8        -- \b
  else if c = 102 then some 12 -- \f
  else if c = 110 then some 10 -- \n
  else if c = 114 then some 13 -- \r
  else if c = 116 then some 9  -- \t
  else if c = 34 then some 34  -- \"
  else if c = 92 then some 92  -- backslash
  else if c = 47 then some 47  -- /
  else none

/-- The closed error taxonomy of the parser.  Each constructor corresponds to
one family of thrown errors in the source; payloads record the data that the
source interpolates into the message. -/
inductive Err where
  | readPastEnd : Err
  | expectedChar (expected : List CU) (got : Option CU) : Err
  | unexpectedValueChar (got : Option CU) : Err
  | invalidEscape (c : CU) : Err
  | incompleteEscape : Err
  | invalidUnicodeEscape (hex : List CU) (got : Option CU) : Err
  | invalidNumber (stage : Nat) : Err
  | nonFiniteNumber (token : List CU) : Err
  | parseOnce : Err
  | staleHandle : Err
  | alreadyIterated : Err
  | fuelOut : Err
deriving Repr, DecidableEq

/-- The JSON value types distinguished by peekValueType. -/
inductive VType where
  | vstr | vnum | vbool | vnull | vobj | varr
deriving Repr, DecidableEq

/-- Materialized JSON value trees.  Numbers carry the lexed numeral token
(IEEE-754 conversion is a function of the token, so token equality implies
double equality); objects are association lists in source order, which is a
refinement of the JavaScript record with duplicate keys overwriting. -/
inductive JValue where
  | jstr (s : List CU) : JValue
  | jnum (token : List CU) : JValue
  | jbool (b : Bool) : JValue
  | jnull : JValue
  | jobj (entries : List (List CU × JValue)) : JValue
  | jarr (elems : List JValue) : JValue
deriving Repr

/-- The mutable state of a StreamingJSON instance: the one-character slot, the
pending fragment buffer, the not-yet-pulled fragments of the source stream, and
the nesting level counter. -/
structure SJ where
  currentChar : Option CU
  buffer : List CU
  stream : List (List CU)
  nestingLevel : Int
deriving Repr

/-- The state-and-error monad in which every parser operation of the source is
embedded: state passing over SJ with Except for thrown errors. -/
def M (α : Type) : Type := SJ → Except Err (α × SJ)

def M.pure (a : α) : M α := fun s => .ok (a, s)

def M.bind (m : M α) (k : α → M β) : M β := fun s =>
  match m s with
  | .error e => .error e
  | .ok (a, t) => k a t

instance : Monad M where
  pure := M.pure
  bind := M.bind

/-- Read the parser state. -/
def mget : M SJ := fun s => .ok (s, s)

/-- Replace the parser state. -/
def mset (t : SJ) : M Unit := fun _ => .ok ((), t)

/-- Throw an error (a JavaScript throw). -/
def mthrow (e : Err) : M α := fun _ => .error e

theorem M.bind_apply (m : M α) (k : α → M β) (s : SJ) :
    (m >>= k) s = match m s with
      | .error e => .error e
      | .ok (a, t) => k a t := rfl

theorem M.pure_apply (a : α) (s : SJ) : (Pure.pure a : M α) s = .ok (a, s) := rfl

theorem mget_apply (s : SJ) : mget s = .ok (s, s) := rfl

theorem mset_apply (t s : SJ) : mset t s = .ok ((), t) := rfl

theorem mthrow_apply (e : Err) (s : SJ) : (mthrow e : M α) s = .error e := rfl

/-- StreamingJSON.nextChar: if the buffer is empty, pull exactly one fragment
from the stream (an exhausted stream leaves the buffer empty); then an empty
buffer means end of stream (throwing if the character slot was already empty),
otherwise shift the first buffered code unit into the character slot. -/
def nextChar : M Unit := fun s =>
  let s1 := if s.buffer.isEmpty then
              match s.stream with
              | [] => s
              | f :: fs => { s with buffer := f, stream := fs }
            else s
  if s1.buffer.isEmpty then
    match s1.currentChar with
    | none => .error .readPastEnd
    | some _ => .ok ((), { s1 with currentChar := none })
  else
    match s1.buffer with
    | c :: bs => .ok ((), { s1 with currentChar := some c, buffer := bs })
    | [] => .error .readPastEnd

/-- StreamingJSON.maybeNextChar: advance only when the buffer is nonempty,
reporting whether an advance happened; never awaits the source. -/
def maybeNextChar : M Bool := do
  let s ← mget
  if s.buffer.isEmpty then M.pure false
  else do
    nextChar
    M.pure true

/-- The whitespace loop of consumeWhitespace, fueled by the number of remaining
iterations: while the character slot holds a whitespace code unit, advance. -/
def wsLoop : Nat → M Unit
  | 0 => fun s =>
    match s.currentChar with
    | some c => if isWsJS c then .error .fuelOut else .ok ((), s)
    | none => .ok ((), s)
  | f + 1 => fun s =>
    match s.currentChar with
    | some c =>
      if isWsJS c then (do nextChar; wsLoop f) s
      else .ok ((), s)
    | none => .ok ((), s)

/-- The entry step of consumeWhitespace: load a character when the slot is
empty. -/
def cwLoad : M Unit := do
  let s ← mget
  if s.currentChar = none then nextChar else M.pure ()

/-- StreamingJSON.consumeWhitespace: load a character if the slot is empty,
then skip whitespace. -/
def consumeWhitespace (f : Nat) : M Unit := do
  cwLoad
  wsLoop f

/-- StreamingJSON.peekValueType: classify the upcoming value from the current
character without consuming it. -/
def peekValueType : M VType := do
  let s ← mget
  match s.currentChar with
  | some c =>
    if c = 34 then M.pure .vstr
    else if c = 123 then M.pure .vobj
    else if c = 91 then M.pure .varr
    else if c = 116 ∨ c = 102 then M.pure .vbool
    else if c = 110 then M.pure .vnull
    else if c = 45 ∨ isDigit c then M.pure .vnum
    else mthrow (.unexpectedValueChar (some c))
  | none => mthrow (.unexpectedValueChar none)

/-- StreamingJSON.assertChar: the current character must be one of the expected
code units, else throw (end of stream also throws). -/
def assertChar (expected : List CU) : M Unit := do
  let s ← mget
  match s.currentChar with
  | none => mthrow (.expectedChar expected none)
  | some c =>
    if c ∈ expected then M.pure ()
    else mthrow (.expectedChar expected (some c))

/-- StreamingJSON.isCurrentChar generalized: returns the current character when
it satisfies the test, none otherwise (none also at end of stream). -/
def ccSat (p : CU → Bool) : M (Option CU) := do
  let s ← mget
  match s.currentChar with
  | some c => if p c then M.pure (some c) else M.pure none
  | none => M.pure none

/-- The four-step hex loop of StreamingJSON.parseUnicodeEscape: advance, check
that the character is a hex digit, accumulate its value. -/
def parseUEGo : Nat → Nat → List CU → M Nat
  | 0, v, _ => M.pure v
  | n + 1, v, hs => do
    nextChar
    let s ← mget
    match s.currentChar with
    | some c =>
      if isHexDigit c then parseUEGo n (v * 16 + hexVal c) (hs ++ [c])
      else mthrow (.invalidUnicodeEscape hs (some c))
    | none => mthrow (.invalidUnicodeEscape hs none)

/-- StreamingJSON.parseUnicodeEscape: consume exactly four hex digits after the
u and return the corresponding 16-bit code unit (String.fromCharCode of the
parsed hex value). -/
def parseUnicodeEscape : M Nat := parseUEGo 4 0 []

/-- Events of the chunked string reader: a yielded decoded fragment, or an
await of the next source fragment taken because the local buffer was exhausted
(recording the accumulated-but-unemitted fragment at the moment of the await). -/
inductive SEv where
  | yieldChunk (chunk : List CU) : SEv
  | pullEx (pending : List CU) : SEv
deriving Repr, DecidableEq

/-- The decoded fragments of an event trace, in order. -/
def yieldsOf (evs : List SEv) : List (List CU) :=
  evs.filterMap fun e => match e with
    | .yieldChunk c => some c
    | .pullEx _ => none

/-- Concatenation of all yielded fragments of a trace. -/
def joinYields (evs : List SEv) : List CU := (yieldsOf evs).flatten

/-- Every buffer-exhaustion await in the trace happened with an empty pending
accumulator, i.e. any nonempty accumulated fragment was emitted first. -/
def pendingsEmpty (evs : List SEv) : Bool :=
  evs.all fun e => match e with
    | .yieldChunk _ => true
    | .pullEx p => p.isEmpty

/-- The character-decoding step of one stringChunks iteration: a backslash
consumes and decodes an escape (Unicode or single-character), any other
character is appended verbatim, and an empty slot contributes nothing. -/
def stringCharStep (chunk : List CU) : M (List CU) := do
  let s ← mget
  match s.currentChar with
  | some c =>
    if c = 92 then do
      nextChar
      let u ← ccSat (fun d => d = 117)
      match u with
      | some _ => do
        let cu ← parseUnicodeEscape
        M.pure (chunk ++ [cu])
      | none => do
        let s2 ← mget
        match s2.currentChar with
        | some d =>
          match specialEscape d with
          | some e => M.pure (chunk ++ [e])
          | none => mthrow (.invalidEscape d)
        | none => mthrow .incompleteEscape
    else M.pure (chunk ++ [c])
  | none => M.pure chunk

mutual

/-- The character loop of StreamingJSON.stringChunks, from the first character
after the opening quote, carrying the accumulated chunk.  Terminates on the
closing quote (emitting the pending chunk and consuming the quote); otherwise
decodes one character (escapes included) and advances, emitting the pending
chunk before awaiting the source whenever the local buffer is exhausted. -/
def stringLoop : Nat → List CU → M (List SEv)
  | 0, _ => mthrow .fuelOut
  | f + 1, chunk => fun s =>
    if s.currentChar = some 34 then
      (do
        let evs := if chunk.isEmpty then ([] : List SEv) else [.yieldChunk chunk]
        nextChar
        M.pure evs) s
    else
      (do
        let chunk' ← stringCharStep chunk
        stringLoopStep f chunk') s

/-- The advance at the end of each stringChunks iteration: advance from the
buffer if possible; otherwise emit any nonempty accumulated chunk, then await
the next source fragment, then continue. -/
def stringLoopStep : Nat → List CU → M (List SEv)
  | f, chunk' => do
    let didRead ← maybeNextChar
    if didRead then stringLoop f chunk'
    else do
      let pre := if chunk'.isEmpty then ([] : List SEv) else [.yieldChunk chunk']
      let pending := if chunk'.isEmpty then chunk' else []
      nextChar
      let rest ← stringLoop f pending
      M.pure (pre ++ .pullEx pending :: rest)

end

/-- StreamingJSON.stringChunks: skip whitespace, consume the opening quote and
run the character loop, producing the event trace of the generator. -/
def stringChunksM (f : Nat) : M (List SEv) := do
  consumeWhitespace f
  assertChar [34]
  nextChar
  stringLoop f []

/-- StreamingJSON.string: concatenation of all fragments that stringChunks
yields. -/
def parseString (f : Nat) : M (List CU) := do
  let evs ← stringChunksM f
  M.pure (joinYields evs)

/-- Apply a function to the parser state. -/
def mmodify (g : SJ → SJ) : M Unit := fun s => .ok ((), g s)

theorem mmodify_apply (g : SJ → SJ) (s : SJ) : mmodify g s = .ok ((), g s) := rfl

/-- Decimal value of a digit string. -/
def digitsToNat (ds : List CU) : Nat := ds.foldl (fun a c => a * 10 + (c - 48)) 0

/-- Model of the overflow test Number.isFinite(Number(token)) being false, for
tokens of the number grammar: the exact decimal magnitude of the token, rounded
to nearest IEEE-754 double, is infinite exactly when it reaches
2 to the 1024 minus 2 to the 970 (the midpoint above the largest finite
double); this is an exact integer comparison on the token digits. -/
def numOverflows (tok : List CU) : Bool :=
  let t1 := match tok with
    | 45 :: r => r
    | _ => tok
  let intDs := t1.takeWhile isDigit
  let r1 := t1.dropWhile isDigit
  let fracDs := match r1 with
    | 46 :: r => r.takeWhile isDigit
    | _ => []
  let r2 := match r1 with
    | 46 :: r => r.dropWhile isDigit
    | _ => r1
  let expV : Int := match r2 with
    | e :: rest =>
      if e = 101 ∨ e = 69 then
        match rest with
        | 45 :: ds => -(digitsToNat (ds.takeWhile isDigit) : Int)
        | 43 :: ds => (digitsToNat (ds.takeWhile isDigit) : Int)
        | ds => (digitsToNat (ds.takeWhile isDigit) : Int)
      else 0
    | [] => 0
  let D := digitsToNat (intDs ++ fracDs)
  let scale : Int := expV - fracDs.length
  let T : Nat := 2 ^ 1024 - 2 ^ 970
  if 0 ≤ scale then decide (T ≤ D * 10 ^ scale.toNat)
  else decide (T * 10 ^ ((-scale).toNat) ≤ D)

/-- The digit run loop of StreamingJSON.number: while the character slot holds
a digit, append it and advance. -/
def digitsLoop : Nat → List CU → M (List CU)
  | 0, acc => fun s =>
    match s.currentChar with
    | some c => if isDigit c then .error .fuelOut else .ok (acc, s)
    | none => .ok (acc, s)
  | f + 1, acc => fun s =>
    match s.currentChar with
    | some c =>
      if isDigit c then (do nextChar; digitsLoop f (acc ++ [c])) s
      else .ok (acc, s)
    | none => .ok (acc, s)

/-- The optional minus sign of StreamingJSON.number. -/
def numMinus : M (List CU) := do
  let b ← ccSat (fun c => c = 45)
  match b with
  | some _ => do
    nextChar
    M.pure [45]
  | none => M.pure ([] : List CU)

/-- The integer part of StreamingJSON.number: a single zero, or a nonzero
digit followed by a digit run; otherwise the digit-expected error. -/
def numIntPart (f : Nat) (n0 : List CU) : M (List CU) := do
  let b0 ← ccSat (fun c => c = 48)
  match b0 with
  | some _ => do
    nextChar
    M.pure (n0 ++ [48])
  | none => do
    let b19 ← ccSat isDigit19
    match b19 with
    | some _ => digitsLoop f n0
    | none => mthrow (.invalidNumber 0)

/-- The optional fraction part of StreamingJSON.number: a dot must be followed
by at least one digit. -/
def numFracPart (f : Nat) (n1 : List CU) : M (List CU) := do
  let b ← ccSat (fun c => c = 46)
  match b with
  | some _ => do
    nextChar
    let bd ← ccSat isDigit
    match bd with
    | some _ => digitsLoop f (n1 ++ [46])
    | none => mthrow (.invalidNumber 1)
  | none => M.pure n1

/-- The optional sign inside the exponent of StreamingJSON.number. -/
def numExpSign (n2 : List CU) (ec : CU) (bs : Option CU) : M (List CU) :=
  match bs with
  | some sc => do
    nextChar
    M.pure (n2 ++ [ec, sc])
  | none => M.pure (n2 ++ [ec])

/-- The optional exponent part of StreamingJSON.number: e or E, an optional
sign, then at least one digit. -/
def numExpPart (f : Nat) (n2 : List CU) : M (List CU) := do
  let b ← ccSat (fun c => c = 101 ∨ c = 69)
  match b with
  | some ec => do
    nextChar
    let bs ← ccSat (fun c => c = 43 ∨ c = 45)
    let n2' ← numExpSign n2 ec bs
    let bd ← ccSat isDigit
    match bd with
    | some _ => digitsLoop f n2'
    | none => mthrow (.invalidNumber 2)
  | none => M.pure n2

/-- StreamingJSON.number: optional minus; integer part; optional fraction;
optional exponent; then the finiteness check of the converted numeral. -/
def parseNumber (f : Nat) : M JValue := do
  consumeWhitespace f
  assertChar [45, 48, 49, 50, 51, 52, 53, 54, 55, 56, 57]
  let n0 ← numMinus
  let n1 ← numIntPart f n0
  let n2 ← numFracPart f n1
  let n3 ← numExpPart f n2
  if numOverflows n3 then mthrow (.nonFiniteNumber n3) else M.pure (.jnum n3)

/-- The keyword loop of StreamingJSON.boolean: assert each expected character
and advance past it. -/
def matchChars : List CU → M Unit
  | [] => M.pure ()
  | c :: cs => do
    assertChar [c]
    nextChar
    matchChars cs

/-- StreamingJSON.boolean: the literal true or false, chosen by the current
character. -/
def parseBoolean (f : Nat) : M JValue := do
  consumeWhitespace f
  assertChar [116, 102]
  let s ← mget
  let v := s.currentChar = some 116
  matchChars (if v then [116, 114, 117, 101] else [102, 97, 108, 115, 101])
  M.pure (.jbool v)

/-- The keyword loop of StreamingJSON.null: advance, then assert the expected
character. -/
def nextAssert : List CU → M Unit
  | [] => M.pure ()
  | c :: cs => do
    nextChar
    assertChar [c]
    nextAssert cs

/-- StreamingJSON.null: the literal null, consuming one character past it. -/
def parseNull (f : Nat) : M JValue := do
  consumeWhitespace f
  assertChar [110]
  nextAssert [117, 108, 108]
  nextChar
  M.pure .jnull

/-- The separator step at the end of each cursor iteration: when the current
character is a comma, advance past it. -/
def sepAdvance : M Unit := do
  let b ← ccSat (fun c => c = 44)
  match b with
  | some _ => nextChar
  | none => M.pure ()

/-- StreamingJSON.object: skip whitespace, consume the opening brace and bump
the nesting level; entries are consumed by the cursor loops below. -/
def enterObject (f : Nat) : M Unit := do
  consumeWhitespace f
  assertChar [123]
  nextChar
  mmodify fun t => { t with nestingLevel := t.nestingLevel + 1 }

/-- StreamingJSON.array: skip whitespace, consume the opening bracket and bump
the nesting level. -/
def enterArray (f : Nat) : M Unit := do
  consumeWhitespace f
  assertChar [91]
  nextChar
  mmodify fun t => { t with nestingLevel := t.nestingLevel + 1 }

mutual

/-- StreamingJSON.value: skip whitespace, peek the value type and dispatch;
compound values are materialized through the eager cursor path (the iteration
of StreamingObject.value and StreamingArray.value with every handle
consumed). -/
def valueF : Nat → M JValue
  | 0 => mthrow .fuelOut
  | f + 1 => do
    consumeWhitespace f
    let t ← peekValueType
    match t with
    | .vstr => do
      let cs ← parseString f
      M.pure (.jstr cs)
    | .vobj => do
      enterObject f
      let es ← objLoopAll f []
      M.pure (.jobj es)
    | .varr => do
      enterArray f
      let es ← arrLoopAll f []
      M.pure (.jarr es)
    | .vbool => parseBoolean f
    | .vnull => parseNull f
    | .vnum => parseNumber f

/-- The object cursor iteration with every yielded handle consumed through its
value reader: whitespace, closing-brace test (consuming it and decrementing
the nesting level), else key string, colon, the value of the entry, then the
separator check, accumulating the entries in order. -/
def objLoopAll : Nat → List (List CU × JValue) → M (List (List CU × JValue))
  | 0, _ => mthrow .fuelOut
  | f + 1, acc => do
    consumeWhitespace f
    let s ← mget
    if s.currentChar = some 125 then do
      nextChar
      mmodify fun t => { t with nestingLevel := t.nestingLevel - 1 }
      M.pure acc
    else do
      let k ← parseString f
      consumeWhitespace f
      assertChar [58]
      nextChar
      let v ← valueF f
      consumeWhitespace f
      assertChar [44, 125]
      sepAdvance
      objLoopAll f (acc ++ [(k, v)])

/-- The array cursor iteration with every yielded handle consumed through its
value reader. -/
def arrLoopAll : Nat → List JValue → M (List JValue)
  | 0, _ => mthrow .fuelOut
  | f + 1, acc => do
    consumeWhitespace f
    let s ← mget
    if s.currentChar = some 93 then do
      nextChar
      mmodify fun t => { t with nestingLevel := t.nestingLevel - 1 }
      M.pure acc
    else do
      let v ← valueF f
      consumeWhitespace f
      assertChar [44, 93]
      sepAdvance
      arrLoopAll f (acc ++ [v])

end

/-- The while loop of StreamingJSON.skip: while the nesting level exceeds the
recorded snapshot, read another value. -/
def skipWhile (f : Nat) (init : Int) : M Unit := fun s =>
  if init < s.nestingLevel then
    match f with
    | 0 => .error .fuelOut
    | f' + 1 => (do let _ ← valueF f'; skipWhile f' init) s
  else .ok ((), s)

/-- StreamingJSON.skip: read one value, snapshot the nesting level, then keep
reading values while the level exceeds the snapshot.  The snapshot is taken
after the first read, exactly as in the source. -/
def skipF (f : Nat) : M Unit := do
  let _ ← valueF f
  let s ← mget
  skipWhile f s.nestingLevel

/-- The object cursor iteration with no yielded handle consumed: each unread
entry value is skipped by the cursor before it advances. -/
def objLoopNone : Nat → M Unit
  | 0 => mthrow .fuelOut
  | f + 1 => do
    consumeWhitespace f
    let s ← mget
    if s.currentChar = some 125 then do
      nextChar
      mmodify fun t => { t with nestingLevel := t.nestingLevel - 1 }
      M.pure ()
    else do
      let _ ← parseString f
      consumeWhitespace f
      assertChar [58]
      nextChar
      skipF f
      consumeWhitespace f
      assertChar [44, 125]
      sepAdvance
      objLoopNone f

/-- The array cursor iteration with no yielded handle consumed. -/
def arrLoopNone : Nat → M Unit
  | 0 => mthrow .fuelOut
  | f + 1 => do
    consumeWhitespace f
    let s ← mget
    if s.currentChar = some 93 then do
      nextChar
      mmodify fun t => { t with nestingLevel := t.nestingLevel - 1 }
      M.pure ()
    else do
      skipF f
      consumeWhitespace f
      assertChar [44, 93]
      sepAdvance
      arrLoopNone f

/-- The flag pair of an UnparsedValue handle: whether a typed reader has been
used, and whether the owning cursor has not yet advanced past it. -/
structure UV where
  didParse : Bool
  valid : Bool
deriving Repr, DecidableEq

/-- A freshly constructed handle, as yielded by a cursor. -/
def uvFresh : UV := { didParse := false, valid := true }

/-- UnparsedValue.markAsParsed: a handle already consumed throws the
parse-once error; an invalidated handle throws the stale-handle error;
otherwise the consumed flag is set. -/
def markAsParsed (h : UV) : Except Err UV :=
  if h.didParse then .error .parseOnce
  else if !h.valid then .error .staleHandle
  else .ok { h with didParse := true }

/-- UnparsedValue.invalidate: called by the owning cursor when it advances
past the handle. -/
def uvInvalidate (h : UV) : UV := { h with valid := false }

/-- UnparsedValue.value: mark the handle as parsed, then read a value through
the parent parser; returns the value and the updated handle. -/
def uvValue (f : Nat) (h : UV) : M (JValue × UV) := fun s =>
  match markAsParsed h with
  | .error e => .error e
  | .ok h' =>
    match valueF f s with
    | .error e => .error e
    | .ok (v, t) => .ok ((v, h'), t)

/-- The flag pair of a container cursor: whether its iterator was started, and
the cached eagerly extracted value if one was computed. -/
structure ObjCursor where
  iteratorCalled : Bool
  extracted : Option (List (List CU × JValue))
deriving Repr

/-- A freshly entered object cursor. -/
def objCursorFresh : ObjCursor := { iteratorCalled := false, extracted := none }

/-- StreamingObject.value: refused once the iterator has been called; else the
cached extraction is returned if present; else the cursor iterates internally
with every handle consumed (which marks the iterator as called) and caches the
result. -/
def objCursorValue (f : Nat) (c : ObjCursor) : M (List (List CU × JValue) × ObjCursor) := fun s =>
  if c.iteratorCalled then .error .alreadyIterated
  else
    match c.extracted with
    | some v => .ok ((v, c), s)
    | none =>
      match objLoopAll f [] s with
      | .error e => .error e
      | .ok (vs, t) => .ok ((vs, { iteratorCalled := true, extracted := some vs }), t)

/-- The array cursor flags. -/
structure ArrCursor where
  iteratorCalled : Bool
  extracted : Option (List JValue)
deriving Repr

/-- A freshly entered array cursor. -/
def arrCursorFresh : ArrCursor := { iteratorCalled := false, extracted := none }

/-- StreamingArray.value, exactly parallel to StreamingObject.value. -/
def arrCursorValue (f : Nat) (c : ArrCursor) : M (List JValue × ArrCursor) := fun s =>
  if c.iteratorCalled then .error .alreadyIterated
  else
    match c.extracted with
    | some v => .ok ((v, c), s)
    | none =>
      match arrLoopAll f [] s with
      | .error e => .error e
      | .ok (vs, t) => .ok ((vs, { iteratorCalled := true, extracted := some vs }), t)

/-- The state with which every claim run begins: empty character slot, empty
buffer, the fragment sequence still unpulled, nesting level zero. -/
def initSJ (frags : List (List CU)) : SJ :=
  { currentChar := none, buffer := [], stream := frags, nestingLevel := 0 }

/-- The two modes of the tagged-segment splitter. -/
inductive SMMode where
  | text | thought
deriving Repr, DecidableEq

/-- The state of TextThoughtStateMachine: the carry-over buffer, the current
mode, the current generation id, and the supply counter modelling generateId. -/
structure SMState where
  buffer : List CU
  mode : SMMode
  currentId : Nat
  fresh : Nat
deriving Repr, DecidableEq

/-- One dispatched action of the splitter: APPEND_TEXT when emitted in text
mode, APPEND_THOUGHT in thought mode, with the generation id and the delta. -/
structure SMEvent where
  kind : SMMode
  id : Nat
  delta : List CU
deriving Repr, DecidableEq

/-- The marker the machine is looking for in the given mode: the opener in
text mode, the closer in thought mode. -/
def smTarget (m : SMMode) : List CU :=
  match m with
  | .text => l2c ['<', 'p', 'l', 'a', 'n', '>']
  | .thought => l2c ['<', '/', 'p', 'l', 'a', 'n', '>']

/-- The dispatch call of the machine, using the mode and generation id current
at the moment of dispatch. -/
def mkSMEvent (st : SMState) (delta : List CU) : SMEvent :=
  { kind := st.mode, id := st.currentId, delta := delta }

/-- switchMode as called from append: the mode always toggles, so a fresh
generation id is issued. -/
def smSwitch (st : SMState) : SMState :=
  { st with
    mode := if st.mode = .text then .thought else .text,
    currentId := st.fresh,
    fresh := st.fresh + 1 }

/-- The initial machine state: empty buffer, text mode, one id issued. -/
def smInit : SMState := { buffer := [], mode := .text, currentId := 0, fresh := 1 }

/-- Result of the character scan of append: a complete marker was found
(with the content accumulated before it and the input remaining after it), or
the input ended (with the accumulated content and the match pointer). -/
inductive ScanOut where
  | found (content : List CU) (restBuf : List CU) : ScanOut
  | ended (content : List CU) (seqIdx : Nat) : ScanOut
deriving Repr, DecidableEq

/-- The scanning loop of TextThoughtStateMachine.append over the concatenated
buffer: a character equal to the next marker character advances the match
pointer (a full match reports found); on a mismatch the previously matched
marker prefix is appended back to the accumulator followed by the current
character (take 0 is empty when no prefix was matched), and the match pointer
restarts at zero for the following character. -/
def smScan (target : List CU) : List CU → List CU → Nat → ScanOut
  | [], acc, k => .ended acc k
  | c :: rest, acc, k =>
    if target.get? k = some c then
      if k + 1 = target.length then .found acc rest
      else smScan target rest acc (k + 1)
    else smScan target rest (acc ++ target.take k ++ [c]) 0

/-- The found branch of the scan consumes at least the marker character it
matched, so the remaining buffer is strictly shorter than the input. -/
theorem smScan_found_lt (target : List CU) :
    ∀ (input acc : List CU) (k : Nat) (cont rest : List CU),
      smScan target input acc k = .found cont rest → rest.length < input.length := by
  intro input
  induction input with
  | nil =>
    intro acc k cont rest h
    simp [smScan] at h
  | cons c cs ih =>
    intro acc k cont rest h
    rw [smScan] at h
    by_cases h1 : target.get? k = some c
    · simp only [h1, if_true] at h
      by_cases h2 : k + 1 = target.length
      · simp only [h2, if_true] at h
        cases h
        simp
      · simp only [h2, if_false] at h
        have := ih _ _ _ _ h
        simpa using Nat.lt_trans this (Nat.lt_succ_self _)
    · simp only [h1, if_false] at h
      have := ih _ _ _ _ h
      simpa using Nat.lt_trans this (Nat.lt_succ_self _)

/-- TextThoughtStateMachine.append: append the fragment to the buffer and scan
it for the marker of the current mode.  On a complete marker: dispatch any
accumulated content under the current generation, toggle the mode with a fresh
generation, and reprocess the remaining buffer.  At the end of input: dispatch
any accumulated content and retain the matched marker prefix as the new
buffer. -/
def smAppend (st : SMState) (content : List CU) : List SMEvent × SMState :=
  match h : smScan (smTarget st.mode) (st.buffer ++ content) [] 0 with
  | .found cont restBuf =>
    let evs := if cont.isEmpty then ([] : List SMEvent) else [mkSMEvent st cont]
    let st2 : SMState :=
      { smSwitch st with buffer := restBuf }
    let r2 := smAppend st2 []
    (evs ++ r2.1, r2.2)
  | .ended cont k =>
    ((if cont.isEmpty then [] else [mkSMEvent st cont]),
      { st with buffer := (smTarget st.mode).take k })
termination_by (st.buffer ++ content).length
decreasing_by
  simp only [smSwitch, List.append_nil]
  exact smScan_found_lt _ _ _ _ _ _ h

/-- Scan rule modelled from the claim text: on a mismatch while the match
pointer is nonzero, the matched prefix is appended back to the accumulator and
the match restarts at the current character (which is re-tested against the
start of the marker, rather than being consumed as content). -/
def smScanClaim (target : List CU) : List CU → List CU → Nat → ScanOut
  | [], acc, k => .ended acc k
  | c :: rest, acc, k =>
    if target.get? k = some c then
      if k + 1 = target.length then .found acc rest
      else smScanClaim target rest acc (k + 1)
    else
      if 0 < k then smScanClaim target (c :: rest) (acc ++ target.take k) 0
      else smScanClaim target rest (acc ++ [c]) 0
termination_by input _ k => (input.length, k)
decreasing_by
  · simp
    omega
  · simp
    omega
  · simp
    exact Prod.Lex.left _ _ (by omega)

/-- The synchronized reducer wrapper state: the folded state and the sequence
of actions pushed onto the outbound stream so far. -/
structure SyncRed (St A : Type) where
  state : St
  log : List A

/-- syncReducer dispatch: fold the action into the state with the reducing
function, then push the same action onto the stream; a throwing reducer aborts
before either write, leaving state and stream untouched and propagating the
failure to the caller. -/
def dispatchR (reducer : St → A → Except E St) (r : SyncRed St A) (a : A) :
    Except E St × SyncRed St A :=
  match reducer r.state a with
  | .ok st' => (.ok st', { state := st', log := r.log ++ [a] })
  | .error e => (.error e, r)

/-- JSON-standard whitespace skipping of the reference parser. -/
def dropWs (l : List CU) : List CU := l.dropWhile isWs4

/-- Reference decoder for the body of a JSON string literal (after the opening
quote): plain characters (control characters below 0x20 rejected, as in the
JSON grammar) are taken verbatim, the eight single-character escapes map to
their expansions, and a Unicode escape of exactly four hex digits decodes to
the single corresponding 16-bit code unit; returns the decoded code units and
the input remaining after the closing quote. -/
def refStringBody : List CU → Option (List CU × List CU)
  | [] => none
  | c :: r =>
    if c = 34 then some ([], r)
    else if c = 92 then
      match r with
      | [] => none
      | e :: r2 =>
        if e = 117 then
          match r2 with
          | h1 :: h2 :: h3 :: h4 :: r3 =>
            if isHexDigit h1 && isHexDigit h2 && isHexDigit h3 && isHexDigit h4 then
              match refStringBody r3 with
              | some (d, rest) =>
                some ((((hexVal h1 * 16 + hexVal h2) * 16 + hexVal h3) * 16 + hexVal h4) :: d,
                  rest)
              | none => none
            else none
          | _ => none
        else
          match specialEscape e with
          | some x =>
            match refStringBody r2 with
            | some (d, rest) => some (x :: d, rest)
            | none => none
          | none => none
    else if c < 32 then none
    else
      match refStringBody r with
      | some (d, rest) => some (c :: d, rest)
      | none => none

/-- Reference integer part of a JSON number: a single zero, or a nonzero digit
followed by a digit run. -/
def refNumInt : List CU → Option (List CU × List CU)
  | [] => none
  | c :: r =>
    if c = 48 then some ([48], r)
    else if isDigit19 c then some (c :: r.takeWhile isDigit, r.dropWhile isDigit)
    else none

/-- Reference fraction part of a JSON number: nothing, or a dot followed by at
least one digit. -/
def refNumFrac (l : List CU) : Option (List CU × List CU) :=
  match l with
  | 46 :: r =>
    if (r.takeWhile isDigit).isEmpty then none
    else some (46 :: r.takeWhile isDigit, r.dropWhile isDigit)
  | other => some ([], other)

/-- Reference exponent part of a JSON number: nothing, or e or E, an optional
sign, and at least one digit. -/
def refNumExp : List CU → Option (List CU × List CU)
  | [] => some ([], [])
  | c :: r =>
    if c = 101 ∨ c = 69 then
      match r with
      | [] => none
      | s :: r2 =>
        if s = 43 ∨ s = 45 then
          if (r2.takeWhile isDigit).isEmpty then none
          else some (c :: s :: r2.takeWhile isDigit, r2.dropWhile isDigit)
        else
          if (r.takeWhile isDigit).isEmpty then none
          else some (c :: r.takeWhile isDigit, r.dropWhile isDigit)
    else some ([], c :: r)

/-- Reference JSON number lexer: sign, integer, fraction and exponent parts
concatenated into the numeral token, rejecting tokens whose IEEE-754 double
conversion overflows to an infinity (the same exact-magnitude criterion the
source applies through its finiteness check). -/
def refNumber (chars : List CU) : Option (List CU × List CU) := do
  let sc : List CU × List CU := match chars with
    | 45 :: r => ([45], r)
    | _ => ([], chars)
  let (ints, c2) ← refNumInt sc.2
  let (frs, c3) ← refNumFrac c2
  let (exs, c4) ← refNumExp c3
  let tok := sc.1 ++ ints ++ frs ++ exs
  if numOverflows tok then none else some (tok, c4)

mutual

/-- Reference JSON value parser over a flat character list, fueled by nesting
and entry recursion: skip whitespace, dispatch on the first character exactly
as the JSON grammar prescribes, and return the parsed value together with the
remaining input. -/
def refValue : Nat → List CU → Option (JValue × List CU)
  | 0, _ => none
  | f + 1, chars =>
    match dropWs chars with
    | [] => none
    | c :: r =>
      if c = 34 then
        match refStringBody r with
        | some (d, rest) => some (.jstr d, rest)
        | none => none
      else if c = 123 then
        match dropWs r with
        | [] => none
        | c2 :: rest2 =>
          if c2 = 125 then some (.jobj [], rest2)
          else
            match refObjEntries f r with
            | some (es, rest) => some (.jobj es, rest)
            | none => none
      else if c = 91 then
        match dropWs r with
        | [] => none
        | c2 :: rest2 =>
          if c2 = 93 then some (.jarr [], rest2)
          else
            match refArrElems f r with
            | some (vs, rest) => some (.jarr vs, rest)
            | none => none
      else if c = 116 then
        match r with
        | a :: b :: d :: rest =>
          if a = 114 ∧ b = 117 ∧ d = 101 then some (.jbool true, rest) else none
        | _ => none
      else if c = 102 then
        match r with
        | a :: b :: d :: e :: rest =>
          if a = 97 ∧ b = 108 ∧ d = 115 ∧ e = 101 then some (.jbool false, rest) else none
        | _ => none
      else if c = 110 then
        match r with
        | a :: b :: d :: rest =>
          if a = 117 ∧ b = 108 ∧ d = 108 then some (.jnull, rest) else none
        | _ => none
      else if isNumStart c then
        match refNumber (c :: r) with
        | some (tok, rest) => some (.jnum tok, rest)
        | none => none
      else none

/-- Reference object entries: a quoted key, colon, value, then either a comma
and further entries or the closing brace (no trailing comma). -/
def refObjEntries : Nat → List CU → Option (List (List CU × JValue) × List CU)
  | 0, _ => none
  | f + 1, chars =>
    match dropWs chars with
    | [] => none
    | c :: r =>
      if c = 34 then
        match refStringBody r with
        | some (k, r1) =>
          match dropWs r1 with
          | [] => none
          | c2 :: r2 =>
            if c2 = 58 then
              match refValue f r2 with
              | some (v, r3) =>
                match dropWs r3 with
                | [] => none
                | c3 :: r4 =>
                  if c3 = 44 then
                    match refObjEntries f r4 with
                    | some (es, rest) => some ((k, v) :: es, rest)
                    | none => none
                  else if c3 = 125 then some ([(k, v)], r4)
                  else none
              | none => none
            else none
        | none => none
      else none

/-- Reference array elements: a value, then either a comma and further
elements or the closing bracket (no trailing comma). -/
def refArrElems : Nat → List CU → Option (List JValue × List CU)
  | 0, _ => none
  | f + 1, chars =>
    match refValue f chars with
    | some (v, r1) =>
      match dropWs r1 with
      | [] => none
      | c :: r2 =>
        if c = 44 then
          match refArrElems f r2 with
          | some (vs, rest) => some (v :: vs, rest)
          | none => none
        else if c = 93 then some ([v], r2)
        else none
    | none => none

end

/-- No fragment still unpulled from the stream is empty. -/
def NE (s : SJ) : Prop := ∀ fr ∈ s.stream, fr ≠ []

instance (s : SJ) : Decidable (NE s) := by
  unfold NE
  infer_instance

/-- The not-yet-consumed input beyond the character slot: the buffer followed
by the unpulled fragments. -/
def afterCC (s : SJ) : List CU := s.buffer ++ s.stream.flatten

/-- The full not-yet-consumed input as seen by the parser: the character slot
followed by the buffer and the unpulled fragments. -/
def charsOf (s : SJ) : List CU :=
  (match s.currentChar with
   | some c => [c]
   | none => []) ++ afterCC s

/-- A parser state in steady shape: no empty fragments pending, and the
character slot holds exactly the head of the remaining input (so an empty slot
means the input is exhausted). -/
def Good (s : SJ) : Prop := NE s ∧ s.currentChar = (charsOf s).head?

instance (s : SJ) : Decidable (Good s) := by
  unfold Good
  infer_instance

theorem charsOf_some {s : SJ} {c : CU} (h : s.currentChar = some c) :
    charsOf s = c :: afterCC s := by
  simp [charsOf, h]

theorem charsOf_none {s : SJ} (h : s.currentChar = none) :
    charsOf s = afterCC s := by
  simp [charsOf, h]

theorem good_none_chars {s : SJ} (hg : Good s) (h : s.currentChar = none) :
    charsOf s = [] := by
  rcases hg with ⟨-, hcc⟩
  rw [charsOf_none h] at hcc ⊢
  cases hca : afterCC s with
  | nil => rfl
  | cons x xs =>
    rw [hca] at hcc
    simp [h] at hcc

/-- Advancing from a loaded slot in a steady state: the slot is refilled from
the remaining input (or emptied at its end), one code unit is consumed, and
the nesting level is untouched. -/
theorem nextChar_adv {s : SJ} {c : CU} (hg : Good s) (hc : s.currentChar = some c) :
    ∃ s', nextChar s = .ok ((), s') ∧ Good s' ∧ charsOf s' = afterCC s ∧
      s'.nestingLevel = s.nestingLevel := by
  rcases hg with ⟨hne, -⟩
  cases hb : s.buffer with
  | cons b bs =>
    refine ⟨{ s with currentChar := some b, buffer := bs }, ?_, ⟨?_, ?_⟩, ?_, rfl⟩
    · unfold nextChar
      simp [hb]
    · intro fr hfr
      exact hne fr hfr
    · simp [charsOf, afterCC]
    · simp [charsOf, afterCC, hb]
  | nil =>
    cases hs : s.stream with
    | nil =>
      refine ⟨{ s with currentChar := none }, ?_, ⟨?_, ?_⟩, ?_, rfl⟩
      · unfold nextChar
        simp [hb, hs, hc]
      · intro fr hfr
        simp at hfr
        exact absurd hfr (by simp [hs])
      · simp [charsOf, afterCC, hs, hb]
      · simp [charsOf, afterCC, hs, hb]
    | cons fr fs =>
      have hfr : fr ≠ [] := hne fr (by rw [hs]; exact List.mem_cons_self _ _)
      cases hfrc : fr with
      | nil => exact absurd hfrc hfr
      | cons x xr =>
        refine ⟨{ s with currentChar := some x, buffer := xr, stream := fs }, ?_, ⟨?_, ?_⟩, ?_, rfl⟩
        · unfold nextChar
          simp [hb, hs, hfrc]
        · intro g hgm
          exact hne g (by rw [hs]; exact List.mem_cons_of_mem _ hgm)
        · simp [charsOf, afterCC]
        · simp [charsOf, afterCC, hb, hs, hfrc]

/-- The initial load: from an empty slot with an empty buffer, advancing pulls
the first fragment into the slot without consuming anything. -/
theorem nextChar_load {s : SJ} (hne : NE s) (hcc : s.currentChar = none)
    (hb : s.buffer = []) (hs : s.stream ≠ []) :
    ∃ s', nextChar s = .ok ((), s') ∧ Good s' ∧ charsOf s' = charsOf s ∧
      s'.nestingLevel = s.nestingLevel := by
  cases hst : s.stream with
  | nil => exact absurd hst hs
  | cons fr fs =>
    have hfr : fr ≠ [] := hne fr (by rw [hst]; exact List.mem_cons_self _ _)
    cases hfrc : fr with
    | nil => exact absurd hfrc hfr
    | cons x xr =>
      refine ⟨{ s with currentChar := some x, buffer := xr, stream := fs }, ?_, ⟨?_, ?_⟩, ?_, rfl⟩
      · unfold nextChar
        simp [hb, hst, hfrc]
      · intro g hgm
        exact hne g (by rw [hst]; exact List.mem_cons_of_mem _ hgm)
      · simp [charsOf, afterCC]
      · simp [charsOf, afterCC, hb, hst, hfrc, hcc]

/-- Advancing at the end of the stream with an empty slot throws. -/
theorem nextChar_eos {s : SJ} (hcc : s.currentChar = none) (hb : s.buffer = [])
    (hs : s.stream = []) : nextChar s = .error .readPastEnd := by
  unfold nextChar
  simp [hb, hs, hcc]

/-- Claim C9: when the source yields an empty fragment, nextChar treats it as
end of stream: the pulled empty fragment leaves the buffer empty, so the
current-character slot is set to absent (or the read fails with the
read-past-end error when the slot is already absent), and no further fragment
is pulled even when nonempty fragments follow in the stream. -/
theorem nextChar_empty_fragment (s : SJ) (rest : List (List CU))
    (hb : s.buffer = []) (hs : s.stream = [] :: rest) :
    nextChar s =
      if s.currentChar = none then .error .readPastEnd
      else .ok ((), { s with currentChar := none, buffer := [], stream := rest }) := by
  unfold nextChar
  cases hc : s.currentChar with
  | none => simp [hb, hs, hc]
  | some c => simp [hb, hs, hc]

/-- Witness for C9 at a concrete state: slot loaded with the digit one, empty
buffer, an empty fragment followed by a nonempty one. -/
theorem nextChar_empty_fragment_witness :
    nextChar { currentChar := some 49, buffer := [], stream := [[], [50]], nestingLevel := 0 } =
      .ok ((), { currentChar := none, buffer := [], stream := [[50]], nestingLevel := 0 }) := by
  rw [nextChar_empty_fragment _ [[50]] rfl rfl]
  rfl

/-- Claim C7: the typed readers of an unparsed-value handle are usable at most
once: once a reader has consumed the handle (markAsParsed succeeded), any
further typed read fails with the parse-once error; and once the owning
cursor has advanced past a still-unconsumed handle (invalidating it), any
typed read fails with the stale-handle error. -/
theorem unparsed_handle_once_then_stale :
    (∀ (f : Nat) (h h' : UV), markAsParsed h = .ok h' →
      ∀ s, uvValue f h' s = .error .parseOnce) ∧
    (∀ (f : Nat) (h : UV), h.didParse = false →
      ∀ s, uvValue f (uvInvalidate h) s = .error .staleHandle) := by
  constructor
  · intro f h h' hmk s
    unfold markAsParsed at hmk
    by_cases hd : h.didParse
    · simp [hd] at hmk
    · simp [hd] at hmk
      by_cases hv : h.valid
      · simp [hv] at hmk
        unfold uvValue markAsParsed
        rw [← hmk]
        rfl
      · simp [hv] at hmk
  · intro f h hd s
    unfold uvValue markAsParsed uvInvalidate
    simp [hd]

/-- Witness for C7: a fresh handle consumed once, then read again; and a fresh
handle invalidated by the cursor, then read. -/
theorem unparsed_handle_once_then_stale_witness :
    uvValue 1 { didParse := true, valid := true } (initSJ []) = .error .parseOnce ∧
    uvValue 1 (uvInvalidate uvFresh) (initSJ []) = .error .staleHandle :=
  ⟨unparsed_handle_once_then_stale.1 1 uvFresh { didParse := true, valid := true } rfl (initSJ []),
   unparsed_handle_once_then_stale.2 1 uvFresh rfl (initSJ [])⟩

/-- Claim C8: the synchronized reducer first folds the action into the state
and then pushes the same action onto the outbound stream: a successful fold
yields the folded state with the action appended to the stream, and a
throwing reducer propagates its failure to the caller while neither the state
nor the stream is touched. -/
theorem syncReducer_dispatch_fold_then_push :
    ∀ (St A E : Type) (reducer : St → A → Except E St) (r : SyncRed St A) (a : A),
      (∀ st', reducer r.state a = .ok st' →
        dispatchR reducer r a = (.ok st', { state := st', log := r.log ++ [a] })) ∧
      (∀ e, reducer r.state a = .error e → dispatchR reducer r a = (.error e, r)) := by
  intro St A E reducer r a
  constructor
  · intro st' hok
    unfold dispatchR
    rw [hok]
  · intro e herr
    unfold dispatchR
    rw [herr]

/-- Witness for C8 at a concrete reducer: addition succeeds and extends the
log; a constantly failing reducer leaves the wrapper untouched. -/
theorem syncReducer_dispatch_fold_then_push_witness :
    dispatchR (fun (s a : Nat) => (.ok (s + a) : Except Nat Nat)) ⟨1, []⟩ 5 =
      (.ok 6, { state := 6, log := [5] }) ∧
    dispatchR (fun (_ _ : Nat) => (.error 7 : Except Nat Nat)) ⟨1, [2]⟩ 5 =
      (.error 7, ⟨1, [2]⟩) :=
  ⟨(syncReducer_dispatch_fold_then_push Nat Nat Nat _ ⟨1, []⟩ 5).1 6 rfl,
   (syncReducer_dispatch_fold_then_push Nat Nat Nat _ ⟨1, [2]⟩ 5).2 7 rfl⟩

/-- Claim C5 (code bug evaluation): a fresh object cursor over an empty object
(state just after the opening brace) materializes through value(); the second
value() call then fails with the already-iterated error even though the
extraction is cached, because the internal iteration set the iterator flag and
StreamingObject.value checks that flag before consulting the cache, leaving
the cache branch unreachable.  The array cursor behaves identically. -/
theorem cursor_value_second_call_fails :
    objCursorValue 2 objCursorFresh
        { currentChar := some 125, buffer := [], stream := [], nestingLevel := 1 } =
      .ok (([], { iteratorCalled := true, extracted := some [] }),
        { currentChar := none, buffer := [], stream := [], nestingLevel := 0 }) ∧
    objCursorValue 2 { iteratorCalled := true, extracted := some [] }
        { currentChar := none, buffer := [], stream := [], nestingLevel := 0 } =
      .error .alreadyIterated ∧
    arrCursorValue 2 arrCursorFresh
        { currentChar := some 93, buffer := [], stream := [], nestingLevel := 1 } =
      .ok (([], { iteratorCalled := true, extracted := some [] }),
        { currentChar := none, buffer := [], stream := [], nestingLevel := 0 }) ∧
    arrCursorValue 2 { iteratorCalled := true, extracted := some [] }
        { currentChar := none, buffer := [], stream := [], nestingLevel := 0 } =
      .error .alreadyIterated :=
  ⟨rfl, rfl, rfl, rfl⟩

/-- Counterexample for claim C4: on the input consisting of a second opening
angle bracket directly followed by the full opener marker, the rule described
by the claim (mismatch rewinds and restarts the match at the current byte)
completes the marker, so a machine following it would leave text mode; the
splitter of the source instead emits the entire input verbatim as one text
delta and stays in text mode, because the mismatching byte is consumed as
content and the match restarts only at the following byte. -/
theorem splitter_rewind_counterexample :
    (smAppend smInit (l2c ['<', '<', 'p', 'l', 'a', 'n', '>'])).2.mode = SMMode.text ∧
    (smAppend smInit (l2c ['<', '<', 'p', 'l', 'a', 'n', '>'])).1 =
      [{ kind := SMMode.text, id := 0, delta := l2c ['<', '<', 'p', 'l', 'a', 'n', '>'] }] ∧
    smScanClaim (smTarget SMMode.text) (l2c ['<', '<', 'p', 'l', 'a', 'n', '>']) [] 0 =
      .found (l2c ['<']) [] := by
  refine ⟨?_, ?_, ?_⟩
  · simp [smAppend, smScan, smTarget, l2c, smInit]
  · simp [smAppend, smScan, smTarget, l2c, smInit, mkSMEvent]
  · simp [smScanClaim, smTarget, l2c]

/-- Claim C4 as amended: on a mismatch while the match pointer is nonzero, the
previously matched marker prefix is appended back to the segment accumulator
followed by the mismatching byte itself, and the match restarts (from pointer
zero) at the following byte; consequently the lookalike input of the claim,
an input tagged with play instead of plan, is emitted verbatim as a single
text-mode delta with no mode transition. -/
theorem splitter_rewind_amended :
    (∀ (t : List CU) (c : CU) (rest acc : List CU) (k : Nat),
      0 < k → t.get? k ≠ some c →
      smScan t (c :: rest) acc k = smScan t rest (acc ++ t.take k ++ [c]) 0) ∧
    smAppend smInit (l2c ['<', 'p', 'l', 'a', 'y', '>', 'A', 'c', 't', 'i', 'o', 'n',
        '<', '/', 'p', 'l', 'a', 'y', '>', ' ', 'i', 's', ' ', 'w', 'h', 'a', 't',
        ' ', 'w', 'e', ' ', 'n', 'e', 'e', 'd']) =
      ([{ kind := SMMode.text, id := 0,
          delta := l2c ['<', 'p', 'l', 'a', 'y', '>', 'A', 'c', 't', 'i', 'o', 'n',
            '<', '/', 'p', 'l', 'a', 'y', '>', ' ', 'i', 's', ' ', 'w', 'h', 'a', 't',
            ' ', 'w', 'e', ' ', 'n', 'e', 'e', 'd'] }],
        { buffer := [], mode := SMMode.text, currentId := 0, fresh := 1 }) := by
  constructor
  · intro t c rest acc k hk hne
    conv_lhs => rw [smScan]
    rw [if_neg hne]
  · simp [smAppend, smScan, smTarget, l2c, smInit, mkSMEvent]

/-- Witness for the amended C4 at a concrete mismatch: after matching the
opening angle bracket of the opener, a second opening angle bracket rewinds,
appending the matched prefix and the byte itself to the accumulator. -/
theorem splitter_rewind_amended_witness :
    smScan (smTarget SMMode.text) (60 :: [120]) [] 1 =
      smScan (smTarget SMMode.text) [120] ([] ++ (smTarget SMMode.text).take 1 ++ [60]) 0 :=
  splitter_rewind_amended.1 (smTarget SMMode.text) 60 [120] [] 1 (by decide) (by decide)

/-- The skip loop never runs: the nesting snapshot is taken after the first
value read, so the loop condition compares the level with itself; skip is
therefore the state effect of reading one value and discarding it. -/
theorem skipF_eq (f : Nat) (s : SJ) :
    skipF f s = (valueF f s).map (fun p => ((), p.2)) := by
  unfold skipF
  rw [M.bind_apply]
  cases h : valueF f s with
  | error e => rfl
  | ok p =>
    obtain ⟨v, t⟩ := p
    show (mget >>= fun u => skipWhile f u.nestingLevel) t = .ok ((), t)
    rw [M.bind_apply, mget_apply]
    unfold skipWhile
    simp

/-- Congruence for a shared prefix: if the continuations agree modulo
discarding the result, so do the bound computations. -/
theorem reqBind {α γ : Type} {m : M α} {kN : α → M Unit} {kA : α → M γ}
    (h : ∀ a s, kN a s = (kA a s).map (fun p => ((), p.2))) :
    ∀ s, (m >>= kN) s = ((m >>= kA) s).map (fun p => ((), p.2)) := by
  intro s
  rw [M.bind_apply, M.bind_apply]
  cases m s with
  | error e => rfl
  | ok p => exact h p.1 p.2

/-- Congruence across the skip-versus-read step: skipping a value has the
state effect of reading it. -/
theorem reqBindSkip {γ : Type} {f : Nat} {kN : Unit → M Unit} {kA : JValue → M γ}
    (h : ∀ v s, kN () s = (kA v s).map (fun p => ((), p.2))) :
    ∀ s, (skipF f >>= kN) s = ((valueF f >>= kA) s).map (fun p => ((), p.2)) := by
  intro s
  rw [M.bind_apply, M.bind_apply, skipF_eq]
  cases valueF f s with
  | error e => rfl
  | ok p => exact h p.1 p.2

/-- Iterating an object cursor consuming no handle is, on the parser state,
exactly iterating it consuming every handle. -/
theorem objLoopNone_eq (f : Nat) :
    ∀ (acc : List (List CU × JValue)) (s : SJ),
      objLoopNone f s = (objLoopAll f acc s).map (fun p => ((), p.2)) := by
  induction f with
  | zero => intro acc s; rfl
  | succ f ih =>
    intro acc
    rw [objLoopNone, objLoopAll]
    refine reqBind fun _ => ?_
    refine reqBind fun t => ?_
    intro s
    by_cases hc : t.currentChar = some 125
    · simp only [if_pos hc]
      rw [M.bind_apply, M.bind_apply]
      cases nextChar s with
      | error e => rfl
      | ok p => rfl
    · simp only [if_neg hc]
      refine reqBind (fun k u1 => ?_) s
      refine reqBind (fun x2 u2 => ?_) u1
      refine reqBind (fun x3 u3 => ?_) u2
      refine reqBind (fun x4 u4 => ?_) u3
      refine reqBindSkip (fun v u5 => ?_) u4
      refine reqBind (fun x6 u6 => ?_) u5
      refine reqBind (fun x7 u7 => ?_) u6
      refine reqBind (fun x8 u8 => ?_) u7
      exact ih (acc ++ [(k, v)]) u8

/-- Iterating an array cursor consuming no handle is, on the parser state,
exactly iterating it consuming every handle. -/
theorem arrLoopNone_eq (f : Nat) :
    ∀ (acc : List JValue) (s : SJ),
      arrLoopNone f s = (arrLoopAll f acc s).map (fun p => ((), p.2)) := by
  induction f with
  | zero => intro acc s; rfl
  | succ f ih =>
    intro acc
    rw [arrLoopNone, arrLoopAll]
    refine reqBind fun _ => ?_
    refine reqBind fun t => ?_
    intro s
    by_cases hc : t.currentChar = some 93
    · simp only [if_pos hc]
      rw [M.bind_apply, M.bind_apply]
      cases nextChar s with
      | error e => rfl
      | ok p => rfl
    · simp only [if_neg hc]
      refine reqBindSkip (fun v u5 => ?_) s
      refine reqBind (fun x6 u6 => ?_) u5
      refine reqBind (fun x7 u7 => ?_) u6
      refine reqBind (fun x8 u8 => ?_) u7
      exact ih (acc ++ [v]) u8

/-- Claim C3: skipping is transparent.  Iterating a container cursor while
consuming none of the yielded unparsed handles produces, error for error and
state for state (current character, remaining buffer and stream, nesting
level), the computation of iterating it while consuming every handle, with
only the collected values discarded. -/
theorem skip_transparent :
    (∀ (f : Nat) (acc : List (List CU × JValue)) (s : SJ),
      objLoopNone f s = (objLoopAll f acc s).map (fun p => ((), p.2))) ∧
    (∀ (f : Nat) (acc : List JValue) (s : SJ),
      arrLoopNone f s = (arrLoopAll f acc s).map (fun p => ((), p.2))) :=
  ⟨fun f => objLoopNone_eq f, fun f => arrLoopNone_eq f⟩

/-- Forward decomposition of a successful bind into its two stages. -/
theorem bind_ok_decomp {α β : Type} {m : M α} {k : α → M β} {s : SJ} {b : β} {t : SJ}
    (h : (m >>= k) s = .ok (b, t)) :
    ∃ a u, m s = .ok (a, u) ∧ k a u = .ok (b, t) := by
  rw [M.bind_apply] at h
  cases hm : m s with
  | error e => rw [hm] at h; cases h
  | ok p => rw [hm] at h; exact ⟨p.1, p.2, rfl, h⟩

/-- A computation that never changes the nesting level on success. -/
def NestPres {α : Type} (m : M α) : Prop :=
  ∀ s a t, m s = .ok (a, t) → t.nestingLevel = s.nestingLevel

theorem nestPres_bind {α β : Type} {m : M α} {k : α → M β}
    (hm : NestPres m) (hk : ∀ a, NestPres (k a)) : NestPres (m >>= k) := by
  intro s b t h
  obtain ⟨a, u, h1, h2⟩ := bind_ok_decomp h
  exact (hk a u b t h2).trans (hm s a u h1)

theorem nestPres_pure (a : α) : NestPres (M.pure a) := by
  intro s b t h
  cases h
  rfl

theorem nestPres_mget : NestPres mget := by
  intro s b t h
  cases h
  rfl

theorem nestPres_mthrow (e : Err) : NestPres (mthrow e : M α) := by
  intro s b t h
  cases h

theorem nestPres_nextChar : NestPres nextChar := by
  intro s a t h
  obtain ⟨cc, buf, st, nest⟩ := s
  cases buf with
  | cons b bs =>
    simp [nextChar] at h
    rw [← h]
  | nil =>
    cases st with
    | nil =>
      cases cc with
      | none => simp [nextChar] at h
      | some c =>
        simp [nextChar] at h
        rw [← h]
    | cons fr fs =>
      cases fr with
      | nil =>
        cases cc with
        | none => simp [nextChar] at h
        | some c =>
          simp [nextChar] at h
          rw [← h]
      | cons x xr =>
        simp [nextChar] at h
        rw [← h]

theorem nestPres_mmodify_of (g : SJ → SJ)
    (hg : ∀ s, (g s).nestingLevel = s.nestingLevel) : NestPres (mmodify g) := by
  intro s a t h
  cases h
  exact hg s

theorem nestPres_maybeNextChar : NestPres maybeNextChar := by
  unfold maybeNextChar
  refine nestPres_bind nestPres_mget fun u => ?_
  by_cases hb : u.buffer.isEmpty
  · simp only [if_pos hb]
    exact nestPres_pure false
  · simp only [if_neg hb]
    exact nestPres_bind nestPres_nextChar fun _ => nestPres_pure true

theorem nestPres_wsLoop : ∀ f, NestPres (wsLoop f) := by
  intro f
  induction f with
  | zero =>
    intro s a t h
    unfold wsLoop at h
    split at h
    · split at h
      · cases h
      · cases h
        rfl
    · cases h
      rfl
  | succ f ih =>
    intro s a t h
    unfold wsLoop at h
    split at h
    · split at h
      · obtain ⟨x, u, h1, h2⟩ := bind_ok_decomp h
        exact (ih u a t h2).trans (nestPres_nextChar s x u h1)
      · cases h
        rfl
    · cases h
      rfl

theorem nestPres_cwLoad : NestPres cwLoad := by
  unfold cwLoad
  refine nestPres_bind nestPres_mget fun u => ?_
  by_cases hc : u.currentChar = none
  · simp only [if_pos hc]
    exact nestPres_nextChar
  · simp only [if_neg hc]
    exact nestPres_pure ()

theorem nestPres_cw (f : Nat) : NestPres (consumeWhitespace f) := by
  unfold consumeWhitespace
  exact nestPres_bind nestPres_cwLoad fun _ => nestPres_wsLoop f

theorem nestPres_peek : NestPres peekValueType := by
  unfold peekValueType
  refine nestPres_bind nestPres_mget fun u => ?_
  cases u.currentChar with
  | none => exact nestPres_mthrow _
  | some c =>
    dsimp only
    split_ifs <;> first
      | exact nestPres_pure _
      | exact nestPres_mthrow _

theorem nestPres_assert (exp : List CU) : NestPres (assertChar exp) := by
  unfold assertChar
  refine nestPres_bind nestPres_mget fun u => ?_
  cases u.currentChar with
  | none => exact nestPres_mthrow _
  | some c =>
    dsimp only
    split_ifs <;> first
      | exact nestPres_pure _
      | exact nestPres_mthrow _

theorem nestPres_ccSat (p : CU → Bool) : NestPres (ccSat p) := by
  unfold ccSat
  refine nestPres_bind nestPres_mget fun u => ?_
  cases u.currentChar with
  | none => exact nestPres_pure _
  | some c =>
    dsimp only
    split_ifs <;> exact nestPres_pure _

theorem nestPres_parseUEGo : ∀ n v hs, NestPres (parseUEGo n v hs) := by
  intro n
  induction n with
  | zero => intro v hs; exact nestPres_pure v
  | succ n ih =>
    intro v hs
    unfold parseUEGo
    refine nestPres_bind nestPres_nextChar fun _ => nestPres_bind nestPres_mget fun u => ?_
    cases u.currentChar with
    | none => exact nestPres_mthrow _
    | some c =>
      dsimp only
      split_ifs
      · exact ih _ _
      · exact nestPres_mthrow _

theorem nestPres_parseUE : NestPres parseUnicodeEscape :=
  nestPres_parseUEGo 4 0 []

theorem nestPres_digitsLoop : ∀ f acc, NestPres (digitsLoop f acc) := by
  intro f
  induction f with
  | zero =>
    intro acc s a t h
    unfold digitsLoop at h
    split at h
    · split at h
      · cases h
      · cases h
        rfl
    · cases h
      rfl
  | succ f ih =>
    intro acc s a t h
    unfold digitsLoop at h
    split at h
    · split at h
      · obtain ⟨x, u, h1, h2⟩ := bind_ok_decomp h
        exact (ih _ u a t h2).trans (nestPres_nextChar s x u h1)
      · cases h
        rfl
    · cases h
      rfl

theorem nestPres_matchChars : ∀ cs, NestPres (matchChars cs) := by
  intro cs
  induction cs with
  | nil => exact nestPres_pure ()
  | cons c cs ih =>
    exact nestPres_bind (nestPres_assert [c]) fun _ =>
      nestPres_bind nestPres_nextChar fun _ => ih

theorem nestPres_nextAssert : ∀ cs, NestPres (nextAssert cs) := by
  intro cs
  induction cs with
  | nil => exact nestPres_pure ()
  | cons c cs ih =>
    exact nestPres_bind nestPres_nextChar fun _ =>
      nestPres_bind (nestPres_assert [c]) fun _ => ih

theorem nestPres_parseBoolean (f : Nat) : NestPres (parseBoolean f) := by
  unfold parseBoolean
  exact nestPres_bind (nestPres_cw f) fun _ =>
    nestPres_bind (nestPres_assert _) fun _ =>
    nestPres_bind nestPres_mget fun u =>
    nestPres_bind (nestPres_matchChars _) fun _ => nestPres_pure _

theorem nestPres_parseNull (f : Nat) : NestPres (parseNull f) := by
  unfold parseNull
  exact nestPres_bind (nestPres_cw f) fun _ =>
    nestPres_bind (nestPres_assert _) fun _ =>
    nestPres_bind (nestPres_nextAssert _) fun _ =>
    nestPres_bind nestPres_nextChar fun _ => nestPres_pure _

theorem nestPres_numMinus : NestPres numMinus := by
  unfold numMinus
  refine nestPres_bind (nestPres_ccSat _) fun b => ?_
  cases b with
  | some c => exact nestPres_bind nestPres_nextChar fun _ => nestPres_pure _
  | none => exact nestPres_pure _

theorem nestPres_numIntPart (f : Nat) (n0 : List CU) : NestPres (numIntPart f n0) := by
  unfold numIntPart
  refine nestPres_bind (nestPres_ccSat _) fun b0 => ?_
  cases b0 with
  | some c => exact nestPres_bind nestPres_nextChar fun _ => nestPres_pure _
  | none =>
    refine nestPres_bind (nestPres_ccSat _) fun b19 => ?_
    cases b19 with
    | some c => exact nestPres_digitsLoop f _
    | none => exact nestPres_mthrow _

theorem nestPres_numFracPart (f : Nat) (n1 : List CU) : NestPres (numFracPart f n1) := by
  unfold numFracPart
  refine nestPres_bind (nestPres_ccSat _) fun b => ?_
  cases b with
  | some c =>
    refine nestPres_bind nestPres_nextChar fun _ => ?_
    refine nestPres_bind (nestPres_ccSat _) fun bd => ?_
    cases bd with
    | some c2 => exact nestPres_digitsLoop f _
    | none => exact nestPres_mthrow _
  | none => exact nestPres_pure _

theorem nestPres_numExpSign (n2 : List CU) (ec : CU) (bs : Option CU) :
    NestPres (numExpSign n2 ec bs) := by
  unfold numExpSign
  cases bs with
  | some sc => exact nestPres_bind nestPres_nextChar fun _ => nestPres_pure _
  | none => exact nestPres_pure _

theorem nestPres_numExpPart (f : Nat) (n2 : List CU) : NestPres (numExpPart f n2) := by
  unfold numExpPart
  refine nestPres_bind (nestPres_ccSat _) fun b => ?_
  cases b with
  | some ec =>
    refine nestPres_bind nestPres_nextChar fun _ => ?_
    refine nestPres_bind (nestPres_ccSat _) fun bs => ?_
    refine nestPres_bind (nestPres_numExpSign _ _ _) fun n2x => ?_
    refine nestPres_bind (nestPres_ccSat _) fun bd => ?_
    cases bd with
    | some c2 => exact nestPres_digitsLoop f _
    | none => exact nestPres_mthrow _
  | none => exact nestPres_pure _

theorem nestPres_parseNumber (f : Nat) : NestPres (parseNumber f) := by
  unfold parseNumber
  refine nestPres_bind (nestPres_cw f) fun _ => ?_
  refine nestPres_bind (nestPres_assert _) fun _ => ?_
  refine nestPres_bind nestPres_numMinus fun n0 => ?_
  refine nestPres_bind (nestPres_numIntPart f n0) fun n1 => ?_
  refine nestPres_bind (nestPres_numFracPart f n1) fun n2 => ?_
  refine nestPres_bind (nestPres_numExpPart f n2) fun n3 => ?_
  by_cases ho : numOverflows n3
  · simp only [if_pos ho]
    exact nestPres_mthrow _
  · simp only [if_neg ho]
    exact nestPres_pure _

theorem nestPres_sepAdvance : NestPres sepAdvance := by
  unfold sepAdvance
  refine nestPres_bind (nestPres_ccSat _) fun b => ?_
  cases b with
  | some c => exact nestPres_nextChar
  | none => exact nestPres_pure _

theorem nestPres_stringCharStep (chunk : List CU) : NestPres (stringCharStep chunk) := by
  unfold stringCharStep
  refine nestPres_bind nestPres_mget fun u => ?_
  cases u.currentChar with
  | none => exact nestPres_pure _
  | some c =>
    dsimp only
    split_ifs
    · refine nestPres_bind nestPres_nextChar fun _ => ?_
      refine nestPres_bind (nestPres_ccSat _) fun ue => ?_
      cases ue with
      | some d => exact nestPres_bind nestPres_parseUE fun _ => nestPres_pure _
      | none =>
        refine nestPres_bind nestPres_mget fun u2 => ?_
        cases u2.currentChar with
        | none => exact nestPres_mthrow _
        | some d =>
          dsimp only
          cases specialEscape d with
          | some e => exact nestPres_pure _
          | none => exact nestPres_mthrow _
    · exact nestPres_pure _

theorem nestPres_string_mutual :
    ∀ f, (∀ chunk, NestPres (stringLoop f chunk)) ∧
         (∀ chunk, NestPres (stringLoopStep f chunk)) := by
  intro f
  induction f with
  | zero =>
    have hA0 : ∀ chunk, NestPres (stringLoop 0 chunk) := by
      intro chunk s a t h
      rw [stringLoop] at h
      simp [mthrow] at h
    refine ⟨hA0, ?_⟩
    intro chunk
    unfold stringLoopStep
    refine nestPres_bind nestPres_maybeNextChar fun didRead => ?_
    cases didRead with
    | true =>
      simp only [if_pos]
      exact hA0 chunk
    | false =>
      simp only [Bool.false_eq_true, if_neg, not_false_iff]
      refine nestPres_bind nestPres_nextChar fun _ =>
        nestPres_bind (hA0 _) fun _ => nestPres_pure _
  | succ f ih =>
    have hA : ∀ chunk, NestPres (stringLoop (f + 1) chunk) := by
      intro chunk
      intro s a t h
      unfold stringLoop at h
      by_cases hc : s.currentChar = some 34
      · rw [if_pos hc] at h
        obtain ⟨x, u, h1, h2⟩ := bind_ok_decomp h
        have h3 := nestPres_nextChar s x u h1
        cases h2
        exact h3
      · rw [if_neg hc] at h
        obtain ⟨ck, u, h1, h2⟩ := bind_ok_decomp h
        exact (ih.2 ck u a t h2).trans (nestPres_stringCharStep chunk s ck u h1)
    refine ⟨hA, ?_⟩
    intro chunk
    unfold stringLoopStep
    refine nestPres_bind nestPres_maybeNextChar fun didRead => ?_
    cases didRead with
    | true =>
      simp only [if_pos]
      exact hA chunk
    | false =>
      simp only [Bool.false_eq_true, if_neg, not_false_iff]
      refine nestPres_bind nestPres_nextChar fun _ => ?_
      refine nestPres_bind (hA _) fun rest => nestPres_pure _

theorem nestPres_stringLoop (f : Nat) (chunk : List CU) : NestPres (stringLoop f chunk) :=
  (nestPres_string_mutual f).1 chunk

theorem nestPres_stringChunksM (f : Nat) : NestPres (stringChunksM f) := by
  unfold stringChunksM
  exact nestPres_bind (nestPres_cw f) fun _ =>
    nestPres_bind (nestPres_assert _) fun _ =>
    nestPres_bind nestPres_nextChar fun _ => nestPres_stringLoop f []

theorem nestPres_parseString (f : Nat) : NestPres (parseString f) := by
  unfold parseString
  exact nestPres_bind (nestPres_stringChunksM f) fun _ => nestPres_pure _

/-- Entering an object or array increments the nesting level by exactly one. -/
theorem enter_nest :
    (∀ (f : Nat) (s : SJ) (a : Unit) (t : SJ), enterObject f s = .ok (a, t) →
      t.nestingLevel = s.nestingLevel + 1) ∧
    (∀ (f : Nat) (s : SJ) (a : Unit) (t : SJ), enterArray f s = .ok (a, t) →
      t.nestingLevel = s.nestingLevel + 1) := by
  constructor
  · intro f s a t h
    unfold enterObject at h
    obtain ⟨x1, u1, h1, h⟩ := bind_ok_decomp h
    obtain ⟨x2, u2, h2, h⟩ := bind_ok_decomp h
    obtain ⟨x3, u3, h3, h⟩ := bind_ok_decomp h
    cases h
    have e1 := nestPres_cw f s x1 u1 h1
    have e2 := nestPres_assert _ u1 x2 u2 h2
    have e3 := nestPres_nextChar u2 x3 u3 h3
    simp only [e3, e2, e1]
  · intro f s a t h
    unfold enterArray at h
    obtain ⟨x1, u1, h1, h⟩ := bind_ok_decomp h
    obtain ⟨x2, u2, h2, h⟩ := bind_ok_decomp h
    obtain ⟨x3, u3, h3, h⟩ := bind_ok_decomp h
    cases h
    have e1 := nestPres_cw f s x1 u1 h1
    have e2 := nestPres_assert _ u1 x2 u2 h2
    have e3 := nestPres_nextChar u2 x3 u3 h3
    simp only [e3, e2, e1]

theorem mget_ok {s a t : SJ} (h : mget s = .ok (a, t)) : a = s ∧ t = s := by
  cases h
  exact ⟨rfl, rfl⟩

theorem pure_ok {α : Type} {a : α} {s : SJ} {b : α} {t : SJ}
    (h : M.pure a s = .ok (b, t)) : b = a ∧ t = s := by
  cases h
  exact ⟨rfl, rfl⟩

theorem mmodify_ok {g : SJ → SJ} {s : SJ} {a : Unit} {t : SJ}
    (h : mmodify g s = .ok (a, t)) : t = g s := by
  cases h
  rfl

theorem mget_bind {β : Type} (k : SJ → M β) (s : SJ) : (mget >>= k) s = k s s := rfl

/-- Joint nesting accounting for the value reader and the two cursor loops:
reading a value restores the nesting level, and a cursor loop (entered just
after the opening brace or bracket bumped the level) lowers it by exactly one
when it consumes the matching closer. -/
theorem nest_main : ∀ f : Nat,
    (∀ s v t, valueF f s = .ok (v, t) → t.nestingLevel = s.nestingLevel) ∧
    (∀ acc s r t, objLoopAll f acc s = .ok (r, t) → t.nestingLevel = s.nestingLevel - 1) ∧
    (∀ acc s r t, arrLoopAll f acc s = .ok (r, t) → t.nestingLevel = s.nestingLevel - 1) := by
  intro f
  induction f with
  | zero =>
    refine ⟨?_, ?_, ?_⟩
    · intro s v t h
      rw [valueF] at h
      simp [mthrow] at h
    · intro acc s r t h
      rw [objLoopAll] at h
      simp [mthrow] at h
    · intro acc s r t h
      rw [arrLoopAll] at h
      simp [mthrow] at h
  | succ f ih =>
    obtain ⟨ihV, ihO, ihA⟩ := ih
    refine ⟨?_, ?_, ?_⟩
    · intro s v t h
      rw [valueF] at h
      obtain ⟨x1, u1, h1, h⟩ := bind_ok_decomp h
      obtain ⟨vt, u2, h2, h⟩ := bind_ok_decomp h
      have e1 := nestPres_cw f s x1 u1 h1
      have e2 := nestPres_peek u1 vt u2 h2
      cases vt with
      | vstr =>
        obtain ⟨cs, u3, h3, h⟩ := bind_ok_decomp h
        obtain ⟨-, he⟩ := pure_ok h
        have e3 := nestPres_parseString f u2 cs u3 h3
        rw [he]
        omega
      | vobj =>
        obtain ⟨x3, u3, h3, h⟩ := bind_ok_decomp h
        obtain ⟨es, u4, h4, h⟩ := bind_ok_decomp h
        obtain ⟨-, he⟩ := pure_ok h
        have e3 := enter_nest.1 f u2 x3 u3 h3
        have e4 := ihO [] u3 es u4 h4
        rw [he]
        omega
      | varr =>
        obtain ⟨x3, u3, h3, h⟩ := bind_ok_decomp h
        obtain ⟨es, u4, h4, h⟩ := bind_ok_decomp h
        obtain ⟨-, he⟩ := pure_ok h
        have e3 := enter_nest.2 f u2 x3 u3 h3
        have e4 := ihA [] u3 es u4 h4
        rw [he]
        omega
      | vbool =>
        have e3 := nestPres_parseBoolean f u2 v t h
        omega
      | vnull =>
        have e3 := nestPres_parseNull f u2 v t h
        omega
      | vnum =>
        have e3 := nestPres_parseNumber f u2 v t h
        omega
    · intro acc s r t h
      rw [objLoopAll] at h
      obtain ⟨x1, u1, h1, h⟩ := bind_ok_decomp h
      simp only [mget_bind] at h
      have e1 := nestPres_cw f s x1 u1 h1
      by_cases hc : u1.currentChar = some 125
      · rw [if_pos hc] at h
        obtain ⟨x3, u3, h3, h⟩ := bind_ok_decomp h
        obtain ⟨x4, u4, h4, h⟩ := bind_ok_decomp h
        obtain ⟨-, he⟩ := pure_ok h
        have e3 := nestPres_nextChar u1 x3 u3 h3
        have e4 := mmodify_ok h4
        rw [he, e4]
        dsimp only
        omega
      · rw [if_neg hc] at h
        obtain ⟨k, u3, h3, h⟩ := bind_ok_decomp h
        obtain ⟨x4, u4, h4, h⟩ := bind_ok_decomp h
        obtain ⟨x5, u5, h5, h⟩ := bind_ok_decomp h
        obtain ⟨x6, u6, h6, h⟩ := bind_ok_decomp h
        obtain ⟨v, u7, h7, h⟩ := bind_ok_decomp h
        obtain ⟨x8, u8, h8, h⟩ := bind_ok_decomp h
        obtain ⟨x9, u9, h9, h⟩ := bind_ok_decomp h
        obtain ⟨x10, u10, h10, h⟩ := bind_ok_decomp h
        have e3 := nestPres_parseString f u1 k u3 h3
        have e4 := nestPres_cw f u3 x4 u4 h4
        have e5 := nestPres_assert _ u4 x5 u5 h5
        have e6 := nestPres_nextChar u5 x6 u6 h6
        have e7 := ihV u6 v u7 h7
        have e8 := nestPres_cw f u7 x8 u8 h8
        have e9 := nestPres_assert _ u8 x9 u9 h9
        have e10 := nestPres_sepAdvance u9 x10 u10 h10
        have e11 := ihO (acc ++ [(k, v)]) u10 r t h
        omega
    · intro acc s r t h
      rw [arrLoopAll] at h
      obtain ⟨x1, u1, h1, h⟩ := bind_ok_decomp h
      simp only [mget_bind] at h
      have e1 := nestPres_cw f s x1 u1 h1
      by_cases hc : u1.currentChar = some 93
      · rw [if_pos hc] at h
        obtain ⟨x3, u3, h3, h⟩ := bind_ok_decomp h
        obtain ⟨x4, u4, h4, h⟩ := bind_ok_decomp h
        obtain ⟨-, he⟩ := pure_ok h
        have e3 := nestPres_nextChar u1 x3 u3 h3
        have e4 := mmodify_ok h4
        rw [he, e4]
        dsimp only
        omega
      · rw [if_neg hc] at h
        obtain ⟨v, u7, h7, h⟩ := bind_ok_decomp h
        obtain ⟨x8, u8, h8, h⟩ := bind_ok_decomp h
        obtain ⟨x9, u9, h9, h⟩ := bind_ok_decomp h
        obtain ⟨x10, u10, h10, h⟩ := bind_ok_decomp h
        have e7 := ihV u1 v u7 h7
        have e8 := nestPres_cw f u7 x8 u8 h8
        have e9 := nestPres_assert _ u8 x9 u9 h9
        have e10 := nestPres_sepAdvance u9 x10 u10 h10
        have e11 := ihA (acc ++ [v]) u10 r t h
        omega

/-- Claim C10: the nesting level is balanced.  Entering an object or array
increments the level by exactly one; a cursor loop that completes its
iteration (consuming the matching closer) decrements it by exactly one; and
consequently every successful value read, and every successful skip, returns
the nesting level to the value it had on entry. -/
theorem nesting_balanced :
    (∀ (f : Nat) (s : SJ) (a : Unit) (t : SJ), enterObject f s = .ok (a, t) →
      t.nestingLevel = s.nestingLevel + 1) ∧
    (∀ (f : Nat) (s : SJ) (a : Unit) (t : SJ), enterArray f s = .ok (a, t) →
      t.nestingLevel = s.nestingLevel + 1) ∧
    (∀ (f : Nat) (acc : List (List CU × JValue)) (s : SJ) (r : List (List CU × JValue)) (t : SJ),
      objLoopAll f acc s = .ok (r, t) → t.nestingLevel = s.nestingLevel - 1) ∧
    (∀ (f : Nat) (acc : List JValue) (s : SJ) (r : List JValue) (t : SJ),
      arrLoopAll f acc s = .ok (r, t) → t.nestingLevel = s.nestingLevel - 1) ∧
    (∀ (f : Nat) (s : SJ) (v : JValue) (t : SJ), valueF f s = .ok (v, t) →
      t.nestingLevel = s.nestingLevel) ∧
    (∀ (f : Nat) (s : SJ) (a : Unit) (t : SJ), skipF f s = .ok (a, t) →
      t.nestingLevel = s.nestingLevel) := by
  refine ⟨enter_nest.1, enter_nest.2, ?_, ?_, ?_, ?_⟩
  · intro f acc s r t h
    exact (nest_main f).2.1 acc s r t h
  · intro f acc s r t h
    exact (nest_main f).2.2 acc s r t h
  · intro f s v t h
    exact (nest_main f).1 s v t h
  · intro f s a t h
    rw [skipF_eq] at h
    cases hv : valueF f s with
    | error e => rw [hv] at h; cases h
    | ok p =>
      rw [hv] at h
      cases h
      exact (nest_main f).1 s p.1 p.2 hv

/-- Witness for C10: a concrete top-level array read returns the nesting level
to zero. -/
theorem nesting_balanced_witness :
    valueF 6 (initSJ [l2c ['[', '1', ']']]) =
      .ok (.jarr [.jnum [49]],
        { currentChar := none, buffer := [], stream := [], nestingLevel := 0 }) ∧
    ({ currentChar := none, buffer := [], stream := [], nestingLevel := 0 } : SJ).nestingLevel =
      (initSJ [l2c ['[', '1', ']']]).nestingLevel :=
  ⟨rfl, nesting_balanced.2.2.2.2.1 6 (initSJ [l2c ['[', '1', ']']]) (.jarr [.jnum [49]])
    { currentChar := none, buffer := [], stream := [], nestingLevel := 0 } rfl⟩

/-- A fueled operation, run from state s, succeeds for every sufficient fuel
with the given result, ending in a steady state holding the given remaining
input and an unchanged nesting level. -/
def RunsTo {α : Type} (mf : Nat → M α) (s : SJ) (a : α) (rest : List CU) : Prop :=
  ∃ F s', (∀ g, F ≤ g → mf g s = .ok (a, s')) ∧ Good s' ∧ charsOf s' = rest ∧
    s'.nestingLevel = s.nestingLevel

theorem runsTo_bind {α β : Type} {mf : Nat → M α} {kf : Nat → α → M β}
    {s : SJ} {a : α} {rest : List CU} {b : β} {rest2 : List CU}
    (h1 : RunsTo mf s a rest)
    (h2 : ∀ s', Good s' → charsOf s' = rest → s'.nestingLevel = s.nestingLevel →
      RunsTo (fun g => kf g a) s' b rest2) :
    RunsTo (fun g => mf g >>= kf g) s b rest2 := by
  obtain ⟨F1, s1, hrun1, hg1, hc1, hn1⟩ := h1
  obtain ⟨F2, s2, hrun2, hg2, hc2, hn2⟩ := h2 s1 hg1 hc1 hn1
  refine ⟨max F1 F2, s2, ?_, hg2, hc2, by omega⟩
  intro g hg
  show (mf g >>= kf g) s = _
  rw [M.bind_apply, hrun1 g (le_trans (le_max_left _ _) hg)]
  exact hrun2 g (le_trans (le_max_right _ _) hg)

/-- A fuel-independent step with known behavior runs to its result. -/
theorem runsTo_const {α : Type} {m : M α} {s : SJ} {a : α} {s' : SJ}
    (h : m s = .ok (a, s')) (hg : Good s') (hn : s'.nestingLevel = s.nestingLevel) :
    RunsTo (fun _ => m) s a (charsOf s') :=
  ⟨0, s', fun _ _ => h, hg, rfl, hn⟩

theorem runsTo_pure {α : Type} {s : SJ} (a : α) (hg : Good s) :
    RunsTo (fun _ => M.pure a) s a (charsOf s) :=
  ⟨0, s, fun _ _ => rfl, hg, rfl, rfl⟩

/-- JSON-standard whitespace is JavaScript whitespace. -/
theorem isWs4_isWsJS {c : CU} (h : isWs4 c = true) : isWsJS c = true := by
  simp only [isWs4, Bool.or_eq_true, decide_eq_true_eq] at h
  rcases h with ((h | h) | h) | h <;> simp [isWsJS, h]

/-- When the character after the JSON-standard whitespace run is not
JavaScript whitespace, the two whitespace-skipping disciplines drop the same
run. -/
theorem dropWhile_ws_eq : ∀ (l : List CU),
    (∀ c, (l.dropWhile isWs4).head? = some c → isWsJS c = false) →
    l.dropWhile isWsJS = l.dropWhile isWs4 := by
  intro l
  induction l with
  | nil => intro _; rfl
  | cons c r ih =>
    intro h
    by_cases h4 : isWs4 c = true
    · rw [List.dropWhile_cons_of_pos h4, List.dropWhile_cons_of_pos (isWs4_isWsJS h4)]
      refine ih ?_
      intro d hd
      refine h d ?_
      rw [List.dropWhile_cons_of_pos h4]
      exact hd
    · have h4' : ¬ isWs4 c = true := h4
      have hjs : isWsJS c = false := by
        refine h c ?_
        rw [List.dropWhile_cons_of_neg h4']
        rfl
      rw [List.dropWhile_cons_of_neg h4', List.dropWhile_cons_of_neg (by simp [hjs])]

theorem assert_ok {s : SJ} {c : CU} (hc : s.currentChar = some c) {exp : List CU}
    (hin : c ∈ exp) : assertChar exp s = .ok ((), s) := by
  unfold assertChar
  rw [M.bind_apply, mget_apply]
  dsimp only
  rw [hc]
  simp [hin, M.pure]

theorem ccSat_eval (p : CU → Bool) (s : SJ) :
    ccSat p s = .ok ((match s.currentChar with
      | some c => if p c then some c else none
      | none => none), s) := by
  unfold ccSat
  rw [M.bind_apply, mget_apply]
  dsimp only
  cases hcc : s.currentChar with
  | none => simp [hcc, M.pure]
  | some c =>
    by_cases hp : p c
    · simp [hp, M.pure]
    · simp [hp, M.pure]

theorem ccSat_some {p : CU → Bool} {s : SJ} {c : CU} (hcc : s.currentChar = some c)
    (hp : p c = true) : ccSat p s = .ok (some c, s) := by
  rw [ccSat_eval, hcc]
  simp [hp]

theorem ccSat_none {p : CU → Bool} {s : SJ} {c : CU} (hcc : s.currentChar = some c)
    (hp : p c = false) : ccSat p s = .ok (none, s) := by
  rw [ccSat_eval, hcc]
  simp [hp]

theorem ccSat_eos {p : CU → Bool} {s : SJ} (hcc : s.currentChar = none) :
    ccSat p s = .ok (none, s) := by
  rw [ccSat_eval, hcc]

theorem peek_eval {s : SJ} {c : CU} (hc : s.currentChar = some c) :
    peekValueType s =
      if c = 34 then .ok (.vstr, s)
      else if c = 123 then .ok (.vobj, s)
      else if c = 91 then .ok (.varr, s)
      else if c = 116 ∨ c = 102 then .ok (.vbool, s)
      else if c = 110 then .ok (.vnull, s)
      else if c = 45 ∨ isDigit c then .ok (.vnum, s)
      else .error (.unexpectedValueChar (some c)) := by
  unfold peekValueType
  rw [M.bind_apply, mget_apply]
  dsimp only
  rw [hc]
  split_ifs <;> simp_all [M.pure, mthrow]

theorem wsLoop_exit_none {s : SJ} (hc : s.currentChar = none) (g : Nat) :
    wsLoop g s = .ok ((), s) := by
  cases g <;> simp [wsLoop, hc]

theorem wsLoop_exit {s : SJ} {c : CU} (hc : s.currentChar = some c)
    (hw : isWsJS c = false) (g : Nat) : wsLoop g s = .ok ((), s) := by
  cases g <;> simp [wsLoop, hc, hw]

theorem wsLoop_step {s : SJ} {c : CU} (hc : s.currentChar = some c)
    (hw : isWsJS c = true) (g : Nat) :
    wsLoop (g + 1) s = (nextChar >>= fun _ => wsLoop g) s := by
  simp [wsLoop, hc, hw]

theorem wsLoop_sim : ∀ (n : Nat) (s : SJ), (charsOf s).length ≤ n → Good s →
    RunsTo wsLoop s () ((charsOf s).dropWhile isWsJS) := by
  intro n
  induction n with
  | zero =>
    intro s hlen hg
    have hnil : charsOf s = [] := by
      cases h : charsOf s with
      | nil => rfl
      | cons a l => rw [h] at hlen; simp at hlen
    have hcc : s.currentChar = none := by rw [hg.2, hnil]; rfl
    refine ⟨0, s, fun g _ => wsLoop_exit_none hcc g, hg, ?_, rfl⟩
    rw [hnil]
    rfl
  | succ n ih =>
    intro s hlen hg
    cases hcc : s.currentChar with
    | none =>
      have hnil := good_none_chars hg hcc
      refine ⟨0, s, fun g _ => wsLoop_exit_none hcc g, hg, ?_, rfl⟩
      rw [hnil]
      rfl
    | some c =>
      cases hw : isWsJS c with
      | true =>
        obtain ⟨s1, hrun, hg1, hc1, hn1⟩ := nextChar_adv hg hcc
        have hlen1 : (charsOf s1).length ≤ n := by
          rw [hc1]
          rw [charsOf_some hcc] at hlen
          simpa using hlen
        obtain ⟨F, s2, hrun2, hg2, hc2, hn2⟩ := ih s1 hlen1 hg1
        refine ⟨F + 1, s2, ?_, hg2, ?_, by omega⟩
        · intro g hgF
          obtain ⟨g', rfl⟩ : ∃ g', g = g' + 1 := ⟨g - 1, by omega⟩
          rw [wsLoop_step hcc hw, M.bind_apply, hrun]
          exact hrun2 g' (by omega)
        · rw [hc2, hc1, charsOf_some hcc, List.dropWhile_cons_of_pos hw]
      | false =>
        refine ⟨0, s, fun g _ => wsLoop_exit hcc hw g, hg, ?_, rfl⟩
        rw [charsOf_some hcc, List.dropWhile_cons_of_neg (by simp [hw]), ← charsOf_some hcc]

theorem cwLoad_some {s : SJ} {c : CU} (hc : s.currentChar = some c) :
    cwLoad s = .ok ((), s) := by
  unfold cwLoad
  rw [M.bind_apply, mget_apply]
  dsimp only
  rw [hc]
  simp [M.pure]

theorem cwLoad_none {s : SJ} (hc : s.currentChar = none) : cwLoad s = nextChar s := by
  unfold cwLoad
  rw [M.bind_apply, mget_apply]
  dsimp only
  rw [hc]
  simp

/-- Entry condition for whitespace skipping: either a steady state with input
remaining, or the start-of-life state with a nonempty fragment stream. -/
def Ready (s : SJ) : Prop :=
  (Good s ∧ charsOf s ≠ []) ∨
  (NE s ∧ s.currentChar = none ∧ s.buffer = [] ∧ s.stream ≠ [])

theorem cw_sim {s : SJ} (hr : Ready s)
    (hq : ∀ c, ((charsOf s).dropWhile isWs4).head? = some c → isWsJS c = false) :
    RunsTo consumeWhitespace s () ((charsOf s).dropWhile isWs4) := by
  have key : ∀ s1, Good s1 → charsOf s1 = charsOf s → s1.nestingLevel = s.nestingLevel →
      cwLoad s1 = .ok ((), s1) ∨
      (∃ s2, cwLoad s1 = .ok ((), s2) ∧ Good s2 ∧ charsOf s2 = charsOf s ∧
        s2.nestingLevel = s.nestingLevel) → True := fun _ _ _ _ _ => trivial
  rcases hr with ⟨hg, hne⟩ | ⟨hne, hcc, hb, hs⟩
  · have hcsome : ∃ c, s.currentChar = some c := by
      cases hcs : s.currentChar with
      | none => exact absurd (good_none_chars hg hcs) hne
      | some c => exact ⟨c, rfl⟩
    obtain ⟨c, hcs⟩ := hcsome
    obtain ⟨F, s2, hrun, hg2, hc2, hn2⟩ :=
      wsLoop_sim (charsOf s).length s (le_refl _) hg
    refine ⟨F, s2, ?_, hg2, ?_, hn2⟩
    · intro g hgF
      show (cwLoad >>= fun _ => wsLoop g) s = _
      rw [M.bind_apply, cwLoad_some hcs]
      exact hrun g hgF
    · rw [hc2, dropWhile_ws_eq _ hq]
  · obtain ⟨s1, hrun1, hg1, hc1, hn1⟩ := nextChar_load hne hcc hb hs
    obtain ⟨F, s2, hrun, hg2, hc2, hn2⟩ :=
      wsLoop_sim (charsOf s1).length s1 (le_refl _) hg1
    refine ⟨F, s2, ?_, hg2, ?_, by omega⟩
    · intro g hgF
      show (cwLoad >>= fun _ => wsLoop g) s = _
      rw [M.bind_apply, cwLoad_none hcc, hrun1]
      exact hrun g hgF
    · rw [hc2, hc1, dropWhile_ws_eq _ hq]

theorem parseUEGo_step {s : SJ} {d : CU} {k v : Nat} {hs : List CU}
    (hg : Good s) (hcc : ∃ u, s.currentChar = some u)
    (hhead : afterCC s ≠ [] ∧ (afterCC s).head? = some d) (hx : isHexDigit d = true) :
    ∃ s', (parseUEGo (k + 1) v hs s = parseUEGo k (v * 16 + hexVal d) (hs ++ [d]) s') ∧
      Good s' ∧ charsOf s' = afterCC s ∧ s'.nestingLevel = s.nestingLevel := by
  obtain ⟨u, hccu⟩ := hcc
  obtain ⟨s1, hrun, hg1, hc1, hn1⟩ := nextChar_adv hg hccu
  have hcc1 : s1.currentChar = some d := by
    rw [hg1.2, hc1]
    cases ha : afterCC s with
    | nil => exact absurd ha hhead.1
    | cons x xs =>
      have := hhead.2
      rw [ha] at this
      simpa using this
  refine ⟨s1, ?_, hg1, hc1, hn1⟩
  show (nextChar >>= fun _ => _) s = _
  rw [M.bind_apply, hrun]
  show (mget >>= _) s1 = _
  rw [mget_bind]
  show (match s1.currentChar with
    | some c =>
      if isHexDigit c = true then parseUEGo k (v * 16 + hexVal c) (hs ++ [c])
      else mthrow (Err.invalidUnicodeEscape hs (some c))
    | none => mthrow (Err.invalidUnicodeEscape hs none)) s1 = _
  rw [hcc1]
  dsimp only
  rw [if_pos hx]

theorem parseUE_sim {s : SJ} {h1 h2 h3 h4 : CU} {rest : List CU}
    (hg : Good s) (hcc : ∃ u, s.currentChar = some u)
    (haf : afterCC s = h1 :: h2 :: h3 :: h4 :: rest)
    (hx1 : isHexDigit h1 = true) (hx2 : isHexDigit h2 = true)
    (hx3 : isHexDigit h3 = true) (hx4 : isHexDigit h4 = true) :
    ∃ s', parseUnicodeEscape s =
        .ok ((((hexVal h1 * 16 + hexVal h2) * 16 + hexVal h3) * 16 + hexVal h4), s') ∧
      Good s' ∧ charsOf s' = h4 :: rest ∧ s'.nestingLevel = s.nestingLevel := by
  obtain ⟨s1, heq1, hg1, hc1, hn1⟩ :=
    @parseUEGo_step s h1 3 0 [] hg hcc
      (by rw [haf]; exact ⟨by simp, rfl⟩) hx1
  rw [haf] at hc1
  have hcc1 : s1.currentChar = some h1 := by rw [hg1.2, hc1]; rfl
  have haf1 : afterCC s1 = h2 :: h3 :: h4 :: rest := by
    have := charsOf_some hcc1
    rw [hc1] at this
    exact (List.cons.injEq _ _ _ _).mp this.symm |>.2
  obtain ⟨s2, heq2, hg2, hc2, hn2⟩ :=
    @parseUEGo_step s1 h2 2 (0 * 16 + hexVal h1) ([] ++ [h1]) hg1 ⟨h1, hcc1⟩
      (by rw [haf1]; exact ⟨by simp, rfl⟩) hx2
  rw [haf1] at hc2
  have hcc2 : s2.currentChar = some h2 := by rw [hg2.2, hc2]; rfl
  have haf2 : afterCC s2 = h3 :: h4 :: rest := by
    have := charsOf_some hcc2
    rw [hc2] at this
    exact (List.cons.injEq _ _ _ _).mp this.symm |>.2
  obtain ⟨s3, heq3, hg3, hc3, hn3⟩ :=
    @parseUEGo_step s2 h3 1 ((0 * 16 + hexVal h1) * 16 + hexVal h2)
      (([] ++ [h1]) ++ [h2]) hg2 ⟨h2, hcc2⟩
      (by rw [haf2]; exact ⟨by simp, rfl⟩) hx3
  rw [haf2] at hc3
  have hcc3 : s3.currentChar = some h3 := by rw [hg3.2, hc3]; rfl
  have haf3 : afterCC s3 = h4 :: rest := by
    have := charsOf_some hcc3
    rw [hc3] at this
    exact (List.cons.injEq _ _ _ _).mp this.symm |>.2
  obtain ⟨s4, heq4, hg4, hc4, hn4⟩ :=
    @parseUEGo_step s3 h4 0 (((0 * 16 + hexVal h1) * 16 + hexVal h2) * 16 + hexVal h3)
      ((([] ++ [h1]) ++ [h2]) ++ [h3]) hg3 ⟨h3, hcc3⟩
      (by rw [haf3]; exact ⟨by simp, rfl⟩) hx4
  rw [haf3] at hc4
  refine ⟨s4, ?_, hg4, hc4, by omega⟩
  unfold parseUnicodeEscape
  rw [heq1, heq2, heq3, heq4]
  simp [parseUEGo, M.pure]

theorem scs_plain {s : SJ} {c : CU} (hcc : s.currentChar = some c) (h92 : c ≠ 92)
    (ch : List CU) : stringCharStep ch s = .ok (ch ++ [c], s) := by
  unfold stringCharStep
  rw [mget_bind, hcc]
  dsimp only
  rw [if_neg h92]
  rfl

theorem scs_special {s : SJ} {e x : CU} {rest2 : List CU} (ch : List CU)
    (hg : Good s) (hcc : s.currentChar = some 92) (haf : afterCC s = e :: rest2)
    (hsp : specialEscape e = some x) :
    ∃ s', stringCharStep ch s = .ok (ch ++ [x], s') ∧ Good s' ∧
      charsOf s' = e :: rest2 ∧ s'.nestingLevel = s.nestingLevel := by
  have h117 : e ≠ 117 := by
    intro he
    rw [he] at hsp
    simp [specialEscape] at hsp
  obtain ⟨s1, hrun, hg1, hc1, hn1⟩ := nextChar_adv hg hcc
  rw [haf] at hc1
  have hcc1 : s1.currentChar = some e := by rw [hg1.2, hc1]; rfl
  refine ⟨s1, ?_, hg1, hc1, hn1⟩
  unfold stringCharStep
  rw [mget_bind, hcc]
  dsimp only
  rw [if_pos rfl, M.bind_apply, hrun]
  dsimp only
  rw [M.bind_apply, ccSat_none hcc1 (by simp [h117])]
  dsimp only
  rw [mget_bind, hcc1]
  dsimp only
  rw [hsp]
  rfl

theorem scs_u {s : SJ} {h1 h2 h3 h4 : CU} {rest2 : List CU} (ch : List CU)
    (hg : Good s) (hcc : s.currentChar = some 92)
    (haf : afterCC s = 117 :: h1 :: h2 :: h3 :: h4 :: rest2)
    (hx1 : isHexDigit h1 = true) (hx2 : isHexDigit h2 = true)
    (hx3 : isHexDigit h3 = true) (hx4 : isHexDigit h4 = true) :
    ∃ s', stringCharStep ch s =
        .ok (ch ++ [(((hexVal h1 * 16 + hexVal h2) * 16 + hexVal h3) * 16 + hexVal h4)], s') ∧
      Good s' ∧ charsOf s' = h4 :: rest2 ∧ s'.nestingLevel = s.nestingLevel := by
  obtain ⟨s1, hrun, hg1, hc1, hn1⟩ := nextChar_adv hg hcc
  rw [haf] at hc1
  have hcc1 : s1.currentChar = some 117 := by rw [hg1.2, hc1]; rfl
  have haf1 : afterCC s1 = h1 :: h2 :: h3 :: h4 :: rest2 := by
    have := charsOf_some hcc1
    rw [hc1] at this
    exact (List.cons.injEq _ _ _ _).mp this.symm |>.2
  obtain ⟨s2, hue, hg2, hc2, hn2⟩ := parseUE_sim hg1 ⟨117, hcc1⟩ haf1 hx1 hx2 hx3 hx4
  refine ⟨s2, ?_, hg2, hc2, by omega⟩
  unfold stringCharStep
  rw [mget_bind, hcc]
  dsimp only
  rw [if_pos rfl, M.bind_apply, hrun]
  dsimp only
  rw [M.bind_apply, ccSat_some hcc1 (by simp)]
  dsimp only
  rw [M.bind_apply, hue]
  rfl

theorem joinYields_append (a b : List SEv) :
    joinYields (a ++ b) = joinYields a ++ joinYields b := by
  simp [joinYields, yieldsOf, List.filterMap_append]

theorem pendingsEmpty_append {a b : List SEv} (ha : pendingsEmpty a = true)
    (hb : pendingsEmpty b = true) : pendingsEmpty (a ++ b) = true := by
  simp only [pendingsEmpty, List.all_append]
  simp only [pendingsEmpty] at ha hb
  rw [ha, hb]
  rfl

/-- The advance at the end of a string-loop iteration: one code unit is
consumed (from the buffer, or across an emit-then-await when the buffer is
exhausted), and the rest of the loop continues from the advanced state with an
accumulator accounted for by the emitted prefix events. -/
theorem sls_adv {s : SJ} {c : CU} (hg : Good s) (hcc : s.currentChar = some c)
    (ch : List CU) :
    ∃ evPre ch2 s',
      (∀ f, stringLoopStep f ch s =
        (stringLoop f ch2 s').map (fun p => (evPre ++ p.1, p.2))) ∧
      Good s' ∧ charsOf s' = afterCC s ∧ s'.nestingLevel = s.nestingLevel ∧
      joinYields evPre ++ ch2 = ch ∧ pendingsEmpty evPre = true := by
  obtain ⟨s1, hrun, hg1, hc1, hn1⟩ := nextChar_adv hg hcc
  cases hb : s.buffer with
  | cons b bs =>
    have hmnc : maybeNextChar s = .ok (true, s1) := by
      unfold maybeNextChar
      rw [mget_bind]
      rw [if_neg (by rw [hb]; simp), M.bind_apply, hrun]
      rfl
    refine ⟨[], ch, s1, ?_, hg1, hc1, hn1, by simp [joinYields, yieldsOf], rfl⟩
    intro f
    rw [stringLoopStep, M.bind_apply, hmnc]
    dsimp only
    rw [if_pos rfl]
    cases stringLoop f ch s1 with
    | error e => rfl
    | ok p => simp [Except.map]
  | nil =>
    have hmnc : maybeNextChar s = .ok (false, s) := by
      unfold maybeNextChar
      rw [mget_bind]
      rw [if_pos (by rw [hb]; rfl)]
      rfl
    refine ⟨(if ch.isEmpty then ([] : List SEv) else [.yieldChunk ch]) ++
        [.pullEx (if ch.isEmpty then ch else [])],
      (if ch.isEmpty then ch else []), s1, ?_, hg1, hc1, hn1, ?_, ?_⟩
    · intro f
      rw [stringLoopStep, M.bind_apply, hmnc]
      dsimp only
      rw [if_neg (by simp), M.bind_apply, hrun]
      dsimp only
      rw [M.bind_apply]
      cases stringLoop f (if ch.isEmpty then ch else []) s1 with
      | error e => rfl
      | ok p => simp [Except.map, M.pure]
    · cases hch : ch.isEmpty with
      | true =>
        have : ch = [] := by cases ch with | nil => rfl | cons _ _ => simp at hch
        simp [this, joinYields, yieldsOf]
      | false => simp [hch, joinYields, yieldsOf]
    · cases hch : ch.isEmpty with
      | true => simp [hch, pendingsEmpty]
      | false => simp [hch, pendingsEmpty]

theorem stringLoop_exit {s : SJ} (hcc : s.currentChar = some 34) (g : Nat) (ch : List CU) :
    stringLoop (g + 1) ch s = (do
      let evs := if ch.isEmpty then ([] : List SEv) else [.yieldChunk ch]
      nextChar
      M.pure evs) s := by
  rw [stringLoop]
  beta_reduce
  rw [if_pos hcc]

theorem stringLoop_body {s : SJ} {c : CU} (hcc : s.currentChar = some c) (h34 : c ≠ 34)
    (g : Nat) (ch : List CU) :
    stringLoop (g + 1) ch s = (stringCharStep ch >>= fun ch' => stringLoopStep g ch') s := by
  rw [stringLoop]
  beta_reduce
  rw [if_neg (show ¬ s.currentChar = some 34 by rw [hcc]; simp [h34])]

theorem refSB_quote (r : List CU) : refStringBody (34 :: r) = some ([], r) := by
  rw [refStringBody.eq_def]
  simp

theorem refSB_u (h1 h2 h3 h4 : CU) (r3 : List CU) :
    refStringBody (92 :: 117 :: h1 :: h2 :: h3 :: h4 :: r3) =
      (if isHexDigit h1 && isHexDigit h2 && isHexDigit h3 && isHexDigit h4 then
        match refStringBody r3 with
        | some (d, rest) =>
          some ((((hexVal h1 * 16 + hexVal h2) * 16 + hexVal h3) * 16 + hexVal h4) :: d, rest)
        | none => none
      else none) := by
  rw [refStringBody.eq_def]
  simp

theorem refSB_esc {e : CU} (r2 : List CU) (hu : e ≠ 117) :
    refStringBody (92 :: e :: r2) =
      (match specialEscape e with
       | some x =>
         match refStringBody r2 with
         | some (d, rest) => some (x :: d, rest)
         | none => none
       | none => none) := by
  rw [refStringBody.eq_def]
  simp [hu]

theorem refSB_plain {c : CU} (r : List CU) (h34 : c ≠ 34) (h92 : c ≠ 92)
    (hctl : ¬ c < 32) :
    refStringBody (c :: r) =
      (match refStringBody r with
       | some (d, rest) => some (c :: d, rest)
       | none => none) := by
  rw [refStringBody.eq_def]
  simp [h34, h92, hctl]

theorem good_tail {s : SJ} {x : CU} {r : List CU} (hg : Good s) (hc : charsOf s = x :: r) :
    s.currentChar = some x ∧ afterCC s = r := by
  have hcc : s.currentChar = some x := by rw [hg.2, hc]; rfl
  refine ⟨hcc, ?_⟩
  have := charsOf_some hcc
  rw [hc] at this
  exact ((List.cons.injEq _ _ _ _).mp this.symm).2

/-- The streaming string loop agrees with the reference string-body decoder:
whenever the reference decoder accepts the remaining input, the loop succeeds
for every sufficient fuel, the concatenation of its yielded fragments is the
accumulated chunk followed by the decoded value, every buffer-exhaustion await
happens with an empty pending accumulator, and the final state holds exactly
the input after the closing quote. -/
theorem stringLoop_sim : ∀ (n : Nat) (s : SJ) (ch D rest : List CU),
    (charsOf s).length ≤ n → Good s → refStringBody (charsOf s) = some (D, rest) →
    ∃ F s' evs, (∀ g, F ≤ g → stringLoop g ch s = .ok (evs, s')) ∧ Good s' ∧
      charsOf s' = rest ∧ s'.nestingLevel = s.nestingLevel ∧
      joinYields evs = ch ++ D ∧ pendingsEmpty evs = true := by
  intro n
  induction n with
  | zero =>
    intro s ch D rest hlen hg href
    have hnil : charsOf s = [] := by
      cases h : charsOf s with
      | nil => rfl
      | cons a l => rw [h] at hlen; simp at hlen
    rw [hnil, refStringBody.eq_def] at href
    simp at href
  | succ n ih =>
    intro s ch D rest hlen hg href
    cases hchars : charsOf s with
    | nil => rw [hchars, refStringBody.eq_def] at href; simp at href
    | cons c r =>
      obtain ⟨hcc, haf⟩ := good_tail hg hchars
      rw [hchars] at href hlen
      simp only [List.length_cons, Nat.succ_le_succ_iff] at hlen
      by_cases h34 : c = 34
      · subst h34
        rw [refSB_quote] at href
        injection href with h1
        injection h1 with hD hrest
        obtain ⟨s1, hrun, hg1, hc1, hn1⟩ := nextChar_adv hg hcc
        refine ⟨1, s1, (if ch.isEmpty then ([] : List SEv) else [.yieldChunk ch]), ?_, hg1,
          by rw [hc1, haf, hrest], hn1, ?_, ?_⟩
        · intro g hgF
          obtain ⟨g', rfl⟩ : ∃ g', g = g' + 1 := ⟨g - 1, by omega⟩
          rw [stringLoop_exit hcc, M.bind_apply, hrun]
          rfl
        · rw [← hD]
          cases hch : ch.isEmpty with
          | true =>
            have : ch = [] := by simpa [List.isEmpty_iff] using hch
            simp [this, joinYields, yieldsOf]
          | false => simp [joinYields, yieldsOf]
        · cases hch : ch.isEmpty <;> simp [pendingsEmpty]
      · by_cases h92 : c = 92
        · subst h92
          cases hr : r with
          | nil =>
            rw [hr, refStringBody.eq_def] at href
            simp at href
          | cons e r2 =>
            rw [hr] at href haf hlen
            by_cases hu : e = 117
            · subst hu
              cases hr2a : r2 with
              | nil => rw [hr2a, refStringBody.eq_def] at href; simp at href
              | cons h1 r3 =>
                cases hr3a : r3 with
                | nil => rw [hr2a, hr3a, refStringBody.eq_def] at href; simp at href
                | cons h2 r4 =>
                  cases hr4a : r4 with
                  | nil =>
                    rw [hr2a, hr3a, hr4a, refStringBody.eq_def] at href
                    simp at href
                  | cons h3 r5 =>
                    cases hr5a : r5 with
                    | nil =>
                      rw [hr2a, hr3a, hr4a, hr5a, refStringBody.eq_def] at href
                      simp at href
                    | cons h4 r6 =>
                      rw [hr2a, hr3a, hr4a, hr5a] at href haf hlen
                      rw [refSB_u] at href
                      by_cases hhex : (isHexDigit h1 && isHexDigit h2 && isHexDigit h3 &&
                          isHexDigit h4) = true
                      · rw [if_pos hhex] at href
                        cases hrsb : refStringBody r6 with
                        | none => rw [hrsb] at href; simp at href
                        | some p =>
                          obtain ⟨d, rest'⟩ := p
                          rw [hrsb] at href
                          injection href with hx
                          injection hx with hD hrest
                          obtain ⟨hx1, hx2, hx3, hx4⟩ :
                              isHexDigit h1 = true ∧ isHexDigit h2 = true ∧
                              isHexDigit h3 = true ∧ isHexDigit h4 = true := by
                            simp only [Bool.and_eq_true] at hhex
                            tauto
                          obtain ⟨s2, hscs, hg2, hc2, hn2⟩ :=
                            scs_u ch hg hcc haf hx1 hx2 hx3 hx4
                          obtain ⟨hcc2, haf2⟩ := good_tail hg2 hc2
                          obtain ⟨evPre, ch2, s3, hstep, hg3, hc3, hn3, hjoin, hpend⟩ :=
                            sls_adv hg2 hcc2
                            (ch ++ [(((hexVal h1 * 16 + hexVal h2) * 16 + hexVal h3) * 16 +
                              hexVal h4)])
                          have hc3' : charsOf s3 = r6 := by rw [hc3, haf2]
                          have hlen3 : (charsOf s3).length ≤ n := by
                            rw [hc3']
                            simp at hlen
                            omega
                          obtain ⟨F', s4, evs', hrun', hg4, hc4, hn4, hjoin', hpend'⟩ :=
                            ih s3 ch2 d rest' hlen3 hg3 (by rw [hc3']; exact hrsb)
                          refine ⟨F' + 1, s4, evPre ++ evs', ?_, hg4, by rw [hc4, hrest],
                            by omega, ?_, pendingsEmpty_append hpend hpend'⟩
                          · intro g hgF
                            obtain ⟨g', rfl⟩ : ∃ g', g = g' + 1 := ⟨g - 1, by omega⟩
                            rw [stringLoop_body hcc (by decide), M.bind_apply, hscs]
                            dsimp only
                            rw [hstep g', hrun' g' (by omega)]
                            rfl
                          · rw [joinYields_append, hjoin', ← List.append_assoc, hjoin, ← hD]
                            simp
                      · rw [if_neg hhex] at href
                        simp at href
            · rw [refSB_esc r2 hu] at href
              cases hsp : specialEscape e with
              | none => rw [hsp] at href; simp at href
              | some x =>
                rw [hsp] at href
                cases hrsb : refStringBody r2 with
                | none => rw [hrsb] at href; simp at href
                | some p =>
                  obtain ⟨d, rest'⟩ := p
                  rw [hrsb] at href
                  injection href with hx
                  injection hx with hD hrest
                  obtain ⟨s2, hscs, hg2, hc2, hn2⟩ := scs_special ch hg hcc haf hsp
                  obtain ⟨hcc2, haf2⟩ := good_tail hg2 hc2
                  obtain ⟨evPre, ch2, s3, hstep, hg3, hc3, hn3, hjoin, hpend⟩ :=
                    sls_adv hg2 hcc2 (ch ++ [x])
                  have hc3' : charsOf s3 = r2 := by rw [hc3, haf2]
                  have hlen3 : (charsOf s3).length ≤ n := by
                    rw [hc3']
                    simp at hlen
                    omega
                  obtain ⟨F', s4, evs', hrun', hg4, hc4, hn4, hjoin', hpend'⟩ :=
                    ih s3 ch2 d rest' hlen3 hg3 (by rw [hc3']; exact hrsb)
                  refine ⟨F' + 1, s4, evPre ++ evs', ?_, hg4, by rw [hc4, hrest],
                    by omega, ?_, pendingsEmpty_append hpend hpend'⟩
                  · intro g hgF
                    obtain ⟨g', rfl⟩ : ∃ g', g = g' + 1 := ⟨g - 1, by omega⟩
                    rw [stringLoop_body hcc (by decide), M.bind_apply, hscs]
                    dsimp only
                    rw [hstep g', hrun' g' (by omega)]
                    rfl
                  · rw [joinYields_append, hjoin', ← List.append_assoc, hjoin, ← hD]
                    simp
        · by_cases hctl : c < 32
          · rw [refStringBody.eq_def] at href
            simp [h34, h92, hctl] at href
          · rw [refSB_plain r h34 h92 hctl] at href
            cases hrsb : refStringBody r with
            | none => rw [hrsb] at href; simp at href
            | some p =>
              obtain ⟨d, rest'⟩ := p
              rw [hrsb] at href
              injection href with hx
              injection hx with hD hrest
              have hscs := scs_plain hcc h92 ch
              obtain ⟨evPre, ch2, s3, hstep, hg3, hc3, hn3, hjoin, hpend⟩ :=
                sls_adv hg hcc (ch ++ [c])
              have hc3' : charsOf s3 = r := by rw [hc3, haf]
              have hlen3 : (charsOf s3).length ≤ n := by rw [hc3']; omega
              obtain ⟨F', s4, evs', hrun', hg4, hc4, hn4, hjoin', hpend'⟩ :=
                ih s3 ch2 d rest' hlen3 hg3 (by rw [hc3']; exact hrsb)
              refine ⟨F' + 1, s4, evPre ++ evs', ?_, hg4, by rw [hc4, hrest],
                by omega, ?_, pendingsEmpty_append hpend hpend'⟩
              · intro g hgF
                obtain ⟨g', rfl⟩ : ∃ g', g = g' + 1 := ⟨g - 1, by omega⟩
                rw [stringLoop_body hcc h34, M.bind_apply, hscs]
                dsimp only
                rw [hstep g', hrun' g' (by omega)]
                rfl
              · rw [joinYields_append, hjoin', ← List.append_assoc, hjoin, ← hD]
                simp

/-- The chunked string reader agrees with the reference decoder: from any
ready state whose input (after JSON whitespace) is a string literal accepted
by the reference decoder, stringChunks succeeds, the concatenation of its
yields is the decoded value, and every buffer-exhaustion await happens with an
empty pending accumulator. -/
theorem stringChunks_sim {s : SJ} {body D rest : List CU} (hr : Ready s)
    (hdrop : (charsOf s).dropWhile isWs4 = 34 :: body)
    (href : refStringBody body = some (D, rest)) :
    ∃ F s' evs, (∀ g, F ≤ g → stringChunksM g s = .ok (evs, s')) ∧ Good s' ∧
      charsOf s' = rest ∧ s'.nestingLevel = s.nestingLevel ∧
      joinYields evs = D ∧ pendingsEmpty evs = true := by
  obtain ⟨F1, s1, hrun1, hg1, hc1, hn1⟩ := cw_sim hr (by
    intro d hd
    rw [hdrop] at hd
    injection hd with hd
    rw [← hd]
    decide)
  rw [hdrop] at hc1
  obtain ⟨hcc1, haf1⟩ := good_tail hg1 hc1
  have hassert : assertChar [34] s1 = .ok ((), s1) := assert_ok hcc1 (by decide)
  obtain ⟨s2, hrun2, hg2, hc2, hn2⟩ := nextChar_adv hg1 hcc1
  rw [haf1] at hc2
  obtain ⟨F3, s3, evs, hrun3, hg3, hc3, hn3, hjoin, hpend⟩ :=
    stringLoop_sim body.length s2 [] D rest (by rw [hc2]) hg2 (by rw [hc2]; exact href)
  refine ⟨max F1 F3, s3, evs, ?_, hg3, hc3, by omega, by simpa using hjoin, hpend⟩
  intro g hgF
  unfold stringChunksM
  rw [M.bind_apply, hrun1 g (le_trans (le_max_left _ _) hgF)]
  dsimp only
  rw [M.bind_apply, hassert]
  dsimp only
  rw [M.bind_apply, hrun2]
  exact hrun3 g (le_trans (le_max_right _ _) hgF)

/-- StreamingJSON.string agrees with the reference decoder. -/
theorem parseString_sim {s : SJ} {body D rest : List CU} (hr : Ready s)
    (hdrop : (charsOf s).dropWhile isWs4 = 34 :: body)
    (href : refStringBody body = some (D, rest)) :
    ∃ F s', (∀ g, F ≤ g → parseString g s = .ok (D, s')) ∧ Good s' ∧
      charsOf s' = rest ∧ s'.nestingLevel = s.nestingLevel := by
  obtain ⟨F, s', evs, hrun, hg', hc', hn', hjoin, hpend⟩ := stringChunks_sim hr hdrop href
  refine ⟨F, s', ?_, hg', hc', hn'⟩
  intro g hgF
  unfold parseString
  rw [M.bind_apply, hrun g hgF]
  dsimp only
  rw [hjoin]
  rfl

/-- Claim C2: for every JSON string value and every fragmentation of the input
into nonempty fragments, the chunked string reader succeeds; every await of
the next source fragment taken because the local buffer was exhausted
mid-string happens with an empty pending accumulator (any nonempty accumulated
fragment was emitted first); and the concatenation of all emitted fragments is
the fully decoded string value of the reference decoder, escapes decoded with
each Unicode escape yielding one 16-bit code unit, including escapes split
across fragments. -/
theorem stringChunks_chunked_correct (frags : List (List CU)) (body D rest : List CU)
    (hne : ∀ fr ∈ frags, fr ≠ []) (hjoin : frags.flatten = 34 :: body)
    (href : refStringBody body = some (D, rest)) :
    ∃ F s' evs, (∀ g, F ≤ g → stringChunksM g (initSJ frags) = .ok (evs, s')) ∧
      joinYields evs = D ∧ pendingsEmpty evs = true ∧ charsOf s' = rest := by
  have hchars : charsOf (initSJ frags) = 34 :: body := by
    simp [charsOf, afterCC, initSJ, hjoin]
  have hr : Ready (initSJ frags) := Or.inr ⟨hne, rfl, rfl, by
    intro hfr
    rw [show frags = [] from hfr] at hjoin
    simp at hjoin⟩
  obtain ⟨F, s', evs, hrun, hg', hc', hn', hj, hp⟩ := stringChunks_sim hr
    (by rw [hchars, List.dropWhile_cons_of_neg (by decide)]) href
  exact ⟨F, s', evs, hrun, hj, hp, hc'⟩

/-- Witness for C2: the string literal holding one plain character and a
Unicode escape, split so that the escape crosses the fragment boundary. -/
theorem stringChunks_chunked_correct_witness :
    (∀ fr ∈ ([[34, 97, 92, 117, 48, 48], [52, 57, 34]] : List (List CU)), fr ≠ []) ∧
    ([[34, 97, 92, 117, 48, 48], [52, 57, 34]] : List (List CU)).flatten =
      34 :: [97, 92, 117, 48, 48, 52, 57, 34] ∧
    refStringBody [97, 92, 117, 48, 48, 52, 57, 34] = some ([97, 73], []) ∧
    (∃ F s' evs,
      (∀ g, F ≤ g →
        stringChunksM g (initSJ [[34, 97, 92, 117, 48, 48], [52, 57, 34]]) = .ok (evs, s')) ∧
      joinYields evs = [97, 73] ∧ pendingsEmpty evs = true ∧ charsOf s' = []) :=
  ⟨by decide, rfl, rfl,
    stringChunks_chunked_correct [[34, 97, 92, 117, 48, 48], [52, 57, 34]]
      [97, 92, 117, 48, 48, 52, 57, 34] [97, 73] [] (by decide) rfl rfl⟩

theorem dropWhile_idem (p : CU → Bool) : ∀ l : List CU,
    (l.dropWhile p).dropWhile p = l.dropWhile p := by
  intro l
  induction l with
  | nil => rfl
  | cons c r ih =>
    by_cases h : p c = true
    · rw [List.dropWhile_cons_of_pos h]
      exact ih
    · rw [List.dropWhile_cons_of_neg h, List.dropWhile_cons_of_neg h]

theorem charsOf_nest (s : SJ) (x : Int) :
    charsOf { s with nestingLevel := x } = charsOf s := rfl

theorem good_nest {s : SJ} {x : Int} (hg : Good s) : Good { s with nestingLevel := x } := hg

/-- When the character slot already holds a non-whitespace character,
consumeWhitespace is the identity at every fuel. -/
theorem cw_noop {s : SJ} {c : CU} (hcc : s.currentChar = some c) (hw : isWsJS c = false)
    (f : Nat) : consumeWhitespace f s = .ok ((), s) := by
  unfold consumeWhitespace
  rw [M.bind_apply, cwLoad_some hcc]
  exact wsLoop_exit hcc hw f

theorem isDigit19_isDigit {c : CU} (h : isDigit19 c = true) : isDigit c = true := by
  simp only [isDigit19, Bool.and_eq_true, decide_eq_true_eq] at h
  simp only [isDigit, Bool.and_eq_true, decide_eq_true_eq]
  exact ⟨Nat.le_of_succ_le h.1, h.2⟩

theorem isWs4_false_of_isWsJS_false {c : CU} (h : isWsJS c = false) : isWs4 c = false := by
  cases h4 : isWs4 c with
  | false => rfl
  | true => rw [isWs4_isWsJS h4] at h; cases h

theorem refValue_nil : ∀ n : Nat, refValue n [] = none := by
  intro n
  cases n with
  | zero => rw [refValue]
  | succ n =>
    rw [refValue]
    rfl

/-- A successful reference value read starts, after whitespace, with one of the
seven value-dispatch characters. -/
theorem refValue_cases {n : Nat} {chars : List CU} {p : JValue × List CU}
    (h : refValue n chars = some p) :
    ∃ c r, dropWs chars = c :: r ∧
      (c = 34 ∨ c = 123 ∨ c = 91 ∨ c = 116 ∨ c = 102 ∨ c = 110 ∨ isNumStart c = true) := by
  cases n with
  | zero => rw [refValue] at h; cases h
  | succ n =>
    rw [refValue] at h
    cases hdw : dropWs chars with
    | nil => rw [hdw] at h; cases h
    | cons c r =>
      rw [hdw] at h
      dsimp only at h
      refine ⟨c, r, rfl, ?_⟩
      by_contra hbad
      push_neg at hbad
      obtain ⟨h34, h123, h91, h116, h102, h110, hnum⟩ := hbad
      rw [if_neg h34, if_neg h123, if_neg h91, if_neg h116, if_neg h102, if_neg h110,
        if_neg (by simpa using hnum)] at h
      cases h

/-- Bounded check behind valhead_props: no decimal digit code unit is
whitespace, a closer, or the comma. -/
theorem digit_head_props : ∀ c : CU, c < 58 → 48 ≤ c →
    isWsJS c = false ∧ c ≠ 93 ∧ c ≠ 125 ∧ c ≠ 44 := by decide

/-- The seven value-dispatch characters are not whitespace and are distinct
from the structural closers and the comma. -/
theorem valhead_props {c : CU}
    (h : c = 34 ∨ c = 123 ∨ c = 91 ∨ c = 116 ∨ c = 102 ∨ c = 110 ∨ isNumStart c = true) :
    isWsJS c = false ∧ c ≠ 93 ∧ c ≠ 125 ∧ c ≠ 44 := by
  simp only [isNumStart, isDigit, Bool.or_eq_true, Bool.and_eq_true, decide_eq_true_eq] at h
  rcases h with rfl | rfl | rfl | rfl | rfl | rfl | rfl | ⟨hl, hu⟩
  · exact ⟨by decide, by decide, by decide, by decide⟩
  · exact ⟨by decide, by decide, by decide, by decide⟩
  · exact ⟨by decide, by decide, by decide, by decide⟩
  · exact ⟨by decide, by decide, by decide, by decide⟩
  · exact ⟨by decide, by decide, by decide, by decide⟩
  · exact ⟨by decide, by decide, by decide, by decide⟩
  · exact ⟨by decide, by decide, by decide, by decide⟩
  · exact digit_head_props c (Nat.lt_succ_of_le hu) hl

theorem dropWs_cons_ne {l : List CU} {c : CU} {r : List CU} (h : dropWs l = c :: r) :
    l ≠ [] := by
  intro he
  subst he
  exact absurd h (by simp [dropWs])

theorem refValue_ne_nil {n : Nat} {chars : List CU} {p : JValue × List CU}
    (h : refValue n chars = some p) : chars ≠ [] := by
  obtain ⟨c, r, hdw, -⟩ := refValue_cases h
  exact dropWs_cons_ne hdw

/-- The digit run loop: collects exactly the leading digit run of the
remaining input and stops at the first non-digit (or end of input). -/
theorem digitsLoop_sim : ∀ (n : Nat) (s : SJ) (acc : List CU),
    (charsOf s).length ≤ n → Good s →
    ∃ F s', (∀ g, F ≤ g → digitsLoop g acc s = .ok (acc ++ (charsOf s).takeWhile isDigit, s')) ∧
      Good s' ∧ charsOf s' = (charsOf s).dropWhile isDigit ∧
      s'.nestingLevel = s.nestingLevel := by
  intro n
  induction n with
  | zero =>
    intro s acc hlen hg
    have hnil : charsOf s = [] := by
      cases h : charsOf s with
      | nil => rfl
      | cons a l => rw [h] at hlen; simp at hlen
    have hcc : s.currentChar = none := by rw [hg.2, hnil]; rfl
    refine ⟨0, s, ?_, hg, by rw [hnil]; rfl, rfl⟩
    intro g _
    rw [hnil]
    cases g <;> simp [digitsLoop, hcc]
  | succ n ih =>
    intro s acc hlen hg
    cases hcc : s.currentChar with
    | none =>
      have hnil := good_none_chars hg hcc
      refine ⟨0, s, ?_, hg, by rw [hnil]; rfl, rfl⟩
      intro g _
      rw [hnil]
      cases g <;> simp [digitsLoop, hcc]
    | some c =>
      have hch := charsOf_some hcc
      cases hd : isDigit c with
      | false =>
        refine ⟨0, s, ?_, hg, ?_, rfl⟩
        · intro g _
          rw [hch, List.takeWhile_cons_of_neg (by simp [hd]), List.append_nil]
          cases g <;> simp [digitsLoop, hcc, hd]
        · rw [hch, List.dropWhile_cons_of_neg (by simp [hd]), ← hch]
      | true =>
        obtain ⟨s1, hrun, hg1, hc1, hn1⟩ := nextChar_adv hg hcc
        have hlen1 : (charsOf s1).length ≤ n := by
          rw [hc1]
          rw [hch] at hlen
          simpa using hlen
        obtain ⟨F, s2, hrun2, hg2, hc2, hn2⟩ := ih s1 (acc ++ [c]) hlen1 hg1
        refine ⟨F + 1, s2, ?_, hg2, ?_, by omega⟩
        · intro g hgF
          obtain ⟨g', rfl⟩ : ∃ g', g = g' + 1 := ⟨g - 1, by omega⟩
          rw [hch, List.takeWhile_cons_of_pos hd]
          show (match s.currentChar with
            | some c =>
              if isDigit c then (do nextChar; digitsLoop g' (acc ++ [c])) s
              else .ok (acc, s)
            | none => .ok (acc, s)) = _
          rw [hcc]
          dsimp only
          rw [if_pos hd, M.bind_apply, hrun]
          dsimp only
          rw [hrun2 g' (by omega), hc1]
          simp
        · rw [hc2, hc1, hch, List.dropWhile_cons_of_pos hd]

theorem numMinus_match {s : SJ} (hg : Good s) (hcc : s.currentChar = some 45) :
    ∃ s', numMinus s = .ok ([45], s') ∧ Good s' ∧ charsOf s' = afterCC s ∧
      s'.nestingLevel = s.nestingLevel := by
  obtain ⟨s1, hrun, hg1, hc1, hn1⟩ := nextChar_adv hg hcc
  refine ⟨s1, ?_, hg1, hc1, hn1⟩
  unfold numMinus
  rw [M.bind_apply, ccSat_some hcc (by decide)]
  dsimp only
  rw [M.bind_apply, hrun]
  rfl

theorem numMinus_skip {s : SJ} {c : CU} (hcc : s.currentChar = some c) (h45 : c ≠ 45) :
    numMinus s = .ok ([], s) := by
  unfold numMinus
  rw [M.bind_apply, ccSat_none hcc (by simp only [decide_eq_false_iff_not]; exact h45)]
  rfl

/-- The integer part agrees with the reference integer part. -/
theorem numIntPart_sim {s : SJ} {ints c2 : List CU} (hg : Good s)
    (href : refNumInt (charsOf s) = some (ints, c2)) (n0 : List CU) :
    ∃ F s', (∀ g, F ≤ g → numIntPart g n0 s = .ok (n0 ++ ints, s')) ∧ Good s' ∧
      charsOf s' = c2 ∧ s'.nestingLevel = s.nestingLevel := by
  cases hch : charsOf s with
  | nil => rw [hch, refNumInt] at href; cases href
  | cons d r =>
    rw [hch, refNumInt] at href
    obtain ⟨hcc, haf⟩ := good_tail hg hch
    by_cases h48 : d = 48
    · subst h48
      rw [if_pos rfl] at href
      injection href with h1
      injection h1 with hi hc2
      obtain ⟨s1, hrun, hg1, hc1, hn1⟩ := nextChar_adv hg hcc
      refine ⟨0, s1, ?_, hg1, by rw [hc1, haf, hc2], hn1⟩
      intro g _
      unfold numIntPart
      rw [M.bind_apply, ccSat_some hcc (by decide)]
      dsimp only
      rw [M.bind_apply, hrun]
      dsimp only
      rw [← hi]
      rfl
    · rw [if_neg h48] at href
      by_cases h19 : isDigit19 d = true
      · rw [if_pos h19] at href
        injection href with h1
        injection h1 with hi hc2
        obtain ⟨F, s', hrun, hg', hc', hn'⟩ := digitsLoop_sim (charsOf s).length s n0 le_rfl hg
        have ht : (charsOf s).takeWhile isDigit = ints := by
          rw [hch, List.takeWhile_cons_of_pos (isDigit19_isDigit h19), hi]
        have hdp : (charsOf s).dropWhile isDigit = c2 := by
          rw [hch, List.dropWhile_cons_of_pos (isDigit19_isDigit h19), hc2]
        refine ⟨F, s', ?_, hg', by rw [hc', hdp], hn'⟩
        intro g hgF
        unfold numIntPart
        rw [M.bind_apply, ccSat_none hcc (by simp only [decide_eq_false_iff_not]; exact h48)]
        dsimp only
        rw [M.bind_apply, ccSat_some hcc h19]
        dsimp only
        rw [hrun g hgF, ht]
      · rw [if_neg h19] at href
        cases href

theorem refNumFrac_other {l : List CU} (h : ∀ r, l ≠ 46 :: r) : refNumFrac l = some ([], l) := by
  rw [refNumFrac.eq_def]
  split
  · next r => exact absurd rfl (h r)
  · rfl

/-- The fraction part agrees with the reference fraction part. -/
theorem numFracPart_sim {s : SJ} {frs c3 : List CU} (hg : Good s)
    (href : refNumFrac (charsOf s) = some (frs, c3)) (n1 : List CU) :
    ∃ F s', (∀ g, F ≤ g → numFracPart g n1 s = .ok (n1 ++ frs, s')) ∧ Good s' ∧
      charsOf s' = c3 ∧ s'.nestingLevel = s.nestingLevel := by
  cases hch : charsOf s with
  | nil =>
    rw [hch, show refNumFrac [] = some ([], []) from rfl] at href
    injection href with h1
    injection h1 with hf hc3
    have hcc : s.currentChar = none := by rw [hg.2, hch]; rfl
    refine ⟨0, s, ?_, hg, by rw [hch, hc3], rfl⟩
    intro g _
    unfold numFracPart
    rw [M.bind_apply, ccSat_eos hcc]
    dsimp only
    rw [← hf]
    simp [M.pure]
  | cons d r =>
    obtain ⟨hcc, haf⟩ := good_tail hg hch
    by_cases h46 : d = 46
    · subst h46
      rw [hch, show refNumFrac (46 :: r) =
        (if (r.takeWhile isDigit).isEmpty then none
         else some (46 :: r.takeWhile isDigit, r.dropWhile isDigit)) from rfl] at href
      by_cases hemp : (r.takeWhile isDigit).isEmpty = true
      · rw [if_pos hemp] at href
        cases href
      · rw [if_neg hemp] at href
        injection href with h1
        injection h1 with hf hc3
        obtain ⟨s1, hrun, hg1, hc1, hn1⟩ := nextChar_adv hg hcc
        rw [haf] at hc1
        cases hr : r with
        | nil => rw [hr] at hemp; simp at hemp
        | cons e r2 =>
          have he : isDigit e = true := by
            by_contra hne
            rw [hr, List.takeWhile_cons_of_neg (by simpa using hne)] at hemp
            simp at hemp
          have hcc1 : s1.currentChar = some e := by rw [hg1.2, hc1, hr]; rfl
          obtain ⟨F, s', hrun2, hg', hc', hn'⟩ :=
            digitsLoop_sim (charsOf s1).length s1 (n1 ++ [46]) le_rfl hg1
          refine ⟨F, s', ?_, hg', by rw [hc', hc1]; exact hc3, by omega⟩
          intro g hgF
          unfold numFracPart
          rw [M.bind_apply, ccSat_some hcc (by decide)]
          dsimp only
          rw [M.bind_apply, hrun]
          dsimp only
          rw [M.bind_apply, ccSat_some hcc1 he]
          dsimp only
          rw [hrun2 g hgF, hc1, ← hf]
          simp
    · rw [hch, refNumFrac_other (by
        intro r' heq
        injection heq with h1 _
        exact h46 h1)] at href
      injection href with h1
      injection h1 with hf hc3
      refine ⟨0, s, ?_, hg, by rw [hch]; exact hc3, rfl⟩
      intro g _
      unfold numFracPart
      rw [M.bind_apply, ccSat_none hcc (by simp only [decide_eq_false_iff_not]; exact h46)]
      dsimp only
      rw [← hf]
      simp [M.pure]

/-- The exponent part agrees with the reference exponent part. -/
theorem numExpPart_sim {s : SJ} {exs c4 : List CU} (hg : Good s)
    (href : refNumExp (charsOf s) = some (exs, c4)) (n2 : List CU) :
    ∃ F s', (∀ g, F ≤ g → numExpPart g n2 s = .ok (n2 ++ exs, s')) ∧ Good s' ∧
      charsOf s' = c4 ∧ s'.nestingLevel = s.nestingLevel := by
  cases hch : charsOf s with
  | nil =>
    rw [hch, show refNumExp [] = some ([], []) from rfl] at href
    injection href with h1
    injection h1 with he hc4
    have hcc : s.currentChar = none := by rw [hg.2, hch]; rfl
    refine ⟨0, s, ?_, hg, by rw [hch, ← hc4], rfl⟩
    intro g _
    unfold numExpPart
    rw [M.bind_apply, ccSat_eos hcc]
    dsimp only
    rw [← he]
    simp [M.pure]
  | cons c r =>
    rw [hch, refNumExp.eq_def] at href
    dsimp only at href
    obtain ⟨hcc, haf⟩ := good_tail hg hch
    by_cases hece : c = 101 ∨ c = 69
    · rw [if_pos hece] at href
      cases hr : r with
      | nil => rw [hr] at href; cases href
      | cons sc r2 =>
        rw [hr] at href haf
        dsimp only at href
        obtain ⟨s1, hrun, hg1, hc1, hn1⟩ := nextChar_adv hg hcc
        rw [haf] at hc1
        have hcc1 : s1.currentChar = some sc := (good_tail hg1 hc1).1
        have haf1 : afterCC s1 = r2 := (good_tail hg1 hc1).2
        by_cases hsgn : sc = 43 ∨ sc = 45
        · rw [if_pos hsgn] at href
          by_cases hemp : (r2.takeWhile isDigit).isEmpty = true
          · rw [if_pos hemp] at href
            cases href
          · rw [if_neg hemp] at href
            injection href with h1
            injection h1 with he hc4
            obtain ⟨s2, hrun2, hg2, hc2, hn2⟩ := nextChar_adv hg1 hcc1
            rw [haf1] at hc2
            cases hr2 : r2 with
            | nil => rw [hr2] at hemp; simp at hemp
            | cons e2 r3 =>
              have he2 : isDigit e2 = true := by
                by_contra hne
                rw [hr2, List.takeWhile_cons_of_neg (by simpa using hne)] at hemp
                simp at hemp
              have hcc2 : s2.currentChar = some e2 := by rw [hg2.2, hc2, hr2]; rfl
              obtain ⟨F, s', hrun3, hg', hc', hn'⟩ :=
                digitsLoop_sim (charsOf s2).length s2 (n2 ++ [c, sc]) le_rfl hg2
              refine ⟨F, s', ?_, hg', by rw [hc', hc2]; exact hc4, by omega⟩
              intro g hgF
              unfold numExpPart
              rw [M.bind_apply, ccSat_some hcc (by simp only [decide_eq_true_eq]; exact hece)]
              dsimp only
              rw [M.bind_apply, hrun]
              dsimp only
              rw [M.bind_apply, ccSat_some hcc1 (by simp only [decide_eq_true_eq]; exact hsgn)]
              dsimp only
              rw [M.bind_apply, show numExpSign n2 c (some sc) s1 = .ok (n2 ++ [c, sc], s2) from by
                unfold numExpSign
                dsimp only
                rw [M.bind_apply, hrun2]
                rfl]
              dsimp only
              rw [M.bind_apply, ccSat_some hcc2 he2]
              dsimp only
              rw [hrun3 g hgF, hc2, ← he]
              simp
        · rw [if_neg hsgn] at href
          by_cases hemp : ((sc :: r2).takeWhile isDigit).isEmpty = true
          · rw [if_pos hemp] at href
            cases href
          · rw [if_neg hemp] at href
            injection href with h1
            injection h1 with he hc4
            have hsc : isDigit sc = true := by
              by_contra hne
              rw [List.takeWhile_cons_of_neg (by simpa using hne)] at hemp
              simp at hemp
            obtain ⟨F, s', hrun3, hg', hc', hn'⟩ :=
              digitsLoop_sim (charsOf s1).length s1 (n2 ++ [c]) le_rfl hg1
            refine ⟨F, s', ?_, hg', by rw [hc', hc1]; exact hc4, by omega⟩
            intro g hgF
            unfold numExpPart
            rw [M.bind_apply, ccSat_some hcc (by simp only [decide_eq_true_eq]; exact hece)]
            dsimp only
            rw [M.bind_apply, hrun]
            dsimp only
            rw [M.bind_apply, ccSat_none hcc1 (by simp only [decide_eq_false_iff_not]; exact hsgn)]
            dsimp only
            rw [M.bind_apply, show numExpSign n2 c none s1 = .ok (n2 ++ [c], s1) from rfl]
            dsimp only
            rw [M.bind_apply, ccSat_some hcc1 hsc]
            dsimp only
            rw [hrun3 g hgF, hc1, ← he]
            simp
    · rw [if_neg hece] at href
      injection href with h1
      injection h1 with he hc4
      refine ⟨0, s, ?_, hg, by rw [hch]; exact hc4, rfl⟩
      intro g _
      unfold numExpPart
      rw [M.bind_apply, ccSat_none hcc (by simp only [decide_eq_false_iff_not]; exact hece)]
      dsimp only
      rw [← he]
      simp [M.pure]

theorem obind_some {α β : Type} (a : α) (f : α → Option β) : (some a >>= f) = f a := rfl

theorem obind_none {α β : Type} (f : α → Option β) : ((none : Option α) >>= f) = none := rfl

/-- Decomposition of a successful reference number parse into its sign,
integer, fraction and exponent stages. -/
theorem refNumber_decomp {chars tok rest : List CU} (h : refNumber chars = some (tok, rest)) :
    ∃ sgn body, ((sgn = [45] ∧ chars = 45 :: body) ∨
        (sgn = [] ∧ body = chars ∧ ∀ r, chars ≠ 45 :: r)) ∧
      ∃ ints c2 frs c3 exs c4,
        refNumInt body = some (ints, c2) ∧ refNumFrac c2 = some (frs, c3) ∧
        refNumExp c3 = some (exs, c4) ∧ tok = sgn ++ ints ++ frs ++ exs ∧
        numOverflows tok = false ∧ rest = c4 := by
  simp only [refNumber] at h
  split at h
  · next body =>
    dsimp only at h
    cases hInt : refNumInt body with
    | none =>
      rw [hInt, obind_none] at h
      cases h
    | some pI =>
      obtain ⟨ints, c2⟩ := pI
      rw [hInt, obind_some] at h
      dsimp only at h
      cases hFrac : refNumFrac c2 with
      | none =>
        rw [hFrac, obind_none] at h
        cases h
      | some pF =>
        obtain ⟨frs, c3⟩ := pF
        rw [hFrac, obind_some] at h
        dsimp only at h
        cases hExp : refNumExp c3 with
        | none =>
          rw [hExp, obind_none] at h
          cases h
        | some pE =>
          obtain ⟨exs, c4⟩ := pE
          rw [hExp, obind_some] at h
          dsimp only at h
          by_cases hov : numOverflows ([45] ++ ints ++ frs ++ exs) = true
          · rw [if_pos hov] at h
            cases h
          · rw [if_neg hov] at h
            injection h with h1
            injection h1 with ht hrest
            exact ⟨[45], body, Or.inl ⟨rfl, rfl⟩, ints, c2, frs, c3, exs, c4,
              hInt, hFrac, hExp, ht.symm,
              by rw [← ht]; exact Bool.eq_false_iff.mpr hov, hrest.symm⟩
  · next hne =>
    dsimp only at h
    cases hInt : refNumInt chars with
    | none =>
      rw [hInt, obind_none] at h
      cases h
    | some pI =>
      obtain ⟨ints, c2⟩ := pI
      rw [hInt, obind_some] at h
      dsimp only at h
      cases hFrac : refNumFrac c2 with
      | none =>
        rw [hFrac, obind_none] at h
        cases h
      | some pF =>
        obtain ⟨frs, c3⟩ := pF
        rw [hFrac, obind_some] at h
        dsimp only at h
        cases hExp : refNumExp c3 with
        | none =>
          rw [hExp, obind_none] at h
          cases h
        | some pE =>
          obtain ⟨exs, c4⟩ := pE
          rw [hExp, obind_some] at h
          dsimp only at h
          by_cases hov : numOverflows ([] ++ ints ++ frs ++ exs) = true
          · rw [if_pos hov] at h
            cases h
          · rw [if_neg hov] at h
            injection h with h1
            injection h1 with ht hrest
            exact ⟨[], chars, Or.inr ⟨rfl, rfl, fun r heq => hne r heq⟩,
              ints, c2, frs, c3, exs, c4, hInt, hFrac, hExp, ht.symm,
              by rw [← ht]; exact Bool.eq_false_iff.mpr hov, hrest.symm⟩

theorem refNumInt_head {d : CU} {r ints c2 : List CU}
    (h : refNumInt (d :: r) = some (ints, c2)) : d = 48 ∨ isDigit19 d = true := by
  rw [refNumInt] at h
  by_cases h48 : d = 48
  · exact Or.inl h48
  · rw [if_neg h48] at h
    by_cases h19 : isDigit19 d = true
    · exact Or.inr h19
    · rw [if_neg h19] at h
      cases h

theorem numHead_bounds {d : CU} (h : d = 48 ∨ isDigit19 d = true) : 48 ≤ d ∧ d < 58 := by
  rcases h with rfl | h19
  · exact ⟨Nat.le_refl 48, by decide⟩
  · simp only [isDigit19, Bool.and_eq_true, decide_eq_true_eq] at h19
    exact ⟨Nat.le_of_succ_le h19.1, Nat.lt_succ_of_le h19.2⟩

theorem digit_mem_assert : ∀ d : CU, d < 58 → 48 ≤ d →
    d ∈ ([45, 48, 49, 50, 51, 52, 53, 54, 55, 56, 57] : List CU) := by decide

/-- StreamingJSON.number agrees with the reference number lexer: on every
input the reference lexer accepts, the streaming reader produces the same
numeral token and stops at the same position. -/
theorem parseNumber_sim {s : SJ} {tok rest : List CU} (hr : Ready s)
    (href : refNumber ((charsOf s).dropWhile isWs4) = some (tok, rest)) :
    ∃ F s', (∀ g, F ≤ g → parseNumber g s = .ok (.jnum tok, s')) ∧ Good s' ∧
      charsOf s' = rest ∧ s'.nestingLevel = s.nestingLevel := by
  obtain ⟨sgn, body, hsgn, ints, c2, frs, c3, exs, c4, hInt, hFrac, hExp, htok, hov, hrest⟩ :=
    refNumber_decomp href
  rcases hsgn with ⟨rfl, hch45⟩ | ⟨rfl, rfl, hne45⟩
  · obtain ⟨F1, s1, hrun1, hg1, hc1, hn1⟩ := cw_sim hr (by
      intro d hd
      rw [hch45] at hd
      injection hd with hd
      rw [← hd]
      decide)
    rw [hch45] at hc1
    obtain ⟨hcc1, haf1⟩ := good_tail hg1 hc1
    have hassert : assertChar [45, 48, 49, 50, 51, 52, 53, 54, 55, 56, 57] s1 = .ok ((), s1) :=
      assert_ok hcc1 (by decide)
    obtain ⟨s2, hmrun, hg2, hc2, hn2⟩ := numMinus_match hg1 hcc1
    rw [haf1] at hc2
    obtain ⟨F3, s3, hrun3, hg3, hc3, hn3⟩ := numIntPart_sim hg2 (by rw [hc2]; exact hInt) [45]
    obtain ⟨F4, s4, hrun4, hg4, hc4, hn4⟩ :=
      numFracPart_sim hg3 (by rw [hc3]; exact hFrac) ([45] ++ ints)
    obtain ⟨F5, s5, hrun5, hg5, hc5, hn5⟩ :=
      numExpPart_sim hg4 (by rw [hc4]; exact hExp) ([45] ++ ints ++ frs)
    refine ⟨F1 + F3 + F4 + F5, s5, ?_, hg5, by rw [hc5]; exact hrest.symm, by omega⟩
    intro g hgF
    unfold parseNumber
    rw [M.bind_apply, hrun1 g (by omega)]
    dsimp only
    rw [M.bind_apply, hassert]
    dsimp only
    rw [M.bind_apply, hmrun]
    dsimp only
    rw [M.bind_apply, hrun3 g (by omega)]
    dsimp only
    rw [M.bind_apply, hrun4 g (by omega)]
    dsimp only
    rw [M.bind_apply, hrun5 g (by omega)]
    dsimp only
    rw [← htok, if_neg (by simp [hov])]
    rfl
  · cases hb : (charsOf s).dropWhile isWs4 with
    | nil =>
      rw [hb, refNumInt] at hInt
      cases hInt
    | cons d r =>
      rw [hb] at hInt hne45
      have h45 : d ≠ 45 := fun he => hne45 r (by rw [he])
      have hbd := numHead_bounds (refNumInt_head hInt)
      obtain ⟨F1, s1, hrun1, hg1, hc1, hn1⟩ := cw_sim hr (by
        intro e he
        rw [hb] at he
        injection he with he
        rw [← he]
        exact (digit_head_props d hbd.2 hbd.1).1)
      rw [hb] at hc1
      obtain ⟨hcc1, haf1⟩ := good_tail hg1 hc1
      have hassert : assertChar [45, 48, 49, 50, 51, 52, 53, 54, 55, 56, 57] s1 = .ok ((), s1) :=
        assert_ok hcc1 (digit_mem_assert d hbd.2 hbd.1)
      have hmrun : numMinus s1 = .ok ([], s1) := numMinus_skip hcc1 h45
      obtain ⟨F3, s3, hrun3, hg3, hc3, hn3⟩ := numIntPart_sim hg1 (by rw [hc1]; exact hInt) []
      obtain ⟨F4, s4, hrun4, hg4, hc4, hn4⟩ :=
        numFracPart_sim hg3 (by rw [hc3]; exact hFrac) ([] ++ ints)
      obtain ⟨F5, s5, hrun5, hg5, hc5, hn5⟩ :=
        numExpPart_sim hg4 (by rw [hc4]; exact hExp) ([] ++ ints ++ frs)
      refine ⟨F1 + F3 + F4 + F5, s5, ?_, hg5, by rw [hc5]; exact hrest.symm, by omega⟩
      intro g hgF
      unfold parseNumber
      rw [M.bind_apply, hrun1 g (by omega)]
      dsimp only
      rw [M.bind_apply, hassert]
      dsimp only
      rw [M.bind_apply, hmrun]
      dsimp only
      rw [M.bind_apply, hrun3 g (by omega)]
      dsimp only
      rw [M.bind_apply, hrun4 g (by omega)]
      dsimp only
      rw [M.bind_apply, hrun5 g (by omega)]
      dsimp only
      rw [← htok, if_neg (by simp [hov])]
      rfl

/-- The assert-then-advance keyword loop consumes exactly its expected
characters when they head the remaining input. -/
theorem matchChars_run : ∀ (cs : List CU) {s : SJ} {rest : List CU}, Good s →
    charsOf s = cs ++ rest →
    ∃ s', matchChars cs s = .ok ((), s') ∧ Good s' ∧ charsOf s' = rest ∧
      s'.nestingLevel = s.nestingLevel := by
  intro cs
  induction cs with
  | nil =>
    intro s rest hg hch
    exact ⟨s, rfl, hg, by simpa using hch, rfl⟩
  | cons c cs ih =>
    intro s rest hg hch
    obtain ⟨hcc, haf⟩ := good_tail hg hch
    obtain ⟨s1, hrun, hg1, hc1, hn1⟩ := nextChar_adv hg hcc
    rw [haf] at hc1
    obtain ⟨s2, hrun2, hg2, hc2, hn2⟩ := ih hg1 hc1
    refine ⟨s2, ?_, hg2, hc2, by omega⟩
    rw [matchChars]
    rw [M.bind_apply, assert_ok hcc (by simp)]
    dsimp only
    rw [M.bind_apply, hrun]
    dsimp only
    exact hrun2

/-- The advance-then-assert keyword loop of the null reader. -/
theorem nextAssert_run : ∀ (cs : List CU) {s : SJ} {x : CU} {rest : List CU}, Good s →
    charsOf s = x :: (cs ++ rest) →
    ∃ s', nextAssert cs s = .ok ((), s') ∧ Good s' ∧
      charsOf s' = cs.getLastD x :: rest ∧ s'.nestingLevel = s.nestingLevel := by
  intro cs
  induction cs with
  | nil =>
    intro s x rest hg hch
    exact ⟨s, rfl, hg, by simpa using hch, rfl⟩
  | cons c cs ih =>
    intro s x rest hg hch
    obtain ⟨hcc, haf⟩ := good_tail hg hch
    obtain ⟨s1, hrun, hg1, hc1, hn1⟩ := nextChar_adv hg hcc
    rw [haf] at hc1
    have hcc1 : s1.currentChar = some c := (good_tail hg1 hc1).1
    obtain ⟨s2, hrun2, hg2, hc2, hn2⟩ := ih hg1 hc1
    refine ⟨s2, ?_, hg2,
      by rw [List.getLastD_cons]; exact hc2, by omega⟩
    rw [nextAssert]
    rw [M.bind_apply, hrun]
    dsimp only
    rw [M.bind_apply, assert_ok hcc1 (by simp)]
    dsimp only
    exact hrun2

/-- StreamingJSON.boolean on the literal true. -/
theorem parseBoolean_sim_true {s : SJ} {rest : List CU} (hr : Ready s)
    (hdrop : (charsOf s).dropWhile isWs4 = 116 :: 114 :: 117 :: 101 :: rest) :
    ∃ F s', (∀ g, F ≤ g → parseBoolean g s = .ok (.jbool true, s')) ∧ Good s' ∧
      charsOf s' = rest ∧ s'.nestingLevel = s.nestingLevel := by
  obtain ⟨F1, s1, hrun1, hg1, hc1, hn1⟩ := cw_sim hr (by
    intro d hd
    rw [hdrop] at hd
    injection hd with hd
    rw [← hd]
    decide)
  rw [hdrop] at hc1
  obtain ⟨hcc1, -⟩ := good_tail hg1 hc1
  obtain ⟨s2, hmc, hg2, hc2, hn2⟩ := matchChars_run [116, 114, 117, 101] hg1 (by rw [hc1]; rfl)
  refine ⟨F1, s2, ?_, hg2, hc2, by omega⟩
  intro g hgF
  unfold parseBoolean
  rw [M.bind_apply, hrun1 g hgF]
  dsimp only
  rw [M.bind_apply, assert_ok hcc1 (by decide)]
  dsimp only
  rw [mget_bind]
  rw [hcc1, if_pos rfl]
  rw [M.bind_apply, hmc]
  dsimp only
  rfl

/-- StreamingJSON.boolean on the literal false. -/
theorem parseBoolean_sim_false {s : SJ} {rest : List CU} (hr : Ready s)
    (hdrop : (charsOf s).dropWhile isWs4 = 102 :: 97 :: 108 :: 115 :: 101 :: rest) :
    ∃ F s', (∀ g, F ≤ g → parseBoolean g s = .ok (.jbool false, s')) ∧ Good s' ∧
      charsOf s' = rest ∧ s'.nestingLevel = s.nestingLevel := by
  obtain ⟨F1, s1, hrun1, hg1, hc1, hn1⟩ := cw_sim hr (by
    intro d hd
    rw [hdrop] at hd
    injection hd with hd
    rw [← hd]
    decide)
  rw [hdrop] at hc1
  obtain ⟨hcc1, -⟩ := good_tail hg1 hc1
  obtain ⟨s2, hmc, hg2, hc2, hn2⟩ :=
    matchChars_run [102, 97, 108, 115, 101] hg1 (by rw [hc1]; rfl)
  refine ⟨F1, s2, ?_, hg2, hc2, by omega⟩
  intro g hgF
  unfold parseBoolean
  rw [M.bind_apply, hrun1 g hgF]
  dsimp only
  rw [M.bind_apply, assert_ok hcc1 (by decide)]
  dsimp only
  rw [mget_bind]
  rw [hcc1, if_neg (by decide)]
  rw [M.bind_apply, hmc]
  dsimp only
  rfl

/-- StreamingJSON.null on the literal null. -/
theorem parseNull_sim {s : SJ} {rest : List CU} (hr : Ready s)
    (hdrop : (charsOf s).dropWhile isWs4 = 110 :: 117 :: 108 :: 108 :: rest) :
    ∃ F s', (∀ g, F ≤ g → parseNull g s = .ok (.jnull, s')) ∧ Good s' ∧
      charsOf s' = rest ∧ s'.nestingLevel = s.nestingLevel := by
  obtain ⟨F1, s1, hrun1, hg1, hc1, hn1⟩ := cw_sim hr (by
    intro d hd
    rw [hdrop] at hd
    injection hd with hd
    rw [← hd]
    decide)
  rw [hdrop] at hc1
  obtain ⟨hcc1, -⟩ := good_tail hg1 hc1
  obtain ⟨s2, hna, hg2, hc2, hn2⟩ := nextAssert_run [117, 108, 108] hg1 (by rw [hc1]; rfl)
  have hc2' : charsOf s2 = 108 :: rest := by simpa using hc2
  have hcc2 : s2.currentChar = some 108 := (good_tail hg2 hc2').1
  obtain ⟨s3, hrun3, hg3, hc3, hn3⟩ := nextChar_adv hg2 hcc2
  rw [(good_tail hg2 hc2').2] at hc3
  refine ⟨F1, s3, ?_, hg3, hc3, by omega⟩
  intro g hgF
  unfold parseNull
  rw [M.bind_apply, hrun1 g hgF]
  dsimp only
  rw [M.bind_apply, assert_ok hcc1 (by decide)]
  dsimp only
  rw [M.bind_apply, hna]
  dsimp only
  rw [M.bind_apply, hrun3]
  rfl

/-- Entering an object from a state whose slot holds the opening brace:
consume it and bump the nesting level. -/
theorem enterObject_run {s1 : SJ} (hg1 : Good s1) (hcc1 : s1.currentChar = some 123) :
    ∃ s3, (∀ f, enterObject f s1 = .ok ((), s3)) ∧ Good s3 ∧
      charsOf s3 = afterCC s1 ∧ s3.nestingLevel = s1.nestingLevel + 1 := by
  obtain ⟨s2, hrun2, hg2, hc2, hn2⟩ := nextChar_adv hg1 hcc1
  refine ⟨{ s2 with nestingLevel := s2.nestingLevel + 1 }, ?_, good_nest hg2,
    by rw [charsOf_nest]; exact hc2,
    by show s2.nestingLevel + 1 = s1.nestingLevel + 1; omega⟩
  intro f
  unfold enterObject
  rw [M.bind_apply, cw_noop hcc1 (by decide) f]
  dsimp only
  rw [M.bind_apply, assert_ok hcc1 (by decide)]
  dsimp only
  rw [M.bind_apply, hrun2]
  dsimp only
  rw [mmodify_apply]

/-- Entering an array from a state whose slot holds the opening bracket. -/
theorem enterArray_run {s1 : SJ} (hg1 : Good s1) (hcc1 : s1.currentChar = some 91) :
    ∃ s3, (∀ f, enterArray f s1 = .ok ((), s3)) ∧ Good s3 ∧
      charsOf s3 = afterCC s1 ∧ s3.nestingLevel = s1.nestingLevel + 1 := by
  obtain ⟨s2, hrun2, hg2, hc2, hn2⟩ := nextChar_adv hg1 hcc1
  refine ⟨{ s2 with nestingLevel := s2.nestingLevel + 1 }, ?_, good_nest hg2,
    by rw [charsOf_nest]; exact hc2,
    by show s2.nestingLevel + 1 = s1.nestingLevel + 1; omega⟩
  intro f
  unfold enterArray
  rw [M.bind_apply, cw_noop hcc1 (by decide) f]
  dsimp only
  rw [M.bind_apply, assert_ok hcc1 (by decide)]
  dsimp only
  rw [M.bind_apply, hrun2]
  dsimp only
  rw [mmodify_apply]

/-- The object cursor loop at a closing brace: consume it, decrement the
nesting level and return the accumulated entries. -/
theorem objLoopAll_close {s : SJ} {r2 : List CU} (hr : Ready s)
    (hdrop : (charsOf s).dropWhile isWs4 = 125 :: r2) (acc : List (List CU × JValue)) :
    ∃ F s', (∀ g, F ≤ g → objLoopAll (g + 1) acc s = .ok (acc, s')) ∧ Good s' ∧
      charsOf s' = r2 ∧ s'.nestingLevel = s.nestingLevel - 1 := by
  obtain ⟨F1, s1, hrun1, hg1, hc1, hn1⟩ := cw_sim hr (by
    intro d hd
    rw [hdrop] at hd
    injection hd with hd
    rw [← hd]
    decide)
  rw [hdrop] at hc1
  obtain ⟨hcc1, haf1⟩ := good_tail hg1 hc1
  obtain ⟨s2, hrun2, hg2, hc2, hn2⟩ := nextChar_adv hg1 hcc1
  rw [haf1] at hc2
  refine ⟨F1, { s2 with nestingLevel := s2.nestingLevel - 1 }, ?_, good_nest hg2,
    by rw [charsOf_nest]; exact hc2,
    by show s2.nestingLevel - 1 = s.nestingLevel - 1; omega⟩
  intro g hgF
  rw [objLoopAll]
  rw [M.bind_apply, hrun1 g hgF]
  dsimp only
  rw [mget_bind]
  rw [if_pos hcc1]
  rw [M.bind_apply, hrun2]
  dsimp only
  rw [M.bind_apply, mmodify_apply]
  dsimp only
  rfl

/-- The array cursor loop at a closing bracket. -/
theorem arrLoopAll_close {s : SJ} {r2 : List CU} (hr : Ready s)
    (hdrop : (charsOf s).dropWhile isWs4 = 93 :: r2) (acc : List JValue) :
    ∃ F s', (∀ g, F ≤ g → arrLoopAll (g + 1) acc s = .ok (acc, s')) ∧ Good s' ∧
      charsOf s' = r2 ∧ s'.nestingLevel = s.nestingLevel - 1 := by
  obtain ⟨F1, s1, hrun1, hg1, hc1, hn1⟩ := cw_sim hr (by
    intro d hd
    rw [hdrop] at hd
    injection hd with hd
    rw [← hd]
    decide)
  rw [hdrop] at hc1
  obtain ⟨hcc1, haf1⟩ := good_tail hg1 hc1
  obtain ⟨s2, hrun2, hg2, hc2, hn2⟩ := nextChar_adv hg1 hcc1
  rw [haf1] at hc2
  refine ⟨F1, { s2 with nestingLevel := s2.nestingLevel - 1 }, ?_, good_nest hg2,
    by rw [charsOf_nest]; exact hc2,
    by show s2.nestingLevel - 1 = s.nestingLevel - 1; omega⟩
  intro g hgF
  rw [arrLoopAll]
  rw [M.bind_apply, hrun1 g hgF]
  dsimp only
  rw [mget_bind]
  rw [if_pos hcc1]
  rw [M.bind_apply, hrun2]
  dsimp only
  rw [M.bind_apply, mmodify_apply]
  dsimp only
  rfl

/-- The separator step consumes a comma, and leaves anything else alone. -/
theorem sepAdvance_comma {s : SJ} (hg : Good s) (hcc : s.currentChar = some 44) :
    ∃ s', sepAdvance s = .ok ((), s') ∧ Good s' ∧ charsOf s' = afterCC s ∧
      s'.nestingLevel = s.nestingLevel := by
  obtain ⟨s1, hrun, hg1, hc1, hn1⟩ := nextChar_adv hg hcc
  refine ⟨s1, ?_, hg1, hc1, hn1⟩
  unfold sepAdvance
  rw [M.bind_apply, ccSat_some hcc (by decide)]
  dsimp only
  exact hrun

theorem sepAdvance_skip {s : SJ} {c : CU} (hcc : s.currentChar = some c) (h44 : c ≠ 44) :
    sepAdvance s = .ok ((), s) := by
  unfold sepAdvance
  rw [M.bind_apply, ccSat_none hcc (by simp only [decide_eq_false_iff_not]; exact h44)]
  rfl

theorem peek_vstr {s : SJ} (hc : s.currentChar = some 34) :
    peekValueType s = .ok (.vstr, s) := by
  rw [peek_eval hc]
  simp

theorem peek_vobj {s : SJ} (hc : s.currentChar = some 123) :
    peekValueType s = .ok (.vobj, s) := by
  rw [peek_eval hc]
  simp

theorem peek_varr {s : SJ} (hc : s.currentChar = some 91) :
    peekValueType s = .ok (.varr, s) := by
  rw [peek_eval hc]
  simp

theorem peek_vtrue {s : SJ} (hc : s.currentChar = some 116) :
    peekValueType s = .ok (.vbool, s) := by
  rw [peek_eval hc]
  simp

theorem peek_vfalse {s : SJ} (hc : s.currentChar = some 102) :
    peekValueType s = .ok (.vbool, s) := by
  rw [peek_eval hc]
  simp

theorem peek_vnull {s : SJ} (hc : s.currentChar = some 110) :
    peekValueType s = .ok (.vnull, s) := by
  rw [peek_eval hc]
  simp

/-- Bounded check: a digit code unit passes none of the keyword or structural
dispatch tests and is classified as a number start. -/
theorem digit_not_kw : ∀ c : CU, c < 58 → 48 ≤ c →
    (¬ c = 34) ∧ (¬ c = 123) ∧ (¬ c = 91) ∧ (¬ c = 116) ∧ (¬ c = 102) ∧ (¬ c = 110) ∧
      (c = 45 ∨ isDigit c = true) := by decide

theorem numStart_facts {c : CU} (hnum : isNumStart c = true) :
    (¬ c = 34) ∧ (¬ c = 123) ∧ (¬ c = 91) ∧ (¬ c = 116) ∧ (¬ c = 102) ∧ (¬ c = 110) ∧
      (c = 45 ∨ isDigit c = true) := by
  have h : c = 45 ∨ (48 ≤ c ∧ c ≤ 57) := by
    simpa [isNumStart, isDigit, Bool.or_eq_true, Bool.and_eq_true, decide_eq_true_eq]
      using hnum
  rcases h with rfl | ⟨hl, hu⟩
  · exact ⟨by decide, by decide, by decide, by decide, by decide, by decide, Or.inl rfl⟩
  · exact digit_not_kw c (Nat.lt_succ_of_le hu) hl

theorem peek_vnum {s : SJ} {c : CU} (hc : s.currentChar = some c)
    (hnum : isNumStart c = true) : peekValueType s = .ok (.vnum, s) := by
  obtain ⟨h34, h123, h91, h116, h102, h110, h45d⟩ := numStart_facts hnum
  rw [peek_eval hc, if_neg h34, if_neg h123, if_neg h91,
    if_neg (by rintro (h | h) <;> [exact h116 h; exact h102 h]), if_neg h110, if_pos h45d]

theorem refValue_str {n : Nat} {chars r : List CU} (hdw : dropWs chars = 34 :: r) :
    refValue (n + 1) chars =
      (match refStringBody r with
       | some (d, rest) => some (.jstr d, rest)
       | none => none) := by
  rw [refValue, hdw]
  dsimp only
  rw [if_pos rfl]

theorem refValue_obj {n : Nat} {chars r : List CU} (hdw : dropWs chars = 123 :: r) :
    refValue (n + 1) chars =
      (match dropWs r with
       | [] => none
       | c2 :: rest2 =>
         if c2 = 125 then some (.jobj [], rest2)
         else
           match refObjEntries n r with
           | some (es, rest) => some (.jobj es, rest)
           | none => none) := by
  rw [refValue, hdw]
  dsimp only
  rw [if_neg (by decide), if_pos rfl]

theorem refValue_arr {n : Nat} {chars r : List CU} (hdw : dropWs chars = 91 :: r) :
    refValue (n + 1) chars =
      (match dropWs r with
       | [] => none
       | c2 :: rest2 =>
         if c2 = 93 then some (.jarr [], rest2)
         else
           match refArrElems n r with
           | some (vs, rest) => some (.jarr vs, rest)
           | none => none) := by
  rw [refValue, hdw]
  dsimp only
  rw [if_neg (by decide), if_neg (by decide), if_pos rfl]

theorem refValue_true {n : Nat} {chars r : List CU} (hdw : dropWs chars = 116 :: r) :
    refValue (n + 1) chars =
      (match r with
       | a :: b :: d :: rest =>
         if a = 114 ∧ b = 117 ∧ d = 101 then some (.jbool true, rest) else none
       | _ => none) := by
  rw [refValue]
  simp only [hdw]
  rw [if_pos trivial]
  rcases r with _ | ⟨a, _ | ⟨b, _ | ⟨d, rest⟩⟩⟩ <;> rfl

theorem refValue_false {n : Nat} {chars r : List CU} (hdw : dropWs chars = 102 :: r) :
    refValue (n + 1) chars =
      (match r with
       | a :: b :: d :: e :: rest =>
         if a = 97 ∧ b = 108 ∧ d = 115 ∧ e = 101 then some (.jbool false, rest) else none
       | _ => none) := by
  rw [refValue]
  simp only [hdw]
  rw [if_pos trivial]
  rcases r with _ | ⟨a, _ | ⟨b, _ | ⟨d, _ | ⟨e, rest⟩⟩⟩⟩ <;> rfl

theorem refValue_null {n : Nat} {chars r : List CU} (hdw : dropWs chars = 110 :: r) :
    refValue (n + 1) chars =
      (match r with
       | a :: b :: d :: rest =>
         if a = 117 ∧ b = 108 ∧ d = 108 then some (.jnull, rest) else none
       | _ => none) := by
  rw [refValue]
  simp only [hdw]
  rw [if_pos trivial]
  rcases r with _ | ⟨a, _ | ⟨b, _ | ⟨d, rest⟩⟩⟩ <;> rfl

theorem refValue_num {n : Nat} {chars : List CU} {c : CU} {r : List CU}
    (hdw : dropWs chars = c :: r) (hnum : isNumStart c = true) :
    refValue (n + 1) chars =
      (match refNumber (c :: r) with
       | some (tok, rest) => some (.jnum tok, rest)
       | none => none) := by
  obtain ⟨h34, h123, h91, h116, h102, h110, -⟩ := numStart_facts hnum
  rw [refValue, hdw]
  dsimp only
  rw [if_neg h34, if_neg h123, if_neg h91, if_neg h116, if_neg h102, if_neg h110,
    if_pos hnum]

theorem refValue_dropWs (n : Nat) (chars : List CU) :
    refValue n (dropWs chars) = refValue n chars := by
  cases n with
  | zero => rw [refValue, refValue]
  | succ n =>
    rw [refValue, refValue]
    rw [show dropWs (dropWs chars) = dropWs chars from dropWhile_idem _ _]

/-- Decomposition of one successful reference object entry: key string, colon,
value, then a comma continuing the entries or the closing brace. -/
theorem refObjEntries_decomp {n : Nat} {chars : List CU} {es : List (List CU × JValue)}
    {rest : List CU} (h : refObjEntries (n + 1) chars = some (es, rest)) :
    ∃ r k r1 r2 v r3 c3 r4,
      dropWs chars = 34 :: r ∧ refStringBody r = some (k, r1) ∧
      dropWs r1 = 58 :: r2 ∧ refValue n r2 = some (v, r3) ∧
      dropWs r3 = c3 :: r4 ∧
      ((c3 = 44 ∧ ∃ es', refObjEntries n r4 = some (es', rest) ∧ es = (k, v) :: es') ∨
       (c3 = 125 ∧ es = [(k, v)] ∧ rest = r4)) := by
  rw [refObjEntries] at h
  cases hdw : dropWs chars with
  | nil => rw [hdw] at h; cases h
  | cons c r =>
    rw [hdw] at h
    dsimp only at h
    by_cases h34 : c = 34
    · subst h34
      rw [if_pos rfl] at h
      cases hsb : refStringBody r with
      | none => rw [hsb] at h; cases h
      | some pK =>
        obtain ⟨k, r1⟩ := pK
        rw [hsb] at h
        dsimp only at h
        cases hdw2 : dropWs r1 with
        | nil => rw [hdw2] at h; cases h
        | cons c2 r2 =>
          rw [hdw2] at h
          dsimp only at h
          by_cases h58 : c2 = 58
          · subst h58
            rw [if_pos rfl] at h
            cases hv : refValue n r2 with
            | none => rw [hv] at h; cases h
            | some pV =>
              obtain ⟨v, r3⟩ := pV
              rw [hv] at h
              dsimp only at h
              cases hdw3 : dropWs r3 with
              | nil => rw [hdw3] at h; cases h
              | cons c3 r4 =>
                rw [hdw3] at h
                dsimp only at h
                by_cases h44 : c3 = 44
                · subst h44
                  rw [if_pos rfl] at h
                  cases hoe : refObjEntries n r4 with
                  | none => rw [hoe] at h; cases h
                  | some pE =>
                    obtain ⟨es', rest'⟩ := pE
                    rw [hoe] at h
                    dsimp only at h
                    injection h with h1
                    injection h1 with hes hrest
                    exact ⟨r, k, r1, r2, v, r3, 44, r4, rfl, hsb, hdw2, hv, hdw3,
                      Or.inl ⟨rfl, es', hrest ▸ hoe, hes.symm⟩⟩
                · rw [if_neg h44] at h
                  by_cases h125 : c3 = 125
                  · subst h125
                    rw [if_pos rfl] at h
                    injection h with h1
                    injection h1 with hes hrest
                    exact ⟨r, k, r1, r2, v, r3, 125, r4, rfl, hsb, hdw2, hv, hdw3,
                      Or.inr ⟨rfl, hes.symm, hrest.symm⟩⟩
                  · rw [if_neg h125] at h
                    cases h
          · rw [if_neg h58] at h
            cases h
    · rw [if_neg h34] at h
      cases h

/-- Decomposition of one successful reference array element: a value, then a
comma continuing the elements or the closing bracket. -/
theorem refArrElems_decomp {n : Nat} {chars : List CU} {vs : List JValue} {rest : List CU}
    (h : refArrElems (n + 1) chars = some (vs, rest)) :
    ∃ v r1 c r2, refValue n chars = some (v, r1) ∧ dropWs r1 = c :: r2 ∧
      ((c = 44 ∧ ∃ vs', refArrElems n r2 = some (vs', rest) ∧ vs = v :: vs') ∨
       (c = 93 ∧ vs = [v] ∧ rest = r2)) := by
  rw [refArrElems] at h
  cases hv : refValue n chars with
  | none => rw [hv] at h; cases h
  | some pV =>
    obtain ⟨v, r1⟩ := pV
    rw [hv] at h
    dsimp only at h
    cases hdw : dropWs r1 with
    | nil => rw [hdw] at h; cases h
    | cons c r2 =>
      rw [hdw] at h
      dsimp only at h
      by_cases h44 : c = 44
      · subst h44
        rw [if_pos rfl] at h
        cases hae : refArrElems n r2 with
        | none => rw [hae] at h; cases h
        | some pA =>
          obtain ⟨vs', rest'⟩ := pA
          rw [hae] at h
          dsimp only at h
          injection h with h1
          injection h1 with hvs hrest
          exact ⟨v, r1, 44, r2, rfl, hdw, Or.inl ⟨rfl, vs', hrest ▸ hae, hvs.symm⟩⟩
      · rw [if_neg h44] at h
        by_cases h93 : c = 93
        · subst h93
          rw [if_pos rfl] at h
          injection h with h1
          injection h1 with hvs hrest
          exact ⟨v, r1, 93, r2, rfl, hdw, Or.inr ⟨rfl, hvs.symm, hrest.symm⟩⟩
        · rw [if_neg h93] at h
          cases h

/-- Joint simulation of the streaming value reader and cursor loops against
the reference parser: whenever the reference parser accepts, the streaming
reader produces the same value for every sufficient fuel, consumes exactly the
same input, and restores the nesting discipline (a value preserves the level;
a cursor loop, entered just after the opening token bumped the level, lowers
it by one). -/
theorem value_sim_main : ∀ n : Nat,
    (∀ s v rest, Ready s → refValue n (charsOf s) = some (v, rest) →
      ∃ F s', (∀ g, F ≤ g → valueF g s = .ok (v, s')) ∧ Good s' ∧ charsOf s' = rest ∧
        s'.nestingLevel = s.nestingLevel) ∧
    (∀ s acc es rest, Good s → refObjEntries n (charsOf s) = some (es, rest) →
      ∃ F s', (∀ g, F ≤ g → objLoopAll g acc s = .ok (acc ++ es, s')) ∧ Good s' ∧
        charsOf s' = rest ∧ s'.nestingLevel = s.nestingLevel - 1) ∧
    (∀ s acc vs rest, Good s → refArrElems n (charsOf s) = some (vs, rest) →
      ∃ F s', (∀ g, F ≤ g → arrLoopAll g acc s = .ok (acc ++ vs, s')) ∧ Good s' ∧
        charsOf s' = rest ∧ s'.nestingLevel = s.nestingLevel - 1) := by
  intro n
  induction n with
  | zero =>
    refine ⟨?_, ?_, ?_⟩
    · intro s v rest hr href
      rw [refValue] at href
      cases href
    · intro s acc es rest hg href
      rw [refObjEntries] at href
      cases href
    · intro s acc vs rest hg href
      rw [refArrElems] at href
      cases href
  | succ n ih =>
    obtain ⟨ihV, ihO, ihA⟩ := ih
    refine ⟨?_, ?_, ?_⟩
    · intro s v rest hr href
      obtain ⟨c, r, hdw, hprops⟩ := refValue_cases href
      have hdw' : (charsOf s).dropWhile isWs4 = c :: r := hdw
      have hws := (valhead_props hprops).1
      obtain ⟨F1, s1, hrun1, hg1, hc1, hn1⟩ := cw_sim hr (by
        intro d hd
        rw [hdw'] at hd
        injection hd with hd
        rw [← hd]
        exact hws)
      rw [hdw'] at hc1
      obtain ⟨hcc1, haf1⟩ := good_tail hg1 hc1
      rcases hprops with rfl | rfl | rfl | rfl | rfl | rfl | hnum
      · -- string
        rw [refValue_str hdw] at href
        cases hsb : refStringBody r with
        | none => rw [hsb] at href; cases href
        | some pD =>
          obtain ⟨d, rest'⟩ := pD
          rw [hsb] at href
          dsimp only at href
          injection href with h1
          injection h1 with hv hrest
          obtain ⟨F2, s2, hrun2, hg2, hc2, hn2⟩ := parseString_sim
            (Or.inl ⟨hg1, by rw [hc1]; simp⟩)
            (by rw [hc1, List.dropWhile_cons_of_neg (by decide)]) hsb
          refine ⟨F1 + F2 + 1, s2, ?_, hg2, by rw [hc2]; exact hrest, by omega⟩
          intro g hgF
          obtain ⟨f, rfl⟩ : ∃ f, g = f + 1 := ⟨g - 1, by omega⟩
          rw [valueF]
          rw [M.bind_apply, hrun1 f (by omega)]
          dsimp only
          rw [M.bind_apply, peek_vstr hcc1]
          dsimp only
          rw [M.bind_apply, hrun2 f (by omega)]
          dsimp only
          rw [← hv]
          rfl
      · -- object
        rw [refValue_obj hdw] at href
        obtain ⟨s3, hent, hg3, hc3, hn3⟩ := enterObject_run hg1 hcc1
        rw [haf1] at hc3
        cases hdw2 : dropWs r with
        | nil => rw [hdw2] at href; cases href
        | cons c2 r2 =>
          rw [hdw2] at href
          dsimp only at href
          by_cases h125 : c2 = 125
          · subst h125
            rw [if_pos rfl] at href
            injection href with h1
            injection h1 with hv hrest
            obtain ⟨F4, s4, hrun4, hg4, hc4, hn4⟩ := objLoopAll_close
              (Or.inl ⟨hg3, by rw [hc3]; exact dropWs_cons_ne hdw2⟩)
              (by rw [hc3]; exact hdw2) []
            refine ⟨F1 + F4 + 2, s4, ?_, hg4, by rw [hc4]; exact hrest, by omega⟩
            intro g hgF
            obtain ⟨f, rfl⟩ : ∃ f, g = f + 1 := ⟨g - 1, by omega⟩
            obtain ⟨f', rfl⟩ : ∃ f', f = f' + 1 := ⟨f - 1, by omega⟩
            rw [valueF]
            rw [M.bind_apply, hrun1 (f' + 1) (by omega)]
            dsimp only
            rw [M.bind_apply, peek_vobj hcc1]
            dsimp only
            rw [M.bind_apply, hent (f' + 1)]
            dsimp only
            rw [M.bind_apply, hrun4 f' (by omega)]
            dsimp only
            rw [← hv]
            rfl
          · rw [if_neg h125] at href
            cases hoe : refObjEntries n r with
            | none => rw [hoe] at href; cases href
            | some pE =>
              obtain ⟨es, rest'⟩ := pE
              rw [hoe] at href
              dsimp only at href
              injection href with h1
              injection h1 with hv hrest
              obtain ⟨F4, s4, hrun4, hg4, hc4, hn4⟩ := ihO s3 [] es rest' hg3
                (by rw [hc3]; exact hoe)
              refine ⟨F1 + F4 + 1, s4, ?_, hg4, by rw [hc4]; exact hrest, by omega⟩
              intro g hgF
              obtain ⟨f, rfl⟩ : ∃ f, g = f + 1 := ⟨g - 1, by omega⟩
              rw [valueF]
              rw [M.bind_apply, hrun1 f (by omega)]
              dsimp only
              rw [M.bind_apply, peek_vobj hcc1]
              dsimp only
              rw [M.bind_apply, hent f]
              dsimp only
              rw [M.bind_apply, hrun4 f (by omega)]
              dsimp only
              rw [← hv, List.nil_append]
              rfl
      · -- array
        rw [refValue_arr hdw] at href
        obtain ⟨s3, hent, hg3, hc3, hn3⟩ := enterArray_run hg1 hcc1
        rw [haf1] at hc3
        cases hdw2 : dropWs r with
        | nil => rw [hdw2] at href; cases href
        | cons c2 r2 =>
          rw [hdw2] at href
          dsimp only at href
          by_cases h93 : c2 = 93
          · subst h93
            rw [if_pos rfl] at href
            injection href with h1
            injection h1 with hv hrest
            obtain ⟨F4, s4, hrun4, hg4, hc4, hn4⟩ := arrLoopAll_close
              (Or.inl ⟨hg3, by rw [hc3]; exact dropWs_cons_ne hdw2⟩)
              (by rw [hc3]; exact hdw2) []
            refine ⟨F1 + F4 + 2, s4, ?_, hg4, by rw [hc4]; exact hrest, by omega⟩
            intro g hgF
            obtain ⟨f, rfl⟩ : ∃ f, g = f + 1 := ⟨g - 1, by omega⟩
            obtain ⟨f', rfl⟩ : ∃ f', f = f' + 1 := ⟨f - 1, by omega⟩
            rw [valueF]
            rw [M.bind_apply, hrun1 (f' + 1) (by omega)]
            dsimp only
            rw [M.bind_apply, peek_varr hcc1]
            dsimp only
            rw [M.bind_apply, hent (f' + 1)]
            dsimp only
            rw [M.bind_apply, hrun4 f' (by omega)]
            dsimp only
            rw [← hv]
            rfl
          · rw [if_neg h93] at href
            cases hae : refArrElems n r with
            | none => rw [hae] at href; cases href
            | some pA =>
              obtain ⟨vs, rest'⟩ := pA
              rw [hae] at href
              dsimp only at href
              injection href with h1
              injection h1 with hv hrest
              obtain ⟨F4, s4, hrun4, hg4, hc4, hn4⟩ := ihA s3 [] vs rest' hg3
                (by rw [hc3]; exact hae)
              refine ⟨F1 + F4 + 1, s4, ?_, hg4, by rw [hc4]; exact hrest, by omega⟩
              intro g hgF
              obtain ⟨f, rfl⟩ : ∃ f, g = f + 1 := ⟨g - 1, by omega⟩
              rw [valueF]
              rw [M.bind_apply, hrun1 f (by omega)]
              dsimp only
              rw [M.bind_apply, peek_varr hcc1]
              dsimp only
              rw [M.bind_apply, hent f]
              dsimp only
              rw [M.bind_apply, hrun4 f (by omega)]
              dsimp only
              rw [← hv, List.nil_append]
              rfl
      · -- true
        rw [refValue_true hdw] at href
        rcases r with _ | ⟨a, _ | ⟨b, _ | ⟨d2, rest''⟩⟩⟩
        · cases href
        · cases href
        · cases href
        · dsimp only at href
          by_cases hkw : a = 114 ∧ b = 117 ∧ d2 = 101
          · obtain ⟨rfl, rfl, rfl⟩ := hkw
            rw [if_pos ⟨rfl, rfl, rfl⟩] at href
            injection href with h1
            injection h1 with hv hrest
            obtain ⟨F2, s2, hrun2, hg2, hc2, hn2⟩ := parseBoolean_sim_true
              (Or.inl ⟨hg1, by rw [hc1]; simp⟩)
              (by rw [hc1, List.dropWhile_cons_of_neg (by decide)])
            refine ⟨F1 + F2 + 1, s2, ?_, hg2, by rw [hc2]; exact hrest, by omega⟩
            intro g hgF
            obtain ⟨f, rfl⟩ : ∃ f, g = f + 1 := ⟨g - 1, by omega⟩
            rw [valueF]
            rw [M.bind_apply, hrun1 f (by omega)]
            dsimp only
            rw [M.bind_apply, peek_vtrue hcc1]
            dsimp only
            rw [hrun2 f (by omega), ← hv]
          · rw [if_neg hkw] at href
            cases href
      · -- false
        rw [refValue_false hdw] at href
        rcases r with _ | ⟨a, _ | ⟨b, _ | ⟨d2, _ | ⟨e2, rest''⟩⟩⟩⟩
        · cases href
        · cases href
        · cases href
        · cases href
        · dsimp only at href
          by_cases hkw : a = 97 ∧ b = 108 ∧ d2 = 115 ∧ e2 = 101
          · obtain ⟨rfl, rfl, rfl, rfl⟩ := hkw
            rw [if_pos ⟨rfl, rfl, rfl, rfl⟩] at href
            injection href with h1
            injection h1 with hv hrest
            obtain ⟨F2, s2, hrun2, hg2, hc2, hn2⟩ := parseBoolean_sim_false
              (Or.inl ⟨hg1, by rw [hc1]; simp⟩)
              (by rw [hc1, List.dropWhile_cons_of_neg (by decide)])
            refine ⟨F1 + F2 + 1, s2, ?_, hg2, by rw [hc2]; exact hrest, by omega⟩
            intro g hgF
            obtain ⟨f, rfl⟩ : ∃ f, g = f + 1 := ⟨g - 1, by omega⟩
            rw [valueF]
            rw [M.bind_apply, hrun1 f (by omega)]
            dsimp only
            rw [M.bind_apply, peek_vfalse hcc1]
            dsimp only
            rw [hrun2 f (by omega), ← hv]
          · rw [if_neg hkw] at href
            cases href
      · -- null
        rw [refValue_null hdw] at href
        rcases r with _ | ⟨a, _ | ⟨b, _ | ⟨d2, rest''⟩⟩⟩
        · cases href
        · cases href
        · cases href
        · dsimp only at href
          by_cases hkw : a = 117 ∧ b = 108 ∧ d2 = 108
          · obtain ⟨rfl, rfl, rfl⟩ := hkw
            rw [if_pos ⟨rfl, rfl, rfl⟩] at href
            injection href with h1
            injection h1 with hv hrest
            obtain ⟨F2, s2, hrun2, hg2, hc2, hn2⟩ := parseNull_sim
              (Or.inl ⟨hg1, by rw [hc1]; simp⟩)
              (by rw [hc1, List.dropWhile_cons_of_neg (by decide)])
            refine ⟨F1 + F2 + 1, s2, ?_, hg2, by rw [hc2]; exact hrest, by omega⟩
            intro g hgF
            obtain ⟨f, rfl⟩ : ∃ f, g = f + 1 := ⟨g - 1, by omega⟩
            rw [valueF]
            rw [M.bind_apply, hrun1 f (by omega)]
            dsimp only
            rw [M.bind_apply, peek_vnull hcc1]
            dsimp only
            rw [hrun2 f (by omega), ← hv]
          · rw [if_neg hkw] at href
            cases href
      · -- number
        rw [refValue_num hdw hnum] at href
        cases hrn : refNumber (c :: r) with
        | none => rw [hrn] at href; cases href
        | some pT =>
          obtain ⟨tok, rest'⟩ := pT
          rw [hrn] at href
          dsimp only at href
          injection href with h1
          injection h1 with hv hrest
          obtain ⟨F2, s2, hrun2, hg2, hc2, hn2⟩ := parseNumber_sim
            (Or.inl ⟨hg1, by rw [hc1]; simp⟩)
            (by rw [hc1, List.dropWhile_cons_of_neg
                (by simp [isWs4_false_of_isWsJS_false hws])]
                exact hrn)
          refine ⟨F1 + F2 + 1, s2, ?_, hg2, by rw [hc2]; exact hrest, by omega⟩
          intro g hgF
          obtain ⟨f, rfl⟩ : ∃ f, g = f + 1 := ⟨g - 1, by omega⟩
          rw [valueF]
          rw [M.bind_apply, hrun1 f (by omega)]
          dsimp only
          rw [M.bind_apply, peek_vnum hcc1 hnum]
          dsimp only
          rw [hrun2 f (by omega), ← hv]
    · intro s acc es rest hg href
      obtain ⟨r, k, r1, r2, v, r3, c3, r4, hdw, hsb, hdw2, hv, hdw3, hbr⟩ :=
        refObjEntries_decomp href
      have hdw' : (charsOf s).dropWhile isWs4 = 34 :: r := hdw
      obtain ⟨F1, s1, hrun1, hg1, hc1, hn1⟩ := cw_sim (Or.inl ⟨hg, dropWs_cons_ne hdw⟩) (by
        intro d hd
        rw [hdw'] at hd
        injection hd with hd
        rw [← hd]
        decide)
      rw [hdw'] at hc1
      obtain ⟨hcc1, haf1⟩ := good_tail hg1 hc1
      obtain ⟨F2, s2, hrun2, hg2, hc2, hn2⟩ := parseString_sim (Or.inl ⟨hg1, by rw [hc1]; simp⟩)
        (by rw [hc1, List.dropWhile_cons_of_neg (by decide)]) hsb
      have hdw2' : (charsOf s2).dropWhile isWs4 = 58 :: r2 := by rw [hc2]; exact hdw2
      obtain ⟨F3, s3, hrun3, hg3, hc3, hn3⟩ := cw_sim
        (Or.inl ⟨hg2, by rw [hc2]; exact dropWs_cons_ne hdw2⟩) (by
        intro d hd
        rw [hdw2'] at hd
        injection hd with hd
        rw [← hd]
        decide)
      rw [hdw2'] at hc3
      obtain ⟨hcc3, haf3⟩ := good_tail hg3 hc3
      have hassert3 : assertChar [58] s3 = .ok ((), s3) := assert_ok hcc3 (by decide)
      obtain ⟨s4, hrun4, hg4, hc4, hn4⟩ := nextChar_adv hg3 hcc3
      rw [haf3] at hc4
      obtain ⟨F5, s5, hrun5, hg5, hc5, hn5⟩ := ihV s4 v r3
        (Or.inl ⟨hg4, by rw [hc4]; exact refValue_ne_nil hv⟩) (by rw [hc4]; exact hv)
      have hdw3' : (charsOf s5).dropWhile isWs4 = c3 :: r4 := by rw [hc5]; exact hdw3
      rcases hbr with ⟨rfl, es', hoe, hes⟩ | ⟨rfl, hes, hrest⟩
      · obtain ⟨F6, s6, hrun6, hg6, hc6, hn6⟩ := cw_sim
          (Or.inl ⟨hg5, by rw [hc5]; exact dropWs_cons_ne hdw3⟩) (by
          intro d hd
          rw [hdw3'] at hd
          injection hd with hd
          rw [← hd]
          decide)
        rw [hdw3'] at hc6
        obtain ⟨hcc6, haf6⟩ := good_tail hg6 hc6
        have hassert6 : assertChar [44, 125] s6 = .ok ((), s6) := assert_ok hcc6 (by decide)
        obtain ⟨s7, hsep, hg7, hc7, hn7⟩ := sepAdvance_comma hg6 hcc6
        rw [haf6] at hc7
        obtain ⟨F8, s8, hrun8, hg8, hc8, hn8⟩ := ihO s7 (acc ++ [(k, v)]) es' rest hg7
          (by rw [hc7]; exact hoe)
        refine ⟨F1 + F2 + F3 + F5 + F6 + F8 + 1, s8, ?_, hg8, hc8, by omega⟩
        intro g hgF
        obtain ⟨f, rfl⟩ : ∃ f, g = f + 1 := ⟨g - 1, by omega⟩
        rw [objLoopAll]
        rw [M.bind_apply, hrun1 f (by omega)]
        dsimp only
        rw [mget_bind]
        rw [if_neg (show ¬ s1.currentChar = some 125 by rw [hcc1]; decide)]
        rw [M.bind_apply, hrun2 f (by omega)]
        dsimp only
        rw [M.bind_apply, hrun3 f (by omega)]
        dsimp only
        rw [M.bind_apply, hassert3]
        dsimp only
        rw [M.bind_apply, hrun4]
        dsimp only
        rw [M.bind_apply, hrun5 f (by omega)]
        dsimp only
        rw [M.bind_apply, hrun6 f (by omega)]
        dsimp only
        rw [M.bind_apply, hassert6]
        dsimp only
        rw [M.bind_apply, hsep]
        dsimp only
        rw [hrun8 f (by omega), hes]
        simp
      · obtain ⟨F6, s6, hrun6, hg6, hc6, hn6⟩ := cw_sim
          (Or.inl ⟨hg5, by rw [hc5]; exact dropWs_cons_ne hdw3⟩) (by
          intro d hd
          rw [hdw3'] at hd
          injection hd with hd
          rw [← hd]
          decide)
        rw [hdw3'] at hc6
        obtain ⟨hcc6, haf6⟩ := good_tail hg6 hc6
        have hassert6 : assertChar [44, 125] s6 = .ok ((), s6) := assert_ok hcc6 (by decide)
        have hsep : sepAdvance s6 = .ok ((), s6) := sepAdvance_skip hcc6 (by decide)
        obtain ⟨F8, s8, hrun8, hg8, hc8, hn8⟩ := objLoopAll_close
          (Or.inl ⟨hg6, by rw [hc6]; simp⟩)
          (by rw [hc6, List.dropWhile_cons_of_neg (by decide)]) (acc ++ [(k, v)])
        refine ⟨F1 + F2 + F3 + F5 + F6 + F8 + 2, s8, ?_, hg8,
          by rw [hc8]; exact hrest.symm, by omega⟩
        intro g hgF
        obtain ⟨f, rfl⟩ : ∃ f, g = f + 1 := ⟨g - 1, by omega⟩
        obtain ⟨f', rfl⟩ : ∃ f', f = f' + 1 := ⟨f - 1, by omega⟩
        rw [objLoopAll]
        rw [M.bind_apply, hrun1 (f' + 1) (by omega)]
        dsimp only
        rw [mget_bind]
        rw [if_neg (show ¬ s1.currentChar = some 125 by rw [hcc1]; decide)]
        rw [M.bind_apply, hrun2 (f' + 1) (by omega)]
        dsimp only
        rw [M.bind_apply, hrun3 (f' + 1) (by omega)]
        dsimp only
        rw [M.bind_apply, hassert3]
        dsimp only
        rw [M.bind_apply, hrun4]
        dsimp only
        rw [M.bind_apply, hrun5 (f' + 1) (by omega)]
        dsimp only
        rw [M.bind_apply, hrun6 (f' + 1) (by omega)]
        dsimp only
        rw [M.bind_apply, hassert6]
        dsimp only
        rw [M.bind_apply, hsep]
        dsimp only
        rw [hrun8 f' (by omega), hes]
    · intro s acc vs rest hg href
      obtain ⟨v, r1, c, r2, hv, hdw1, hbr⟩ := refArrElems_decomp href
      obtain ⟨c0, r0, hdw0, hprops0⟩ := refValue_cases hv
      have hws0 := (valhead_props hprops0).1
      have h93 : c0 ≠ 93 := (valhead_props hprops0).2.1
      have hdw0' : (charsOf s).dropWhile isWs4 = c0 :: r0 := hdw0
      obtain ⟨F1, s1, hrun1, hg1, hc1, hn1⟩ := cw_sim (Or.inl ⟨hg, dropWs_cons_ne hdw0⟩) (by
        intro d hd
        rw [hdw0'] at hd
        injection hd with hd
        rw [← hd]
        exact hws0)
      rw [hdw0'] at hc1
      obtain ⟨hcc1, haf1⟩ := good_tail hg1 hc1
      obtain ⟨F5, s5, hrun5, hg5, hc5, hn5⟩ := ihV s1 v r1 (Or.inl ⟨hg1, by rw [hc1]; simp⟩)
        (by rw [hc1, ← hdw0']; exact (refValue_dropWs n (charsOf s)).trans hv)
      have hdw1' : (charsOf s5).dropWhile isWs4 = c :: r2 := by rw [hc5]; exact hdw1
      rcases hbr with ⟨rfl, vs', hae, hvs⟩ | ⟨rfl, hvs, hrest⟩
      · obtain ⟨F6, s6, hrun6, hg6, hc6, hn6⟩ := cw_sim
          (Or.inl ⟨hg5, by rw [hc5]; exact dropWs_cons_ne hdw1⟩) (by
          intro d hd
          rw [hdw1'] at hd
          injection hd with hd
          rw [← hd]
          decide)
        rw [hdw1'] at hc6
        obtain ⟨hcc6, haf6⟩ := good_tail hg6 hc6
        have hassert6 : assertChar [44, 93] s6 = .ok ((), s6) := assert_ok hcc6 (by decide)
        obtain ⟨s7, hsep, hg7, hc7, hn7⟩ := sepAdvance_comma hg6 hcc6
        rw [haf6] at hc7
        obtain ⟨F8, s8, hrun8, hg8, hc8, hn8⟩ := ihA s7 (acc ++ [v]) vs' rest hg7
          (by rw [hc7]; exact hae)
        refine ⟨F1 + F5 + F6 + F8 + 1, s8, ?_, hg8, hc8, by omega⟩
        intro g hgF
        obtain ⟨f, rfl⟩ : ∃ f, g = f + 1 := ⟨g - 1, by omega⟩
        rw [arrLoopAll]
        rw [M.bind_apply, hrun1 f (by omega)]
        dsimp only
        rw [mget_bind]
        rw [if_neg (show ¬ s1.currentChar = some 93 by
          rw [hcc1]
          simp only [Option.some.injEq]
          exact h93)]
        rw [M.bind_apply, hrun5 f (by omega)]
        dsimp only
        rw [M.bind_apply, hrun6 f (by omega)]
        dsimp only
        rw [M.bind_apply, hassert6]
        dsimp only
        rw [M.bind_apply, hsep]
        dsimp only
        rw [hrun8 f (by omega), hvs]
        simp
      · obtain ⟨F6, s6, hrun6, hg6, hc6, hn6⟩ := cw_sim
          (Or.inl ⟨hg5, by rw [hc5]; exact dropWs_cons_ne hdw1⟩) (by
          intro d hd
          rw [hdw1'] at hd
          injection hd with hd
          rw [← hd]
          decide)
        rw [hdw1'] at hc6
        obtain ⟨hcc6, haf6⟩ := good_tail hg6 hc6
        have hassert6 : assertChar [44, 93] s6 = .ok ((), s6) := assert_ok hcc6 (by decide)
        have hsep : sepAdvance s6 = .ok ((), s6) := sepAdvance_skip hcc6 (by decide)
        obtain ⟨F8, s8, hrun8, hg8, hc8, hn8⟩ := arrLoopAll_close
          (Or.inl ⟨hg6, by rw [hc6]; simp⟩)
          (by rw [hc6, List.dropWhile_cons_of_neg (by decide)]) (acc ++ [v])
        refine ⟨F1 + F5 + F6 + F8 + 2, s8, ?_, hg8,
          by rw [hc8]; exact hrest.symm, by omega⟩
        intro g hgF
        obtain ⟨f, rfl⟩ : ∃ f, g = f + 1 := ⟨g - 1, by omega⟩
        obtain ⟨f', rfl⟩ : ∃ f', f = f' + 1 := ⟨f - 1, by omega⟩
        rw [arrLoopAll]
        rw [M.bind_apply, hrun1 (f' + 1) (by omega)]
        dsimp only
        rw [mget_bind]
        rw [if_neg (show ¬ s1.currentChar = some 93 by
          rw [hcc1]
          simp only [Option.some.injEq]
          exact h93)]
        rw [M.bind_apply, hrun5 (f' + 1) (by omega)]
        dsimp only
        rw [M.bind_apply, hrun6 (f' + 1) (by omega)]
        dsimp only
        rw [M.bind_apply, hassert6]
        dsimp only
        rw [M.bind_apply, hsep]
        dsimp only
        rw [hrun8 f' (by omega), hvs]

/-- Claim C1: partition invariance of the streaming value reader.  For every
JSON document accepted by the reference parser and every partition of its code
units into nonempty fragments, reading a value from the fragment stream
succeeds for every sufficient fuel and produces exactly the value tree of the
reference parser, leaving exactly the input past the value unconsumed. -/
theorem value_partition_invariant (frags : List (List CU)) (n : Nat) (v : JValue)
    (rest : List CU) (hne : ∀ fr ∈ frags, fr ≠ [])
    (href : refValue n frags.flatten = some (v, rest)) :
    ∃ F s', (∀ g, F ≤ g → valueF g (initSJ frags) = .ok (v, s')) ∧ Good s' ∧
      charsOf s' = rest := by
  have hco : charsOf (initSJ frags) = frags.flatten := by
    simp [charsOf, afterCC, initSJ]
  have hr : Ready (initSJ frags) := Or.inr ⟨hne, rfl, rfl, by
    intro hfr
    rw [show frags = [] from hfr] at href
    rw [show (([] : List (List CU)).flatten) = ([] : List CU) from rfl, refValue_nil] at href
    cases href⟩
  obtain ⟨F, s', hrun, hg', hc', hn'⟩ := (value_sim_main n).1 (initSJ frags) v rest hr
    (by rw [hco]; exact href)
  exact ⟨F, s', hrun, hg', hc'⟩

/-- Witness for C1: the document holding one object with a string key and an
array of a number and a boolean, partitioned in the middle of the array. -/
theorem value_partition_invariant_witness :
    (∀ fr ∈ ([[123, 34, 97, 34, 58], [32, 91, 49, 48, 44, 116, 114, 117, 101, 93, 125]] :
      List (List CU)), fr ≠ []) ∧
    refValue 8 ([[123, 34, 97, 34, 58], [32, 91, 49, 48, 44, 116, 114, 117, 101, 93, 125]] :
        List (List CU)).flatten =
      some (.jobj [([97], .jarr [.jnum [49, 48], .jbool true])], []) ∧
    (∃ F s', (∀ g, F ≤ g →
        valueF g (initSJ [[123, 34, 97, 34, 58],
          [32, 91, 49, 48, 44, 116, 114, 117, 101, 93, 125]]) =
          .ok (.jobj [([97], .jarr [.jnum [49, 48], .jbool true])], s')) ∧ Good s' ∧
      charsOf s' = []) :=
  ⟨by decide, rfl,
    value_partition_invariant [[123, 34, 97, 34, 58],
      [32, 91, 49, 48, 44, 116, 114, 117, 101, 93, 125]] 8
      (.jobj [([97], .jarr [.jnum [49, 48], .jbool true])]) [] (by decide) rfl⟩

/-- Counterexample to claim C6 as stated: on the input stream holding the
single fragment of the digit one, a space and the digit two, the first value
read returns the number one, and a second value read from the resulting state
does not fail: it succeeds and returns the number two.  The parser does not
refuse a second top-level value. -/
theorem second_top_level_value_accepted :
    valueF 5 (initSJ [[49, 32, 50]]) =
      .ok (.jnum [49],
        { currentChar := some 32, buffer := [50], stream := [], nestingLevel := 0 }) ∧
    valueF 5 { currentChar := some 32, buffer := [50], stream := [], nestingLevel := 0 } =
      .ok (.jnum [50],
        { currentChar := none, buffer := [], stream := [], nestingLevel := 0 }) :=
  ⟨rfl, rfl⟩

/-- Claim C6 (amended): the parser does not refuse a second top-level value.
After the top-level value completes, a further value read treats the trailing
input as a fresh top-level value: it succeeds exactly when the trailing input
is itself a value the reference parser accepts, returning that value. -/
theorem second_top_level_value_parsed (frags : List (List CU)) (n : Nat)
    (v1 v2 : JValue) (mid rest : List CU) (hne : ∀ fr ∈ frags, fr ≠ [])
    (h1 : refValue n frags.flatten = some (v1, mid))
    (h2 : refValue n mid = some (v2, rest)) :
    ∃ F s1 s2, (∀ g, F ≤ g → valueF g (initSJ frags) = .ok (v1, s1) ∧
      valueF g s1 = .ok (v2, s2)) ∧ charsOf s2 = rest := by
  have hco : charsOf (initSJ frags) = frags.flatten := by
    simp [charsOf, afterCC, initSJ]
  have hr : Ready (initSJ frags) := Or.inr ⟨hne, rfl, rfl, by
    intro hfr
    rw [show frags = [] from hfr] at h1
    rw [show (([] : List (List CU)).flatten) = ([] : List CU) from rfl, refValue_nil] at h1
    cases h1⟩
  obtain ⟨F1, s1, hrun1, hg1, hc1, hn1⟩ := (value_sim_main n).1 (initSJ frags) v1 mid hr
    (by rw [hco]; exact h1)
  have hr1 : Ready s1 := Or.inl ⟨hg1, by
    rw [hc1]
    exact refValue_ne_nil h2⟩
  obtain ⟨F2, s2, hrun2, hg2, hc2, hn2⟩ := (value_sim_main n).1 s1 v2 rest hr1
    (by rw [hc1]; exact h2)
  exact ⟨max F1 F2, s1, s2, fun g hg =>
    ⟨hrun1 g (le_trans (le_max_left _ _) hg), hrun2 g (le_trans (le_max_right _ _) hg)⟩,
    hc2⟩

/-- Witness for the amended C6 at the input of two numbers separated by a
space. -/
theorem second_top_level_value_parsed_witness :
    (∀ fr ∈ ([[49, 32, 50]] : List (List CU)), fr ≠ []) ∧
    refValue 1 ([[49, 32, 50]] : List (List CU)).flatten = some (.jnum [49], [32, 50]) ∧
    refValue 1 [32, 50] = some (.jnum [50], []) ∧
    (∃ F s1 s2, (∀ g, F ≤ g → valueF g (initSJ [[49, 32, 50]]) = .ok (.jnum [49], s1) ∧
      valueF g s1 = .ok (.jnum [50], s2)) ∧ charsOf s2 = []) :=
  ⟨by decide, rfl, rfl,
    second_top_level_value_parsed [[49, 32, 50]] 1 (.jnum [49]) (.jnum [50]) [32, 50] []
      (by decide) rfl rfl⟩
